import Mathlib

/-!
# Verification of the nearly_cc optimizing backend (CFG construction, dataflow, transforms)

Shallow embedding of the linear-IR / control-flow-graph core of the `nearly_cc`
compiler backend:

* `Operand`, `Instr`, `ISeq` — the operand / instruction / instruction-sequence
  data model (`operand.h`, `instruction.h`, `instruction_seq.h/.cpp`);
* `CFG` with `createBasicBlock` / `adoptBasicBlock` / `createEdge` /
  `lookupEdge` and linear reconstruction (`cfg.h`, `cfg.cpp`);
* the worklist CFG builder (`cfg_builder.h`);
* the generic forward/backward dataflow engine (`dataflow.h`) and the
  `LiveVregsAnalysis` instance (`live_vregs.h`, `highlevel_defuse.cpp`);
* the CFG transform framework (`cfg_transform.cpp`) and the `LVN` / `DSE`
  transforms (`highlevel_opt.cpp`).

C++ `shared_ptr` identity of basic blocks is represented by a block's index
(= its `block_id`) in the owning CFG's block list; pointer identity of an
instruction inside a basic block is represented by the instruction's position
in the block.  Fallible operations (C++ `assert` / `RuntimeError::raise`)
return `Except CErr` / `Option`.  Instruction `duplicate()` is the identity on
values (comments and symbol links, which no claim observes, are omitted).
-/

/-- Operand kinds, from the `Operand::Kind` enumeration in `operand.h`. -/
inductive OperandKind where
  | NONE
  | VREG
  | VREG_MEM
  | VREG_MEM_OFF
  | MREG8
  | MREG16
  | MREG32
  | MREG64
  | MREG64_MEM
  | MREG64_MEM_IDX
  | MREG64_MEM_OFF
  | MREG64_MEM_IDX_SCALE
  | IMM_IVAL
  | LABEL
  | IMM_LABEL
deriving DecidableEq, Repr

/-- Operand of an instruction (`operand.h`): a kind tag plus base register,
index register, immediate integer value and label fields.  A register field
holds `-1` when absent (per `has_base_reg() { return m_basereg >= 0; }`). -/
structure Operand where
  kind : OperandKind := .NONE
  basereg : Int := -1
  indexreg : Int := -1
  immIval : Int := 0
  label : String := ""
deriving DecidableEq, Repr

namespace Operand

/-- `Operand::is_imm_ival`. -/
def isImmIval (o : Operand) : Bool := o.kind = .IMM_IVAL

/-- `Operand::is_label`. -/
def isLabel (o : Operand) : Bool := o.kind = .LABEL

/-- `Operand::is_imm_label`. -/
def isImmLabel (o : Operand) : Bool := o.kind = .IMM_LABEL

/-- `Operand::has_base_reg` (inline in `operand.h`). -/
def hasBaseReg (o : Operand) : Bool := o.basereg ≥ 0

/-- `Operand::has_index_reg`.  Modelled from the spec: `operand.cpp` is not in
the sources; per the header documentation an operand has an index register iff
its kind implies one; represented by a non-negative index-register field. -/
def hasIndexReg (o : Operand) : Bool := o.indexreg ≥ 0

/-- `Operand::is_memref`.  Modelled from the spec: `operand.cpp` is not in the
sources; the memory-reference kinds are the ones documented as "memref" in the
`Operand::Kind` table of `operand.h`. -/
def isMemref (o : Operand) : Bool :=
  o.kind = .VREG_MEM ∨ o.kind = .VREG_MEM_OFF ∨ o.kind = .MREG64_MEM ∨
  o.kind = .MREG64_MEM_IDX ∨ o.kind = .MREG64_MEM_OFF ∨ o.kind = .MREG64_MEM_IDX_SCALE

/-- `Operand::get_base_reg`. -/
def getBaseReg (o : Operand) : Int := o.basereg

/-- `Operand::get_index_reg`. -/
def getIndexReg (o : Operand) : Int := o.indexreg

/-- `Operand::get_imm_ival`. -/
def getImmIval (o : Operand) : Int := o.immIval

/-- `Operand::get_label`. -/
def getLabel (o : Operand) : String := o.label

/-- The two-argument constructor `Operand(Kind kind, long ival1)`.
Modelled from the spec: `operand.cpp` is not in the sources; per the header
documentation `ival1` is "either basereg or imm_ival (depending on operand
Kind)". -/
def make1 (k : OperandKind) (ival1 : Int) : Operand :=
  if k = .IMM_IVAL then { kind := k, immIval := ival1 }
  else { kind := k, basereg := ival1 }

/-- The label constructor `Operand(Kind kind, const std::string &label)`. -/
def makeLabel (k : OperandKind) (l : String) : Operand :=
  { kind := k, label := l }

end Operand

/-- Instruction (`instruction.h`): an opcode tag plus an ordered list of
operands.  Opcode values are the ordinals of the `HighLevelOpcode` /
`LowLevelOpcode` enumerations, represented as `Nat`. -/
structure Instr where
  opcode : Nat
  operands : List Operand
deriving DecidableEq, Repr

namespace Instr

/-- `Instruction::get_num_operands`. -/
def getNumOperands (i : Instr) : Nat := i.operands.length

/-- `Instruction::get_operand` (out-of-range access is modelled by a default
`NONE` operand; the C++ `std::vector::at` would throw). -/
def getOperand (i : Instr) (idx : Nat) : Operand := i.operands.getD idx {}

/-- `Instruction::get_last_operand`. -/
def getLastOperand (i : Instr) : Operand := i.getOperand (i.getNumOperands - 1)

end Instr

/-! High-level opcode tags used by the claims (`HINS_*`).  Modelled from the
spec: `highlevel.h` is not in the sources; only the distinctness of the tags
and their identities matter, so they are assigned arbitrary distinct `Nat`
values here. -/

def HINS_nop : Nat := 0
def HINS_ret : Nat := 1
def HINS_jmp : Nat := 2
def HINS_enter : Nat := 3
def HINS_leave : Nat := 4
def HINS_cjmp_t : Nat := 5
def HINS_cjmp_f : Nat := 6
def HINS_call : Nat := 7
def HINS_mov_b : Nat := 8
def HINS_mov_w : Nat := 9
def HINS_mov_l : Nat := 10
def HINS_mov_q : Nat := 11
def HINS_add_b : Nat := 12
def HINS_add_w : Nat := 13
def HINS_add_l : Nat := 14
def HINS_add_q : Nat := 15
def HINS_mul_b : Nat := 16
def HINS_mul_w : Nat := 17
def HINS_mul_l : Nat := 18
def HINS_mul_q : Nat := 19
def HINS_sub_q : Nat := 20
def HINS_localaddr : Nat := 21

/-! Low-level opcode tags used by `LowLevelInstructionProperties`
(`lowlevel.h`).  Only `MINS_JMP` and `MINS_CALL` are distinguished by control
flow; arbitrary distinct values. -/

def MINS_JMP : Nat := 100
def MINS_CALL : Nat := 101
def MINS_NOP : Nat := 102
def MINS_RET : Nat := 103
def MINS_MOVQ : Nat := 104
def MINS_ADDQ : Nat := 105
def MINS_JE : Nat := 106

/-- Basic block kinds (`cfg.h`, enum `BasicBlockKind`). -/
inductive BasicBlockKind where
  | ENTRY
  | EXIT
  | INTERIOR
deriving DecidableEq, Repr

/-- Control-flow edge kinds (`cfg.h`, enum `EdgeKind`). -/
inductive EdgeKind where
  | FALLTHROUGH
  | BRANCH
deriving DecidableEq, Repr

/-- A slot of an `InstructionSequence` (`instruction_seq.h`): an instruction
together with its (at most one) label, `""` meaning no label. -/
structure Slot where
  label : String
  ins : Instr
deriving DecidableEq, Repr

/-- `InstructionSequence` (`instruction_seq.h/.cpp`): an ordered list of
labeled instruction slots, a pending label for the next appended instruction,
and — when used as a CFG basic block — a kind, block id and code order.
The C++ `m_label_map` is derived from the slots (see `labelIndex`). -/
structure ISeq where
  slots : List Slot := []
  nextLabel : String := ""
  kind : BasicBlockKind := .INTERIOR
  blockId : Nat := 0
  codeOrder : Int := -1
deriving DecidableEq, Repr

instance : Inhabited ISeq := ⟨{}⟩

namespace ISeq

/-- The constructor `InstructionSequence(kind, code_order, block_label)`:
the block label becomes the pending `m_next_label`. -/
def mkBlock (kind : BasicBlockKind) (codeOrder : Int) (blockLabel : String) : ISeq :=
  { slots := [], nextLabel := blockLabel, kind := kind, blockId := 0, codeOrder := codeOrder }

/-- `InstructionSequence::append`: the pending label (if any) is attached to
the appended instruction's slot and cleared. -/
def append (s : ISeq) (ins : Instr) : ISeq :=
  { s with slots := s.slots ++ [{ label := s.nextLabel, ins := ins }], nextLabel := "" }

/-- `InstructionSequence::get_length`. -/
def length (s : ISeq) : Nat := s.slots.length

/-- The instructions of the sequence, in order (labels stripped). -/
def instrs (s : ISeq) : List Instr := s.slots.map Slot.ins

/-- `InstructionSequence::get_instruction` (out-of-range modelled by a default). -/
def getInstruction (s : ISeq) (idx : Nat) : Instr := (s.slots.getD idx ⟨"", ⟨0, []⟩⟩).ins

/-- `InstructionSequence::get_last_instruction`. -/
def getLastInstruction (s : ISeq) : Instr := s.getInstruction (s.length - 1)

/-- `InstructionSequence::has_label(unsigned index)`. -/
def hasLabelAt (s : ISeq) (idx : Nat) : Bool := (s.slots.getD idx ⟨"", ⟨0, []⟩⟩).label ≠ ""

/-- `InstructionSequence::has_label_at_end`. -/
def hasLabelAtEnd (s : ISeq) : Bool := s.nextLabel ≠ ""

/-- `InstructionSequence::define_label`: fails (C++ `assert`) if a label is
already pending. -/
def defineLabel (s : ISeq) (l : String) : Option ISeq :=
  if s.nextLabel = "" then some { s with nextLabel := l } else none

/-- The derived `m_label_map` lookup: the index recorded for label `l`.
`append` overwrites `m_label_map[label]`, so a duplicated label resolves to
its last occurrence; the empty label is never entered into the map. -/
def labelIndex (s : ISeq) (l : String) : Option Nat :=
  if l = "" then none
  else (s.slots.enum.foldl
    (fun acc p => if p.2.label = l then some p.1 else acc) none)

/-- `InstructionSequence::get_index_of_labeled_instruction`, which raises a
`RuntimeError` when no instruction has the label: `none` models the raise. -/
def getIndexOfLabeledInstruction (s : ISeq) (l : String) : Option Nat :=
  s.labelIndex l

/-- `InstructionSequence::has_block_label`. -/
def hasBlockLabel (s : ISeq) : Bool :=
  match s.slots with
  | [] => s.hasLabelAtEnd
  | sl :: _ => sl.label ≠ ""

/-- `InstructionSequence::get_block_label`. -/
def getBlockLabel (s : ISeq) : String :=
  match s.slots with
  | [] => s.nextLabel
  | sl :: _ => sl.label

/-- `InstructionSequence::set_block_label`: on an empty block this goes
through `define_label` (whose assert can fire); on a nonempty block it
overwrites the first slot's label. -/
def setBlockLabel (s : ISeq) (l : String) : Option ISeq :=
  match s.slots with
  | [] => s.defineLabel l
  | sl :: rest => some { s with slots := { sl with label := l } :: rest }

end ISeq

/-- A control-flow edge (`cfg.h`, class `Edge`), with the source and target
blocks represented by their ids in the owning CFG. -/
structure CfgEdge where
  src : Nat
  tgt : Nat
  kind : EdgeKind
deriving DecidableEq, Repr

/-- Errors modelling the `assert` / `RuntimeError` failure points of the CFG
and builder code. -/
inductive CErr where
  | duplicateEdge
  | edgeEndpointNotOwned
  | duplicateEntry
  | duplicateExit
  | unresolvedLabel
  | branchLabelMismatch
  | noFallthroughToExit
  | workIndexOutOfRange
  | fallthroughTargetOutOfRange
  | branchHasNoOperands
  | branchLastOperandNotLabel
  | pendingLabelOnBlock
  | fuelExhausted
deriving DecidableEq, Repr

/-- `ControlFlowGraph` (`cfg.h/.cpp`): the owned list of basic blocks (a
block's id is its index in this list, assigned by `adoptBasicBlock`), the
edges in creation order, and the distinguished entry/exit blocks.  The C++
per-source/per-target edge maps are derived by filtering `edges`, which
preserves each source's (resp. target's) insertion order. -/
structure CFG where
  blocks : List ISeq := []
  edges : List CfgEdge := []
  entryId : Option Nat := none
  exitId : Option Nat := none
deriving DecidableEq, Repr

instance : Inhabited CFG := ⟨{}⟩

namespace CFG

/-- `ControlFlowGraph::get_num_blocks`. -/
def getNumBlocks (g : CFG) : Nat := g.blocks.length

/-- `ControlFlowGraph::get_block` (by block id). -/
def getBlock (g : CFG) (id : Nat) : ISeq := g.blocks.getD id {}

/-- `ControlFlowGraph::adopt_basic_block`: assigns the next block id, appends
the block, and updates `m_entry` / `m_exit` (whose asserts fail on a second
entry or exit block).  Returns the updated CFG and the new block's id. -/
def adoptBasicBlock (g : CFG) (bb : ISeq) : Except CErr (CFG × Nat) :=
  let id := g.blocks.length
  let bb := { bb with blockId := id }
  let g1 : CFG := { g with blocks := g.blocks ++ [bb] }
  match bb.kind with
  | .ENTRY =>
    if g.entryId = none then .ok ({ g1 with entryId := some id }, id)
    else .error .duplicateEntry
  | .EXIT =>
    if g.exitId = none then .ok ({ g1 with exitId := some id }, id)
    else .error .duplicateExit
  | .INTERIOR => .ok (g1, id)

/-- `ControlFlowGraph::create_basic_block`. -/
def createBasicBlock (g : CFG) (kind : BasicBlockKind) (codeOrder : Int)
    (label : String) : Except CErr (CFG × Nat) :=
  g.adoptBasicBlock (ISeq.mkBlock kind codeOrder label)

/-- `ControlFlowGraph::get_outgoing_edges` for the block with id `s`. -/
def getOutgoingEdges (g : CFG) (s : Nat) : List CfgEdge :=
  g.edges.filter (fun e => e.src = s)

/-- `ControlFlowGraph::get_incoming_edges` for the block with id `t`. -/
def getIncomingEdges (g : CFG) (t : Nat) : List CfgEdge :=
  g.edges.filter (fun e => e.tgt = t)

/-- `ControlFlowGraph::lookup_edge`: the first edge from `s` to `t` in the
source's outgoing-edge list, irrespective of the edge's kind. -/
def lookupEdge (g : CFG) (s t : Nat) : Option CfgEdge :=
  (g.getOutgoingEdges s).find? (fun e => e.tgt = t)

/-- `ControlFlowGraph::create_edge`: asserts that both endpoints are blocks of
this CFG and that no edge (of any kind) from `s` to `t` exists yet, then
appends the new edge. -/
def createEdge (g : CFG) (s t : Nat) (kind : EdgeKind) : Except CErr CFG :=
  if s < g.blocks.length ∧ t < g.blocks.length then
    match g.lookupEdge s t with
    | some _ => throw .duplicateEdge
    | none => pure { g with edges := g.edges ++ [{ src := s, tgt := t, kind := kind }] }
  else throw .edgeEndpointNotOwned

end CFG

/-! ## CFG builder (`cfg_builder.h`) -/

/-- The `InstructionProperties` capability the builder is templated by:
which instructions are function calls and which can fall through. -/
structure InsProps where
  isFunctionCall : Instr → Bool
  fallsThrough : Instr → Bool

/-- `LowLevelInstructionProperties` (`lowlevel.h`): a call is `MINS_CALL`;
only an unconditional `MINS_JMP` does not fall through. -/
def lowLevelProps : InsProps :=
  { isFunctionCall := fun i => i.opcode = MINS_CALL
    fallsThrough := fun i => i.opcode ≠ MINS_JMP }

/-- `HighLevelInstructionProperties`.  Modelled from the spec: `highlevel.h`
is not in the sources; per spec §6 a call is recognized by `is_call`
(`HINS_call`) and `falls_through` is "true for every instruction except an
unconditional jump" (`HINS_jmp`). -/
def highLevelProps : InsProps :=
  { isFunctionCall := fun i => i.opcode = HINS_call
    fallsThrough := fun i => i.opcode ≠ HINS_jmp }

/-- `ControlFlowGraphBuilder::is_branch` (default implementation): an
instruction whose last operand is a label operand. -/
def isBranchIns (i : Instr) : Bool :=
  i.getNumOperands > 0 ∧ (i.getOperand (i.getNumOperands - 1)).kind = .LABEL

/-- A work item of `ControlFlowGraphBuilder::build`'s worklist, with the
predecessor block given by id. -/
structure WorkItem where
  insIndex : Nat
  pred : Nat
  edgeKind : EdgeKind
  label : String := ""
deriving DecidableEq, Repr

/-- The loop body of `ControlFlowGraphBuilder::scan_basic_block`: keep
appending (duplicates of) instructions starting at `index` until a branch or
function call was just added, the next instruction is labeled, or the input
sequence ends. -/
def scanGo (props : InsProps) (seq : ISeq) : Nat → ISeq → Nat → ISeq
  | 0, bb, _ => bb
  | fuel + 1, bb, index =>
    if index < seq.length then
      let ins := seq.getInstruction index
      let bb := bb.append ins
      let index := index + 1
      if index ≥ seq.length then bb
      else if props.isFunctionCall ins then bb
      else if isBranchIns ins then bb
      else if seq.hasLabelAt index then bb
      else scanGo props seq fuel bb index
    else bb

/-- `ControlFlowGraphBuilder::scan_basic_block`: a fresh `BASICBLOCK_INTERIOR`
block with code order = start index and block label = the work item's label,
filled by `scanGo`.  The fuel `seq.length - insIndex` is exactly the maximal
number of iterations of the scanning loop, which advances `index` by one per
iteration and stops no later than the end of the sequence. -/
def scanBasicBlock (props : InsProps) (seq : ISeq) (insIndex : Nat)
    (label : String) : ISeq :=
  scanGo props seq (seq.length - insIndex)
    (ISeq.mkBlock .INTERIOR (Int.ofNat insIndex) label) insIndex

/-- `ControlFlowGraphBuilder::ends_in_branch`. -/
def endsInBranch (props : InsProps) (bb : ISeq) : Bool :=
  ¬ props.isFunctionCall bb.getLastInstruction ∧ isBranchIns bb.getLastInstruction

/-- The state of `ControlFlowGraphBuilder::build`'s worklist loop: the CFG
under construction, the map from instruction index to the id of the basic
block scanned there (`m_basic_blocks`), the work deque, and the block
remembered to fall through to the exit block (`last`). -/
structure BuilderSt where
  cfg : CFG
  bmap : List (Nat × Nat)
  work : List WorkItem
  lastB : Option Nat := none
deriving Repr

/-- The initial builder state: entry block (id 0, code order −1), exit block
(id 1, code order 2000000), `m_basic_blocks[len] = exit`, and the seed work
item (index 0, predecessor entry, fall-through). -/
def builderInit (seq : ISeq) : BuilderSt :=
  let g : CFG := {}
  -- both adoptions trivially succeed on the empty CFG
  let g : CFG := { blocks := [{ ISeq.mkBlock .ENTRY (-1) "" with blockId := 0 },
                              { ISeq.mkBlock .EXIT 2000000 "" with blockId := 1 }]
                   edges := g.edges, entryId := some 0, exitId := some 1 }
  { cfg := g, bmap := [(seq.length, 1)], work := [⟨0, 0, .FALLTHROUGH, ""⟩], lastB := none }

/-- One iteration of `build`'s worklist loop for the work item `item`,
returning the updated state (`Except` models the asserts and the
`RuntimeError` raised for an unresolvable branch label). -/
def builderStep (props : InsProps) (seq : ISeq) (st : BuilderSt) (item : WorkItem)
    (rest : List WorkItem) : Except CErr BuilderSt :=
  if item.insIndex > seq.length then .error .workIndexOutOfRange
  -- if item target is end of InstructionSequence, then it targets the exit block
  else if item.insIndex = seq.length then
    match st.cfg.createEdge item.pred 1 item.edgeKind with
    | .error e => .error e
    | .ok g => .ok { st with cfg := g, work := rest }
  else
    match (st.bmap.lookup item.insIndex : Option Nat) with
    | some bid =>
      -- a block starting at this instruction already exists; if discovered via
      -- fall-through it might not be labeled yet, so set its label if necessary
      let relabel : Except CErr CFG :=
        if item.edgeKind = .BRANCH ∧ ¬ (st.cfg.getBlock bid).hasBlockLabel then
          match (st.cfg.getBlock bid).setBlockLabel item.label with
          | some bb => .ok { st.cfg with blocks := st.cfg.blocks.set bid bb }
          | none => .error .pendingLabelOnBlock
        else .ok st.cfg
      match relabel with
      | .error e => .error e
      | .ok g =>
        if item.edgeKind = .BRANCH ∧ (g.getBlock bid).getBlockLabel ≠ item.label then
          .error .branchLabelMismatch
        else
          match g.createEdge item.pred bid item.edgeKind with
          | .error e => .error e
          | .ok g => .ok { st with cfg := g, work := rest }
    | none =>
      -- scan the basic block and register it
      let bb := scanBasicBlock props seq item.insIndex item.label
      match st.cfg.adoptBasicBlock bb with
      | .error e => .error e
      | .ok (g, bid) =>
        let bmap := (item.insIndex, bid) :: st.bmap
        if item.edgeKind = .BRANCH ∧ (g.getBlock bid).getBlockLabel ≠ item.label then
          .error .branchLabelMismatch
        else
          match g.createEdge item.pred bid item.edgeKind with
          | .error e => .error e
          | .ok g =>
            -- if this block ends in a branch, prepare a work item for the target
            let branchWork : Except CErr (List WorkItem) :=
              if endsInBranch props bb then
                let branch := bb.getLastInstruction
                if branch.getNumOperands = 0 then .error .branchHasNoOperands
                else
                  let operand := branch.getOperand (branch.getNumOperands - 1)
                  if operand.kind ≠ OperandKind.LABEL then .error .branchLastOperandNotLabel
                  else
                    match seq.getIndexOfLabeledInstruction operand.getLabel with
                    | none => .error .unresolvedLabel
                    | some targetIndex =>
                      .ok [({ insIndex := targetIndex, pred := bid, edgeKind := .BRANCH,
                              label := operand.getLabel } : WorkItem)]
              else .ok []
            match branchWork with
            | .error e => .error e
            | .ok branchItems =>
              -- if this block falls through, prepare a work item for the next
              -- index, or remember it as the block falling through to the exit
              if props.fallsThrough bb.getLastInstruction then
                let targetIndex := item.insIndex + bb.length
                if targetIndex > seq.length then .error .fallthroughTargetOutOfRange
                else if targetIndex = seq.length then
                  .ok { cfg := g, bmap := bmap, work := rest ++ branchItems,
                        lastB := some bid }
                else
                  .ok { cfg := g, bmap := bmap
                        work := rest ++ branchItems ++
                          [({ insIndex := targetIndex, pred := bid,
                              edgeKind := .FALLTHROUGH, label := "" } : WorkItem)]
                        lastB := st.lastB }
              else
                .ok { cfg := g, bmap := bmap, work := rest ++ branchItems,
                      lastB := st.lastB }

/-- The worklist loop of `ControlFlowGraphBuilder::build`, with explicit fuel
(each iteration pops one work item).  When the worklist drains, the block
remembered as falling through past the end of the sequence is connected to
the exit block (`assert(last != nullptr)` modelled by an error). -/
def buildLoop (props : InsProps) (seq : ISeq) : Nat → BuilderSt → Except CErr CFG
  | 0, _ => throw .fuelExhausted
  | fuel + 1, st =>
    match st.work with
    | [] =>
      match st.lastB with
      | none => throw .noFallthroughToExit
      | some p => st.cfg.createEdge p 1 .FALLTHROUGH
    | item :: rest =>
      match builderStep props seq st item rest with
      | .error e => .error e
      | .ok st' => buildLoop props seq fuel st'

/-- `ControlFlowGraphBuilder::build`, with enough fuel for any input (each
scanned block enqueues at most two work items and at most `length + 1` blocks
are ever scanned). -/
def build (props : InsProps) (seq : ISeq) : Except CErr CFG :=
  buildLoop props seq (2 * seq.length + 4) (builderInit seq)

/-! ## CFG → linear reconstruction (`cfg.cpp`) -/

namespace CFG

/-- The comparison used by `get_blocks_in_code_order`'s `std::sort` call,
lifted to block ids. -/
def codeOrderLE (g : CFG) (a b : Nat) : Prop :=
  (g.getBlock a).codeOrder ≤ (g.getBlock b).codeOrder

instance (g : CFG) : DecidableRel (codeOrderLE g) := fun a b =>
  inferInstanceAs (Decidable ((g.getBlock a).codeOrder ≤ (g.getBlock b).codeOrder))

/-- `ControlFlowGraph::get_blocks_in_code_order`, returning block ids sorted
by code order.  The sort's comparator asserts that no two blocks share a code
order; `none` models a failing assert.  (With all code orders distinct the
sorted order is unique, so a stable insertion sort is a faithful model of
`std::sort`.) -/
def getBlocksInCodeOrder (g : CFG) : Option (List Nat) :=
  if (List.range g.blocks.length).Pairwise
       (fun a b => (g.getBlock a).codeOrder ≠ (g.getBlock b).codeOrder) then
    some ((List.range g.blocks.length).insertionSort (codeOrderLE g))
  else none

/-- The inner check of `can_use_original_block_order` for one consecutive
pair `(cur, next)` of blocks in code order: every fall-through edge out of
`cur` must lead to `next`. -/
def ftGoesToNext (g : CFG) (cur next : Nat) : Bool :=
  (g.getOutgoingEdges cur).all
    (fun e => e.kind ≠ .FALLTHROUGH ∨ e.tgt = next)

/-- `ControlFlowGraph::can_use_original_block_order`: the original block order
can be used iff each fall-through edge leads to the next block in code
order. -/
def canUseOriginalBlockOrder (g : CFG) (order : List Nat) : Bool :=
  (order.zip order.tail).all (fun p => ftGoesToNext g p.1 p.2)

/-- `ControlFlowGraph::append_basic_block`: define the block's label (if any)
in the output sequence, then append duplicates of its instructions.  `none`
models the `define_label` assert (a pending label with no instruction to
attach it to). -/
def appendBasicBlock (iseq : ISeq) (bb : ISeq) : Option ISeq := do
  let iseq ← if bb.hasBlockLabel then iseq.defineLabel bb.getBlockLabel else pure iseq
  pure (bb.instrs.foldl ISeq.append iseq)

/-- `ControlFlowGraph::rebuild_instruction_sequence`: emit the basic blocks in
code order. -/
def rebuildInstructionSequence (g : CFG) (order : List Nat) : Option ISeq :=
  order.foldlM (fun acc id => appendBasicBlock acc (g.getBlock id)) ({} : ISeq)

/-- `ControlFlowGraph::create_instruction_sequence`: use the original block
order when every fall-through edge is consistent with it.  The fallback
`reconstruct_instruction_sequence` (chunk merging) iterates the C++ edge maps
in `shared_ptr` key order, which is not observable in the source and has no
deterministic shallow embedding; it is modelled as `none` here, and no claim
settled below depends on that branch. -/
def createInstructionSequence (g : CFG) : Option ISeq := do
  let order ← g.getBlocksInCodeOrder
  if canUseOriginalBlockOrder g order then
    rebuildInstructionSequence g order
  else none

end CFG

/-! ## Generic dataflow engine (`dataflow.h`) -/

/-- Dataflow analysis direction (`enum class DataflowDirection`). -/
inductive DDirection where
  | FORWARD
  | BACKWARD
deriving DecidableEq, Repr

/-- The `Analysis` type parameter of `Dataflow<Analysis>`: direction, fact
type with `get_top_fact` / `combine_facts`, and the `model_block` /
`model_instruction` transfer functions (pure here; the C++ versions mutate
a fact in place). -/
structure AnalysisSpec (F : Type) where
  dir : DDirection
  top : F
  combine : F → F → F
  modelBlock : ISeq → F → F
  modelInstruction : Instr → F → F

/-- The ids of a block's "logical successors" (`LOGICAL_FORWARD`
navigation): targets of outgoing edges for a forward analysis, sources of
incoming edges for a backward analysis, in edge-insertion order. -/
def logicalSuccIds (g : CFG) (dir : DDirection) (id : Nat) : List Nat :=
  match dir with
  | .FORWARD => (g.getOutgoingEdges id).map CfgEdge.tgt
  | .BACKWARD => (g.getIncomingEdges id).map CfgEdge.src

/-- The ids of a block's "logical predecessors" (`LOGICAL_BACKWARD`
navigation): sources of incoming edges for a forward analysis, targets of
outgoing edges for a backward analysis. -/
def logicalPredIds (g : CFG) (dir : DDirection) (id : Nat) : List Nat :=
  match dir with
  | .FORWARD => (g.getIncomingEdges id).map CfgEdge.src
  | .BACKWARD => (g.getOutgoingEdges id).map CfgEdge.tgt

/-- The logical start block of the analysis (`get_start_block`): the entry
block for a forward analysis, the exit block for a backward one. -/
def logicalStartId (g : CFG) (dir : DDirection) : Option Nat :=
  match dir with
  | .FORWARD => g.entryId
  | .BACKWARD => g.exitId

/-- A block's instructions in "analysis" order (`Analysis::begin/end`):
program order for a forward analysis, reversed for a backward one. -/
def analysisOrderInstrs (dir : DDirection) (bb : ISeq) : List Instr :=
  match dir with
  | .FORWARD => bb.instrs
  | .BACKWARD => bb.instrs.reverse

/-- `Dataflow::postorder_on_cfg`: if the block is already visited return;
otherwise mark it visited, recursively visit its logical successors in order,
then append the block to the postorder.  The visited bitset is modelled by a
duplicate-free list; `fuel` bounds the recursion depth, and since every
recursive level first marks a previously unvisited block, depth
`number of blocks + 1` is never exhausted on a well-formed CFG. -/
def dfsVisit (g : CFG) (dir : DDirection) : Nat → Nat → List Nat → List Nat × List Nat
  | 0, _, vis => (vis, [])
  | fuel + 1, b, vis =>
    if b ∈ vis then (vis, [])
    else
      let p := (logicalSuccIds g dir b).foldl
        (fun acc s =>
          let q := dfsVisit g dir fuel s acc.1
          (q.1, acc.2 ++ q.2))
        (b :: vis, [])
      (p.1, p.2 ++ [b])

/-- `Dataflow::compute_iter_order`: run the postorder DFS from the logical
start block, appending to the (possibly non-empty) existing `m_iter_order`,
then reverse the whole vector.  (`m_iter_order` is never cleared, so a second
`execute()` call appends a second copy of the postorder.) -/
def computeIterOrder (g : CFG) (dir : DDirection) (prev : List Nat) : List Nat :=
  match logicalStartId g dir with
  | none => prev.reverse
  | some s => (prev ++ (dfsVisit g dir (g.blocks.length + 1) s []).2).reverse

/-- The state of a `Dataflow<Analysis>` object: the per-block begin/end fact
vectors (indexed by block id) and the accumulated iteration order. -/
structure DataflowSt (F : Type) where
  beginFacts : List F
  endFacts : List F
  iterOrder : List Nat
deriving DecidableEq, Repr

/-- The `Dataflow` constructor: all begin/end facts start at the top fact. -/
def dataflowInit {F : Type} (A : AnalysisSpec F) (g : CFG) : DataflowSt F :=
  { beginFacts := List.replicate g.blocks.length A.top
    endFacts := List.replicate g.blocks.length A.top
    iterOrder := [] }

/-- The logical begin facts (`get_logical_begin_facts`): `m_beginfacts` for a
forward analysis, `m_endfacts` for a backward one. -/
def logicalBeginFacts {F : Type} (dir : DDirection) (st : DataflowSt F) : List F :=
  match dir with
  | .FORWARD => st.beginFacts
  | .BACKWARD => st.endFacts

/-- The logical end facts (`get_logical_end_facts`). -/
def logicalEndFacts {F : Type} (dir : DDirection) (st : DataflowSt F) : List F :=
  match dir with
  | .FORWARD => st.endFacts
  | .BACKWARD => st.beginFacts

/-- Store a fact into the logical begin facts of block `id`. -/
def setLogicalBegin {F : Type} (dir : DDirection) (st : DataflowSt F) (id : Nat)
    (f : F) : DataflowSt F :=
  match dir with
  | .FORWARD => { st with beginFacts := st.beginFacts.set id f }
  | .BACKWARD => { st with endFacts := st.endFacts.set id f }

/-- Store a fact into the logical end facts of block `id`. -/
def setLogicalEnd {F : Type} (dir : DDirection) (st : DataflowSt F) (id : Nat)
    (f : F) : DataflowSt F :=
  match dir with
  | .FORWARD => { st with endFacts := st.endFacts.set id f }
  | .BACKWARD => { st with beginFacts := st.beginFacts.set id f }

/-- The combination over a block's logical predecessors in `execute`'s
per-block loop: starting from the top fact, fold `combine_facts` over the
logical end facts of the logical predecessors. -/
def combinePreds {F : Type} (A : AnalysisSpec F) (g : CFG) (st : DataflowSt F)
    (id : Nat) : F :=
  (logicalPredIds g A.dir id).foldl
    (fun f p => A.combine f ((logicalEndFacts A.dir st).getD p A.top)) A.top

/-- The body of `execute`'s per-block loop: combine the logical predecessors'
end facts, store the result as the block's logical begin fact, run
`model_block` and then `model_instruction` over the block in analysis order,
and update the logical end fact if it changed (returning whether it did). -/
def processBlock {F : Type} [DecidableEq F] (A : AnalysisSpec F) (g : CFG)
    (st : DataflowSt F) (id : Nat) : DataflowSt F × Bool :=
  let bb := g.getBlock id
  let fact := combinePreds A g st id
  let st := setLogicalBegin A.dir st id fact
  let fact := A.modelBlock bb fact
  let fact := (analysisOrderInstrs A.dir bb).foldl (fun f i => A.modelInstruction i f) fact
  if fact ≠ (logicalEndFacts A.dir st).getD id A.top then
    (setLogicalEnd A.dir st id fact, true)
  else (st, false)

/-- One full pass of `execute`'s fixed-point loop over the iteration order,
returning the updated state and whether any logical end fact changed. -/
def runPass {F : Type} [DecidableEq F] (A : AnalysisSpec F) (g : CFG)
    (order : List Nat) (st : DataflowSt F) : DataflowSt F × Bool :=
  order.foldl
    (fun acc id =>
      let p := processBlock A g acc.1 id
      (p.1, acc.2 ∨ p.2))
    (st, false)

/-- The fixed-point loop of `execute`: repeat full passes until one produces
no change.  `none` models non-termination within the given fuel. -/
def dataflowLoop {F : Type} [DecidableEq F] (A : AnalysisSpec F) (g : CFG)
    (order : List Nat) : Nat → DataflowSt F → Option (DataflowSt F)
  | 0, _ => none
  | fuel + 1, st =>
    let p := runPass A g order st
    if p.2 then dataflowLoop A g order fuel p.1 else some p.1

/-- `Dataflow::execute`: compute (append to) the iteration order, then run
passes to a fixed point. -/
def dataflowExecute {F : Type} [DecidableEq F] (A : AnalysisSpec F) (g : CFG)
    (fuel : Nat) (st : DataflowSt F) : Option (DataflowSt F) :=
  let order := computeIterOrder g A.dir st.iterOrder
  (dataflowLoop A g order fuel { st with iterOrder := order }).map
    (fun st' => { st' with iterOrder := order })

/-- The loop of `Dataflow::get_instruction_fact`, walking the block's
instructions in analysis order.  The C++ pointer comparison `bb_ins == ins`
is modelled by comparing the instruction's position in the block (`p = tgt`):
distinct C++ instruction objects occupy distinct positions. -/
def getInstructionFactGo {F : Type} (A : AnalysisSpec F) (tgt : Nat)
    (afterInLogicalOrder : Bool) : List (Nat × Instr) → F → F
  | [], fact => fact
  | (p, ins) :: rest, fact =>
    if p = tgt ∧ ¬ afterInLogicalOrder then fact
    else
      let fact := A.modelInstruction ins fact
      if p = tgt then fact
      else getInstructionFactGo A tgt afterInLogicalOrder rest fact

/-- A block's instructions in analysis order, paired with their program-order
positions in the block. -/
def analysisOrderEnum (dir : DDirection) (bb : ISeq) : List (Nat × Instr) :=
  match dir with
  | .FORWARD => bb.instrs.enum
  | .BACKWARD => bb.instrs.enum.reverse

/-- `Dataflow::get_instruction_fact`: replay `model_instruction` from the
block's logical begin fact up to (exclusive or inclusive, per
`after_in_logical_order`) the instruction at position `tgt` of block `bb`. -/
def getInstructionFact {F : Type} (A : AnalysisSpec F) (st : DataflowSt F)
    (bb : ISeq) (tgt : Nat) (afterInLogicalOrder : Bool) : F :=
  getInstructionFactGo A tgt afterInLogicalOrder (analysisOrderEnum A.dir bb)
    ((logicalBeginFacts A.dir st).getD bb.blockId A.top)

/-- `Dataflow::get_fact_after_instruction` (program order). -/
def getFactAfterInstruction {F : Type} (A : AnalysisSpec F) (st : DataflowSt F)
    (bb : ISeq) (tgt : Nat) : F :=
  getInstructionFact A st bb tgt (A.dir = .FORWARD)

/-- `Dataflow::get_fact_before_instruction` (program order). -/
def getFactBeforeInstruction {F : Type} (A : AnalysisSpec F) (st : DataflowSt F)
    (bb : ISeq) (tgt : Nat) : F :=
  getInstructionFact A st bb tgt (A.dir = .BACKWARD)

/-- `Dataflow::get_fact_at_beginning_of_block`. -/
def getFactAtBeginningOfBlock {F : Type} (A : AnalysisSpec F) (st : DataflowSt F)
    (bb : ISeq) : F :=
  st.beginFacts.getD bb.blockId A.top

/-- `Dataflow::get_fact_at_end_of_block`. -/
def getFactAtEndOfBlock {F : Type} (A : AnalysisSpec F) (st : DataflowSt F)
    (bb : ISeq) : F :=
  st.endFacts.getD bb.blockId A.top

/-! ## Liveness analysis (`highlevel_defuse.cpp`, `live_vregs.h`)

The `LiveVregsAnalysis` fact is a `std::bitset<256>` of virtual register
numbers; it is modelled as a `Nat` bit mask (`testBit` / bit set / bit clear).
-/

/-- The `NO_DEST` set of high-level opcodes without a destination operand. -/
def noDestOpcodes : List Nat :=
  [HINS_nop, HINS_ret, HINS_jmp, HINS_enter, HINS_leave, HINS_cjmp_t, HINS_cjmp_f]

/-- `has_dest_operand` from `highlevel_defuse.cpp`. -/
def hasDestOperand (opcode : Nat) : Bool := ¬ opcode ∈ noDestOpcodes

/-- `HighLevel::is_def`: a `HINS_call` (implicit def of `vr0`), or an
instruction with a destination operand whose first operand is a plain vreg. -/
def isDefHL (i : Instr) : Bool :=
  if i.opcode = HINS_call then true
  else if ¬ hasDestOperand i.opcode then false
  else (i.getOperand 0).kind = .VREG

/-- `HighLevel::get_def_vreg`. -/
def getDefVreg (i : Instr) : Int :=
  if i.opcode = HINS_call then 0 else (i.getOperand 0).getBaseReg

/-- `HighLevel::is_use` for operand `idx` of instruction `i`. -/
def isUseHL (i : Instr) (idx : Nat) : Bool :=
  let operand := i.getOperand idx
  if idx = 0 ∧ hasDestOperand i.opcode then
    operand.isMemref ∧ (operand.hasBaseReg ∨ operand.hasIndexReg)
  else operand.hasBaseReg ∨ operand.hasIndexReg

/-- Clear bit `r` of a fact (bitset `reset`). -/
def factReset (f : Nat) (r : Nat) : Nat :=
  if f.testBit r then f - 2 ^ r else f

/-- Set bit `r` of a fact (bitset `set`). -/
def factSet (f : Nat) (r : Nat) : Nat := f ||| 2 ^ r

/-- `LiveVregsAnalysis::model_instruction` (backwards): a def kills the
assigned-to vreg; every vreg used by an operand (base and, if present, index
register) becomes live.  The guards `hasBaseReg` / `hasIndexReg` play the
role of the C++ asserts/kind checks before `fact.set(...)`. -/
def liveModelInstruction (i : Instr) (fact : Nat) : Nat :=
  let fact := if isDefHL i then factReset fact (getDefVreg i).toNat else fact
  (List.range i.getNumOperands).foldl
    (fun f idx =>
      if isUseHL i idx then
        let operand := i.getOperand idx
        let f := if operand.hasBaseReg then factSet f operand.getBaseReg.toNat else f
        if operand.hasIndexReg then factSet f operand.getIndexReg.toNat else f
      else f)
    fact

/-- `LiveVregsAnalysis` as an `AnalysisSpec`: backward direction, top = empty
set, combine = union, `model_block` a no-op. -/
def liveVregsAnalysis : AnalysisSpec Nat :=
  { dir := .BACKWARD
    top := 0
    combine := fun a b => a ||| b
    modelBlock := fun _ f => f
    modelInstruction := liveModelInstruction }

/-! ## CFG transform framework (`cfg_transform.cpp`) -/

/-- The per-block step of `ControlFlowGraphTransform::transform_cfg`: the
result of the overridable `transform_basic_block` with the original block's
kind, code order and block label copied onto it (`none` when
`set_block_label`'s `define_label` assert fires). -/
def transformedBlock (tbb : ISeq → ISeq) (orig : ISeq) : Option ISeq :=
  ({ tbb orig with kind := orig.kind, codeOrder := orig.codeOrder }).setBlockLabel
    orig.getBlockLabel

/-- The per-block fold step of `transform_cfg`'s first pass: transform the
block and adopt it into the result CFG. -/
def transformAdoptStep (tbb : ISeq → ISeq) (acc : CFG) (orig : ISeq) : Except CErr CFG :=
  match transformedBlock tbb orig with
  | none => .error .pendingLabelOnBlock
  | some resultBB =>
    match acc.adoptBasicBlock resultBB with
    | .error e => .error e
    | .ok (acc, _) => .ok acc

/-- The per-block fold step of `transform_cfg`'s second pass: re-create this
original block's outgoing edges in the result CFG (the block map sends the
original block with id `i` to the transformed block with id `i`, since blocks
are adopted in the original order). -/
def transformEdgeStep (g : CFG) (acc : CFG) (orig : ISeq) : Except CErr CFG :=
  (g.getOutgoingEdges orig.blockId).foldlM
    (fun (acc : CFG) e => acc.createEdge e.src e.tgt e.kind)
    acc

/-- `ControlFlowGraphTransform::transform_cfg`: adopt the transformed blocks
in original order into a brand-new CFG (the original is never touched — the
embedding is pure and the result is assembled from an empty CFG), then
re-create every original edge between the transformed counterparts. -/
def transformCfg (tbb : ISeq → ISeq) (g : CFG) : Except CErr CFG :=
  match g.blocks.foldlM (transformAdoptStep tbb) ({} : CFG) with
  | .error e => .error e
  | .ok result => g.blocks.foldlM (transformEdgeStep g) result

/-! ## Dead store elimination (`highlevel_opt.cpp`, class `DSE`) -/

/-- The "structural" skip condition of `DSE::transform_basic_block`: no
operands, a label or immediate first operand, or a label second operand. -/
def dseStructural (inst : Instr) : Bool :=
  inst.getNumOperands = 0 ∨ (inst.getOperand 0).isLabel ∨
  (inst.getOperand 0).isImmIval ∨
  (inst.getNumOperands ≥ 2 ∧ (inst.getOperand 1).isLabel)

/-- The high-level move opcodes tested by `DSE` and `LVN`. -/
def isMovOpcode (op : Nat) : Bool :=
  op = HINS_mov_b ∨ op = HINS_mov_w ∨ op = HINS_mov_l ∨ op = HINS_mov_q

/-- The self-move drop condition of `DSE::transform_basic_block`: a move
whose second operand is not an immediate label / label / immediate integer
and whose two operands have the same base register. -/
def dseSelfMove (inst : Instr) : Bool :=
  isMovOpcode inst.opcode ∧
  ¬ (inst.getOperand 1).isImmLabel ∧ ¬ (inst.getOperand 1).isLabel ∧
  ¬ (inst.getOperand 1).isImmIval ∧
  (inst.getOperand 0).getBaseReg = (inst.getOperand 1).getBaseReg

/-- The dead-destination drop condition of `DSE::transform_basic_block`,
given the liveness fact `fact` after the instruction: the destination's base
register is not live, is numbered above 10, and the destination is not a
vreg memory reference. -/
def dseDeadDest (inst : Instr) (fact : Nat) : Bool :=
  let dst := inst.getOperand 0
  ¬ fact.testBit dst.getBaseReg.toNat ∧ dst.getBaseReg > 10 ∧
  dst.kind ≠ .VREG_MEM ∧ dst.kind ≠ .VREG_MEM_OFF

/-- `DSE::transform_basic_block`: copy each instruction of the original block
into a fresh block, except that non-structural self-moves and non-structural
instructions with a dead, private, register-only destination (per the
liveness fact just after the instruction, queried from the executed
`LiveVregs` analysis `df` on the block `origBB` of the analyzed CFG) are
dropped. -/
def dseTransformBlock (df : DataflowSt Nat) (origBB : ISeq) : ISeq :=
  origBB.instrs.enum.foldl
    (fun newBB pi =>
      let p := pi.1
      let inst := pi.2
      if dseStructural inst then newBB.append inst
      else if dseSelfMove inst then newBB
      else
        let fact := getFactAfterInstruction liveVregsAnalysis df origBB p
        if dseDeadDest inst fact then newBB
        else newBB.append inst)
    ({} : ISeq)

/-! ## Local value numbering (`highlevel_opt.cpp`, struct `LVNKey`, class `LVN`) -/

/-- Commutative opcodes per `LVNKey::is_commutative`. -/
def lvnIsCommutative (op : Nat) : Bool :=
  op = HINS_add_b ∨ op = HINS_add_w ∨ op = HINS_add_l ∨ op = HINS_add_q ∨
  op = HINS_mul_b ∨ op = HINS_mul_w ∨ op = HINS_mul_l ∨ op = HINS_mul_q

/-- `LVNKey`: opcode, operand value numbers (sorted into canonical order for
commutative opcodes by the constructor), and whether the result is a
compile-time constant.  The `std::map` holding these keys orders them with
`operator<`, which compares all three fields, so keys differing only in
`is_constant_result` are distinct map keys. -/
structure LVNKey where
  opcode : Nat
  operands : List Nat
  isConstantResult : Bool
deriving DecidableEq, Repr

/-- Insert into an ascending list (helper for `sortAsc`). -/
def insertAsc (x : Nat) : List Nat → List Nat
  | [] => [x]
  | y :: ys => if x ≤ y then x :: y :: ys else y :: insertAsc x ys

/-- Ascending insertion sort, modelling the `std::sort` call on the operand
value numbers in the `LVNKey` constructor. -/
def sortAsc (l : List Nat) : List Nat := l.foldr insertAsc []

/-- The `LVNKey` constructor: sorts the operand value numbers when the opcode
is commutative. -/
def mkLVNKey (op : Nat) (ops : List Nat) (isConst : Bool) : LVNKey :=
  { opcode := op
    operands := if lvnIsCommutative op then sortAsc ops else ops
    isConstantResult := isConst }

/-- The block-local value-numbering state of `LVN::transform_basic_block`
(the maps are declared locally in that method, so they are reset for every
block).  Modelled as association lists where an insert prepends (lookup
returns the newest binding, matching `std::map` assignment). -/
structure LVNState where
  constToVN : List (Int × Nat) := []
  vnToConst : List (Nat × Int) := []
  vregToVN : List (Int × Nat) := []
  vnToVregs : List (Nat × List Int) := []
  keyToVN : List (LVNKey × Nat) := []
  nextVN : Nat := 1
deriving DecidableEq, Repr

/-- Map assignment `m[k] = v`. -/
def alSet {K V : Type} [DecidableEq K] (m : List (K × V)) (k : K) (v : V) :
    List (K × V) :=
  (k, v) :: m

/-- `value_number_to_vregs[k].push_back(v)` (the `operator[]` default-inserts
an empty vector). -/
def alPush (m : List (Nat × List Int)) (k : Nat) (v : Int) : List (Nat × List Int) :=
  alSet m k (((m.lookup k).getD []) ++ [v])

/-- The "structural" skip condition of `LVN::transform_basic_block` (note:
it tests the *second* operand for a label only when there are more than two
operands, unlike `DSE`'s condition). -/
def lvnStructural (inst : Instr) : Bool :=
  inst.getNumOperands = 0 ∨ (inst.getOperand 0).isLabel ∨
  (inst.getNumOperands > 2 ∧ (inst.getOperand 1).isLabel) ∨
  (inst.getOperand 0).isImmIval

/-- Resolve the value number of one source operand in `LVN`'s first loop,
returning the updated state, the operand's value number and the updated
`constant_value` flag.  For an operand that is neither an immediate integer
nor a register operand (an immediate label or label), the C++ pushes an
uninitialized `int`; the model returns 0 for totality, and the theorems below
hypothesize such operands away. -/
def lvnOperandVN (st : LVNState) (operand : Operand) (constFlag : Bool) :
    LVNState × Nat × Bool :=
  let constFlag := constFlag ∧ operand.isImmIval
  if operand.isImmIval then
    let ival := operand.getImmIval
    let st :=
      if (st.constToVN.lookup ival).isNone then
        { st with constToVN := alSet st.constToVN ival st.nextVN
                  vnToConst := alSet st.vnToConst st.nextVN ival
                  nextVN := st.nextVN + 1 }
      else st
    (st, (st.constToVN.lookup ival).getD 0, constFlag)
  else if ¬ operand.isImmLabel ∧ operand.kind ≠ .LABEL then
    let vreg := operand.getBaseReg
    let st :=
      if (st.vregToVN.lookup vreg).isNone then
        { st with vregToVN := alSet st.vregToVN vreg st.nextVN
                  vnToVregs := alPush st.vnToVregs st.nextVN vreg
                  nextVN := st.nextVN + 1 }
      else st
    (st, (st.vregToVN.lookup vreg).getD 0, constFlag)
  else (st, 0, constFlag)

/-- The first loop of `LVN::transform_basic_block`: resolve value numbers for
the source operands (indices 1 and up), tracking whether all of them are
immediate integers. -/
def lvnSourceVNs (st : LVNState) (inst : Instr) : LVNState × List Nat × Bool :=
  (List.range (inst.getNumOperands - 1)).foldl
    (fun acc i =>
      let r := lvnOperandVN acc.1 (inst.getOperand (i + 1)) acc.2.2
      (r.1, (acc.2.1 ++ [r.2.1], r.2.2)))
    (st, ([], true))

/-- The canonical key built for an instruction from the given state. -/
def lvnKeyOf (st : LVNState) (inst : Instr) : LVNKey :=
  mkLVNKey inst.opcode (lvnSourceVNs st inst).2.1 (lvnSourceVNs st inst).2.2

/-- The first register ever recorded as holding register `reg`'s current
value number, in state `st` (what copy propagation rewrites a source operand
to). -/
def lvnFirstHolder (st : LVNState) (reg : Int) : Int :=
  ((st.vnToVregs.lookup ((st.vregToVN.lookup reg).getD 0)).getD []).headD 0

/-- The key-allocation step of `LVN::transform_basic_block` for one
non-structural instruction: after resolving the source value numbers, a move
binds the canonical key to its first source's value number; any other
instruction allocates a fresh value number for the key if it is absent. -/
def lvnKeyState (st : LVNState) (inst : Instr) : LVNState :=
  let s := lvnSourceVNs st inst
  let key := mkLVNKey inst.opcode s.2.1 s.2.2
  if isMovOpcode inst.opcode then
    { s.1 with keyToVN := alSet s.1.keyToVN key (s.2.1.getD 0 0) }
  else if (s.1.keyToVN.lookup key).isNone then
    { s.1 with keyToVN := alSet s.1.keyToVN key s.1.nextVN, nextVN := s.1.nextVN + 1 }
  else s.1

/-- The resulting value number of the instruction
(`result_value_number = lvnkey_to_value_number[key]` after the allocation
step). -/
def lvnResultVN (st : LVNState) (inst : Instr) : Nat :=
  ((lvnKeyState st inst).keyToVN.lookup (lvnKeyOf st inst)).getD 0

/-- The destination-binding step: bind the destination operand's base
register to the resulting value number and record the register as holding
it. -/
def lvnBoundState (st : LVNState) (inst : Instr) : LVNState :=
  let stk := lvnKeyState st inst
  let result := lvnResultVN st inst
  let dstReg := (inst.getOperand 0).getBaseReg
  { stk with vregToVN := alSet stk.vregToVN dstReg result
             vnToVregs := alPush stk.vnToVregs result dstReg }

/-- The copy-propagation rewrite of one operand of the emitted duplicate
(the C++ builds `Operand(operand.get_kind(), target_reg)`, dropping any
offset): a source operand that is neither an immediate integer nor a label
is rebuilt from its kind and the first register recorded for its current
value number in the post-binding state `stb`. -/
def lvnRewriteOperand (stb : LVNState) (pi : Nat × Operand) : Operand :=
  if pi.1 = 0 then pi.2
  else if ¬ pi.2.isImmIval ∧ ¬ pi.2.isLabel then
    Operand.make1 pi.2.kind (lvnFirstHolder stb pi.2.getBaseReg)
  else pi.2

/-- Processing of one non-structural instruction by
`LVN::transform_basic_block`: key allocation, destination binding, and
copy propagation over the emitted duplicate's source operands. -/
def lvnProcess (st : LVNState) (inst : Instr) : LVNState × Instr :=
  (lvnBoundState st inst,
   { inst with operands := inst.operands.enum.map (lvnRewriteOperand (lvnBoundState st inst)) })

/-- One instruction of `LVN::transform_basic_block`'s loop: structural
instructions are emitted unchanged (and leave the value-numbering state
alone); all others go through `lvnProcess`. -/
def lvnStep (st : LVNState) (inst : Instr) : LVNState × Instr :=
  if lvnStructural inst then (st, inst) else lvnProcess st inst

/-- `LVN::transform_basic_block`: fold `lvnStep` over the block's
instructions with a fresh (block-local) value-numbering state, appending each
emitted instruction to a fresh block. -/
def lvnTransformBlock (origBB : ISeq) : ISeq :=
  (origBB.instrs.foldl
    (fun acc inst =>
      let r := lvnStep acc.1 inst
      (r.1, acc.2.append r.2))
    (({} : LVNState), ({} : ISeq))).2

/-! ## Helper definitions for concrete claim instances -/

/-- Build a linear `ISeq` from labeled instructions (as a code generator
would, via `define_label` + `append`). -/
def mkLinearSeq (l : List (String × Instr)) : ISeq :=
  { slots := l.map (fun p => { label := p.1, ins := p.2 }) }

/-- Extract the CFG from a successful build (default CFG on failure);
used to state concrete witnesses. -/
def getBuiltCfg (e : Except CErr CFG) : CFG := e.toOption.getD {}

/-- The spec-side description of the fact queries (claim C7): the index, in
logical (analysis) order, of the instruction at program-order position `tgt`
of block `bb`. -/
def logicalIndexOf (dir : DDirection) (bb : ISeq) (tgt : Nat) : Nat :=
  match dir with
  | .FORWARD => tgt
  | .BACKWARD => bb.instrs.length - 1 - tgt

/-- The spec-side replay (claim C7): start from `bb`'s logical-begin fact and
apply `model_instruction` to the first `k` instructions of `bb` in logical
(analysis) order. -/
def dataflowReplay {F : Type} (A : AnalysisSpec F) (st : DataflowSt F) (bb : ISeq)
    (k : Nat) : F :=
  ((analysisOrderInstrs A.dir bb).take k).foldl
    (fun f i => A.modelInstruction i f)
    ((logicalBeginFacts A.dir st).getD bb.blockId A.top)

/-- A concrete straight-line high-level sequence (`mov vr11, $5; ret`) used
by several witnesses. -/
def witnessSeq : ISeq :=
  mkLinearSeq
    [("", ⟨HINS_mov_q, [Operand.make1 .VREG 11, Operand.make1 .IMM_IVAL 5]⟩),
     ("", ⟨HINS_ret, []⟩)]

/-- The CFG built from `witnessSeq` (build succeeds; see the witnesses). -/
def witnessCfg : CFG := getBuiltCfg (build highLevelProps witnessSeq)

/-- The single interior block of `witnessCfg` (block id 2). -/
def witnessBB : ISeq := witnessCfg.getBlock 2

/-- `witnessCfg` passed through `transform_cfg` with the identity block
transform (for the C3 witness). -/
def witnessTransformed : CFG := (transformCfg id witnessCfg).toOption.getD {}

/-- The executed `LiveVregs` analysis on `witnessCfg`. -/
def witnessDF : DataflowSt Nat :=
  (dataflowExecute liveVregsAnalysis witnessCfg 8
    (dataflowInit liveVregsAnalysis witnessCfg)).getD
    (dataflowInit liveVregsAnalysis witnessCfg)

/-- The keep/drop rule of claim C4, formalized from the claim's words (not
from the code): a structural instruction is kept; a non-structural move whose
source and destination are *syntactically the same register* (both plain
`VREG` operands with the same register number) is dropped; a non-structural
instruction whose destination register is absent from the liveness fact
after it, whose destination register number is above the reserved low range
of fixed argument/return registers (`vr0`–`vr9`, so "above" means ≥ 10), and
whose destination is a plain register (not a memory reference) is dropped;
every other instruction is kept. -/
def claimC4Keep (inst : Instr) (factAfter : Nat) : Bool :=
  if dseStructural inst then true
  else if (inst.getOperand 0).kind = .VREG ∧ (inst.getOperand 1).kind = .VREG ∧
      isMovOpcode inst.opcode ∧
      (inst.getOperand 0).getBaseReg = (inst.getOperand 1).getBaseReg then false
  else if ¬ factAfter.testBit (inst.getOperand 0).getBaseReg.toNat ∧
      (inst.getOperand 0).getBaseReg ≥ 10 ∧ ¬ (inst.getOperand 0).isMemref then false
  else true

/-- The keep/drop rule actually implemented by `DSE::transform_basic_block`
(used to state the amended claim C4). -/
def dseKeep (inst : Instr) (factAfter : Nat) : Bool :=
  dseStructural inst ∨ (¬ dseSelfMove inst ∧ ¬ dseDeadDest inst factAfter)

/-- The counterexample sequence for C4: a single high-level store
`mov_q (vr5), vr5` (destination is the memory reference `(vr5)`, source is
the register `vr5`). -/
def cexC4Seq : ISeq :=
  mkLinearSeq
    [("", ⟨HINS_mov_q, [Operand.make1 .VREG_MEM 5, Operand.make1 .VREG 5]⟩)]

/-- The CFG built from `cexC4Seq`. -/
def cexC4Cfg : CFG := getBuiltCfg (build highLevelProps cexC4Seq)

/-- The executed `LiveVregs` analysis on `cexC4Cfg` (as the `DSE` constructor
performs). -/
def cexC4DF : DataflowSt Nat :=
  (dataflowExecute liveVregsAnalysis cexC4Cfg 8
    (dataflowInit liveVregsAnalysis cexC4Cfg)).getD
    (dataflowInit liveVregsAnalysis cexC4Cfg)

/-- The value-numbering state after processing a prefix of a block. -/
def lvnFoldState (l : List Instr) : LVNState :=
  (l.foldl
    (fun acc inst =>
      let r := lvnStep acc.1 inst
      (r.1, acc.2.append r.2))
    (({} : LVNState), ({} : ISeq))).1

/-- The state after one LVN step. -/
def lvnPostState (st : LVNState) (inst : Instr) : LVNState := (lvnStep st inst).1

/-- The instruction emitted by one LVN step. -/
def lvnEmitted (st : LVNState) (inst : Instr) : Instr := (lvnStep st inst).2

/-- The counterexample block for C5:
`mov_q vr11, $5 ; add_q vr12, $5, $5 ; add_q vr13, vr11, vr11`.
After the first two instructions the canonical pair (opcode `add_q`, sorted
source value numbers `[1,1]`) has been seen; the third instruction has the
same opcode and source value numbers, but its operands are registers rather
than immediates, so the `is_constant_result` field of its `LVNKey` differs. -/
def cexC5Instr3 : Instr :=
  ⟨HINS_add_q, [Operand.make1 .VREG 13, Operand.make1 .VREG 11, Operand.make1 .VREG 11]⟩

/-- The first two instructions of the C5 counterexample block. -/
def cexC5Prefix : List Instr :=
  [⟨HINS_mov_q, [Operand.make1 .VREG 11, Operand.make1 .IMM_IVAL 5]⟩,
   ⟨HINS_add_q, [Operand.make1 .VREG 12, Operand.make1 .IMM_IVAL 5, Operand.make1 .IMM_IVAL 5]⟩]

/-- The value-numbering state after the first two instructions. -/
def cexC5St2 : LVNState := lvnFoldState cexC5Prefix

/-- A concrete non-structural move (`mov_q vr14, vr11`) used by the C5
witness. -/
def witnessLvnInstr : Instr :=
  ⟨HINS_mov_q, [Operand.make1 .VREG 14, Operand.make1 .VREG 11]⟩

/-- The dataflow fact at the logical end of block `id` produced by one
processing of the block: `model_block` and then the instruction transfer
functions applied, in analysis order, to the combination of the logical
predecessors' end facts. -/
def blockOutput {F : Type} (A : AnalysisSpec F) (g : CFG) (st : DataflowSt F)
    (id : Nat) : F :=
  (analysisOrderInstrs A.dir (g.getBlock id)).foldl
    (fun f i => A.modelInstruction i f)
    (A.modelBlock (g.getBlock id) (combinePreds A g st id))

/-- Correctness predicate for one `dfsVisit` call: the visited list stays
duplicate-free and in range, only grows, now contains `b`, every newly
visited block has all its logical successors visited, and the emitted
postorder consists exactly of the newly visited blocks. -/
def dfsVisitOK (g : CFG) (dir : DDirection) (vis : List Nat) (b : Nat)
    (r : List Nat × List Nat) : Prop :=
  r.1.Nodup ∧ (∀ x ∈ r.1, x < g.blocks.length) ∧ (∀ x ∈ vis, x ∈ r.1) ∧
  b ∈ r.1 ∧ vis.length ≤ r.1.length ∧
  (∀ x ∈ r.1, x ∈ vis ∨ (∀ s ∈ logicalSuccIds g dir x, s ∈ r.1)) ∧
  (∀ x, x ∈ r.2 ↔ x ∈ r.1 ∧ ¬ x ∈ vis)

/-- Correctness predicate for the successor fold inside `dfsVisit`. -/
def dfsFoldOK (g : CFG) (dir : DDirection) (vis po0 : List Nat) (l : List Nat)
    (r : List Nat × List Nat) : Prop :=
  r.1.Nodup ∧ (∀ x ∈ r.1, x < g.blocks.length) ∧ (∀ x ∈ vis, x ∈ r.1) ∧
  (∀ x ∈ l, x ∈ r.1) ∧ vis.length ≤ r.1.length ∧
  (∀ x ∈ r.1, x ∈ vis ∨ (∀ s ∈ logicalSuccIds g dir x, s ∈ r.1)) ∧
  (∀ x, x ∈ r.2 ↔ x ∈ po0 ∨ (x ∈ r.1 ∧ ¬ x ∈ vis))

/-- The successor fold inside `dfsVisit`, as a named function. -/
def dfsFold (g : CFG) (dir : DDirection) (fuel : Nat) (l : List Nat)
    (acc : List Nat × List Nat) : List Nat × List Nat :=
  l.foldl
    (fun acc s =>
      let q := dfsVisit g dir fuel s acc.1
      (q.1, acc.2 ++ q.2))
    acc

/-- The counterexample sequence for C9: a single self-looping unconditional
jump `L: jmp L`.  Its only scanned block ends in `jmp`, which does not fall
through, so no block is ever remembered as falling through past the end. -/
def cexC9Seq : ISeq :=
  mkLinearSeq [("L", ⟨HINS_jmp, [Operand.makeLabel .LABEL "L"]⟩)]

/-- The counterexample sequence for C8: a single unconditional jump to a
label that no instruction in the sequence carries. -/
def cexC8Seq : ISeq :=
  mkLinearSeq [("", ⟨HINS_jmp, [Operand.makeLabel .LABEL "Lmissing"]⟩)]

/-- Reachability between blocks of a CFG by following edges (source to
target). -/
def cfgReach (g : CFG) (a b : Nat) : Prop :=
  Relation.ReflTransGen (fun x y => ∃ e ∈ g.edges, e.src = x ∧ e.tgt = y) a b

/-- The invariant maintained by `ControlFlowGraphBuilder::build`'s worklist
loop: blocks 0 and 1 are the unique entry and exit blocks, no edge enters
the entry or leaves the exit, interior blocks are nonempty, every interior
block is reachable from the entry, the block map never maps to the entry,
pending work items have reachable predecessors other than the exit, and the
remembered fall-through block is never the exit. -/
def builderInv (st : BuilderSt) : Prop :=
  2 ≤ st.cfg.blocks.length ∧
  (∀ i, i < st.cfg.blocks.length → ((st.cfg.getBlock i).kind = .ENTRY ↔ i = 0)) ∧
  (∀ i, i < st.cfg.blocks.length → ((st.cfg.getBlock i).kind = .EXIT ↔ i = 1)) ∧
  (∀ e ∈ st.cfg.edges, e.tgt ≠ 0 ∧ e.src ≠ 1) ∧
  (∀ i, i < st.cfg.blocks.length → (st.cfg.getBlock i).kind = .INTERIOR →
    0 < (st.cfg.getBlock i).length) ∧
  (∀ i, 2 ≤ i → i < st.cfg.blocks.length → cfgReach st.cfg 0 i) ∧
  (∀ p ∈ st.bmap, p.2 ≠ 0) ∧
  (∀ item ∈ st.work, item.pred ≠ 1 ∧ cfgReach st.cfg 0 item.pred) ∧
  (∀ p, st.lastB = some p → p ≠ 1)

/-- The instructions of `seq` from index `a` (inclusive) to `b` (exclusive). -/
def sliceInstrs (seq : ISeq) (a b : Nat) : List Instr :=
  (seq.instrs.drop a).take (b - a)

/-- The stopping condition of `scan_basic_block` viewed at index `e`: the
scanning loop that has just consumed instruction `e - 1` stops there when the
sequence ends, the consumed instruction was a function call or a branch, or
instruction `e` is labeled. -/
def scanStop (props : InsProps) (seq : ISeq) (e : Nat) : Prop :=
  seq.length ≤ e ∨ props.isFunctionCall (seq.getInstruction (e - 1)) = true ∨
  isBranchIns (seq.getInstruction (e - 1)) = true ∨ seq.hasLabelAt e = true

instance (props : InsProps) (seq : ISeq) (e : Nat) :
    Decidable (scanStop props seq e) :=
  inferInstanceAs (Decidable (_ ∨ _ ∨ _ ∨ _))

/-- The start index (in the original linear sequence) of a basic block, as
recorded in its code order. -/
def blockStart (g : CFG) (id : Nat) : Nat := (g.getBlock id).codeOrder.toNat

/-- One past the last index (in the original linear sequence) covered by a
basic block. -/
def blockEnd (g : CFG) (id : Nat) : Nat := blockStart g id + (g.getBlock id).length

/-- The invariant of the builder loop needed for linear reconstruction:
interior blocks are scans of the input starting at their recorded code
order, starting at index 0 or at a stopping index; the entry and exit
blocks stay empty and unlabeled; work-item target indices are 0, the
sequence end, or stopping indices; and the block map records scans. -/
def reconInv (props : InsProps) (seq : ISeq) (st : BuilderSt) : Prop :=
  2 ≤ st.cfg.blocks.length ∧
  (∀ i, 2 ≤ i → i < st.cfg.blocks.length → ∃ s l, s < seq.length ∧
    st.cfg.getBlock i = { scanBasicBlock props seq s l with blockId := i } ∧
    (s = 0 ∨ scanStop props seq s)) ∧
  (st.cfg.getBlock 0).length = 0 ∧
  (st.cfg.getBlock 1).length = 0 ∧
  (st.cfg.getBlock 0).hasBlockLabel = false ∧
  (st.cfg.getBlock 1).hasBlockLabel = false ∧
  (∀ item ∈ st.work, item.insIndex = 0 ∨ item.insIndex = seq.length ∨
    scanStop props seq item.insIndex) ∧
  (∀ p ∈ st.bmap, (p.1 = seq.length ∧ p.2 = 1) ∨ (p.1 < seq.length ∧ 2 ≤ p.2 ∧
    p.2 < st.cfg.blocks.length ∧ ∃ l,
    st.cfg.getBlock p.2 = { scanBasicBlock props seq p.1 l with blockId := p.2 }))

/-- The counterexample sequence for C1: `jmp L; nop; L: add` — the `nop` at
index 1 is unreachable and is silently dropped by the round trip. -/
def cexC1Seq : ISeq :=
  mkLinearSeq
    [("", ⟨HINS_jmp, [Operand.makeLabel .LABEL "L"]⟩),
     ("", ⟨HINS_nop, []⟩),
     ("L", ⟨HINS_add_q, [Operand.make1 .VREG 12, Operand.make1 .VREG 11,
       Operand.make1 .VREG 11]⟩)]

/-- The CFG built from `cexC1Seq`. -/
def cexC1Cfg : CFG := getBuiltCfg (build highLevelProps cexC1Seq)

/-- The round-trip reconstruction of `cexC1Seq`. -/
def cexC1Out : ISeq := (CFG.createInstructionSequence cexC1Cfg).getD {}

/-- The round-trip reconstruction of `witnessSeq` (for the C1 witness). -/
def witnessRoundTrip : ISeq := (CFG.createInstructionSequence witnessCfg).getD {}

/-- The label operand of a branch instruction (its last operand). -/
def branchTargetLabel (ins : Instr) : String :=
  (ins.getOperand (ins.getNumOperands - 1)).getLabel

/-- Instruction `j` of `seq` is a branch that creates a control-flow edge:
its last operand is a label and it is not a function call (the builder's
`ends_in_branch` test). -/
def isRealBranchAt (props : InsProps) (seq : ISeq) (j : Nat) : Prop :=
  props.isFunctionCall (seq.getInstruction j) = false ∧
  isBranchIns (seq.getInstruction j) = true

def lblInv (props : InsProps) (seq : ISeq) (st : BuilderSt) : Prop :=
  (∀ item ∈ st.work,
    (item.edgeKind = .FALLTHROUGH → item.label = "") ∧
    (item.edgeKind = .BRANCH → seq.labelIndex item.label = some item.insIndex ∧
      ∃ j, j < seq.length ∧ isRealBranchAt props seq j ∧
        branchTargetLabel (seq.getInstruction j) = item.label)) ∧
  (∀ i, 2 ≤ i → i < st.cfg.blocks.length →
    (st.cfg.getBlock i).getBlockLabel ≠ "" →
    seq.labelIndex ((st.cfg.getBlock i).getBlockLabel) =
      some ((st.cfg.getBlock i).codeOrder.toNat) ∧
    ∃ j, j < seq.length ∧ isRealBranchAt props seq j ∧
      branchTargetLabel (seq.getInstruction j) =
        (st.cfg.getBlock i).getBlockLabel) ∧
  (∀ i, 2 ≤ i → i < st.cfg.blocks.length →
    endsInBranch props (st.cfg.getBlock i) = true →
    ∃ t, seq.labelIndex
        (branchTargetLabel (st.cfg.getBlock i).getLastInstruction) = some t ∧
      ((∃ item ∈ st.work, item.edgeKind = .BRANCH ∧
        item.label = branchTargetLabel (st.cfg.getBlock i).getLastInstruction ∧
        item.insIndex = t) ∨
       (∃ id, (t, id) ∈ st.bmap ∧
        (st.cfg.getBlock id).getBlockLabel =
          branchTargetLabel (st.cfg.getBlock i).getLastInstruction)))

/-- The fold step of `runPass`. -/
def runPassStep {F : Type} [DecidableEq F] (A : AnalysisSpec F) (g : CFG)
    (acc : DataflowSt F × Bool) (id : Nat) : DataflowSt F × Bool :=
  let p := processBlock A g acc.1 id
  (p.1, acc.2 ∨ p.2)

/-! ## Claim C10: edge uniqueness -/

/-- The "at most one edge between any ordered pair of blocks" property. -/
def edgesPairwiseDistinct (g : CFG) : Prop :=
  g.edges.Pairwise (fun a b => ¬ (a.src = b.src ∧ a.tgt = b.tgt))

/-- A concrete two-block CFG with no edges (for the C10 witness). -/
def witnessG : CFG := { blocks := [{}, { blockId := 1 }] }

/-- `witnessG` after successfully creating a fall-through edge 0 → 1. -/
def witnessG' : CFG := (witnessG.createEdge 0 1 .FALLTHROUGH).toOption.getD {}

theorem lookupEdge_isSome_iff (g : CFG) (s t : Nat) :
    (g.lookupEdge s t).isSome ↔ ∃ e ∈ g.edges, e.src = s ∧ e.tgt = t := by
  unfold CFG.lookupEdge CFG.getOutgoingEdges
  rw [List.find?_isSome]
  constructor
  · rintro ⟨e, he, ht⟩
    rw [List.mem_filter] at he
    exact ⟨e, he.1, by simpa using he.2, by simpa using ht⟩
  · rintro ⟨e, he, hs, ht⟩
    exact ⟨e, List.mem_filter.mpr ⟨he, by simpa using hs⟩, by simpa using ht⟩

theorem lookupEdge_some_spec (g : CFG) (s t : Nat) (e : CfgEdge)
    (h : g.lookupEdge s t = some e) : e ∈ g.edges ∧ e.src = s ∧ e.tgt = t := by
  unfold CFG.lookupEdge CFG.getOutgoingEdges at h
  have hmem := List.mem_of_find?_eq_some h
  have hp := List.find?_some h
  rw [List.mem_filter] at hmem
  exact ⟨hmem.1, by simpa using hmem.2, by simpa using hp⟩

theorem createEdge_ok_spec (g : CFG) (s t : Nat) (k : EdgeKind) (g' : CFG)
    (h : g.createEdge s t k = .ok g') :
    g.lookupEdge s t = none ∧ g'.edges = g.edges ++ [⟨s, t, k⟩] ∧
    g'.blocks = g.blocks := by
  unfold CFG.createEdge at h
  by_cases hb : s < g.blocks.length ∧ t < g.blocks.length
  · rw [if_pos hb] at h
    cases hl : g.lookupEdge s t with
    | some e =>
      rw [hl] at h
      exact absurd h (by simp [throw, throwThe, MonadExceptOf.throw])
    | none =>
      rw [hl] at h
      simp only [pure, Except.pure, Except.ok.injEq] at h
      subst h
      exact ⟨rfl, rfl, rfl⟩
  · rw [if_neg hb] at h
    exact absurd h (by simp [throw, throwThe, MonadExceptOf.throw])

theorem createEdge_dup_fatal (g : CFG) (s t : Nat) (k : EdgeKind)
    (hs : s < g.blocks.length) (ht : t < g.blocks.length)
    (h : (g.lookupEdge s t).isSome) : g.createEdge s t k = .error .duplicateEdge := by
  unfold CFG.createEdge
  rw [if_pos ⟨hs, ht⟩]
  cases hl : g.lookupEdge s t with
  | some e => rfl
  | none => rw [hl] at h; simp at h

theorem createEdge_preserves_distinct (g : CFG) (s t : Nat) (k : EdgeKind) (g' : CFG)
    (h : g.createEdge s t k = .ok g') (hd : edgesPairwiseDistinct g) :
    edgesPairwiseDistinct g' := by
  obtain ⟨hnone, hedges, -⟩ := createEdge_ok_spec g s t k g' h
  unfold edgesPairwiseDistinct
  rw [hedges, List.pairwise_append]
  refine ⟨hd, List.pairwise_singleton _ _, ?_⟩
  rintro e he e' he' ⟨h1, h2⟩
  rw [List.mem_singleton] at he'
  subst he'
  have : (g.lookupEdge s t).isSome := by
    rw [lookupEdge_isSome_iff]
    exact ⟨e, he, h1, h2⟩
  rw [hnone] at this
  simp at this

/-- **C10.** In every `ControlFlowGraph`, at most one edge (of any kind)
connects a given ordered pair of blocks:
(1) `lookup_edge` ignores the edge kind — it succeeds exactly when *some*
edge from `s` to `t` exists, and what it returns is such an edge;
(2) a successful `create_edge` requires that `lookup_edge(source, target)`
found nothing, and appends exactly the requested edge;
(3) hence after an edge from `s` to `t` has been created, requesting a second
edge between the same ordered pair — of any kind, so a `FALLTHROUGH` and a
`BRANCH` edge can never coexist — fails the assert (is fatal);
(4) `create_edge` preserves the at-most-one-edge-per-ordered-pair invariant. -/
theorem claim_C10 (g : CFG) (s t : Nat) (k : EdgeKind) (g' : CFG)
    (h : g.createEdge s t k = .ok g') :
    ((g.lookupEdge s t).isSome ↔ ∃ e ∈ g.edges, e.src = s ∧ e.tgt = t) ∧
    (g.lookupEdge s t = none ∧ g'.edges = g.edges ++ [⟨s, t, k⟩]) ∧
    (∀ k' : EdgeKind, g'.createEdge s t k' = .error .duplicateEdge) ∧
    (edgesPairwiseDistinct g → edgesPairwiseDistinct g') := by
  obtain ⟨hnone, hedges, hblocks⟩ := createEdge_ok_spec g s t k g' h
  have hsome : (g'.lookupEdge s t).isSome := by
    rw [lookupEdge_isSome_iff, hedges]
    exact ⟨⟨s, t, k⟩, by simp, rfl, rfl⟩
  have hlen : s < g'.blocks.length ∧ t < g'.blocks.length := by
    rw [hblocks]
    unfold CFG.createEdge at h
    by_cases hb : s < g.blocks.length ∧ t < g.blocks.length
    · exact hb
    · rw [if_neg hb] at h
      exact absurd h (by simp [throw, throwThe, MonadExceptOf.throw])
  refine ⟨lookupEdge_isSome_iff g s t, ⟨hnone, hedges⟩, ?_, fun hd =>
    createEdge_preserves_distinct g s t k g' h hd⟩
  intro k'
  exact createEdge_dup_fatal g' s t k' hlen.1 hlen.2 hsome

/-- Witness for C10: a concrete two-block CFG in which a `FALLTHROUGH` edge
is created successfully, so that a second edge between the same pair —
here of the other kind, `BRANCH` — is fatal. -/
theorem claim_C10_witness :
    ((witnessG.lookupEdge 0 1).isSome ↔ ∃ e ∈ witnessG.edges, e.src = 0 ∧ e.tgt = 1) ∧
    (witnessG.lookupEdge 0 1 = none ∧ witnessG'.edges = witnessG.edges ++ [⟨0, 1, .FALLTHROUGH⟩]) ∧
    (∀ k' : EdgeKind, witnessG'.createEdge 0 1 k' = .error .duplicateEdge) ∧
    (edgesPairwiseDistinct witnessG → edgesPairwiseDistinct witnessG') :=
  claim_C10 witnessG 0 1 .FALLTHROUGH witnessG' rfl

/-! ## Claim C7: fact queries replay the transfer function -/

theorem getInstructionFactGo_spec {F : Type} (A : AnalysisSpec F) (tgt : Nat)
    (after : Bool) :
    ∀ (ps : List (Nat × Instr)) (f : F) (j : Nat) (h : j < ps.length),
      (ps.get ⟨j, h⟩).1 = tgt →
      (∀ i (hi : i < ps.length), i < j → (ps.get ⟨i, hi⟩).1 ≠ tgt) →
      getInstructionFactGo A tgt after ps f =
        ((ps.take (if after then j + 1 else j)).map Prod.snd).foldl
          (fun acc ins => A.modelInstruction ins acc) f
  | [], _, j, h => absurd h (by simp)
  | (p, ins) :: rest, f, j, h => by
    intro hget hfirst
    cases j with
    | zero =>
      simp only [List.get] at hget
      subst hget
      unfold getInstructionFactGo
      cases after with
      | false => simp
      | true => simp
    | succ j' =>
      have hp : p ≠ tgt := by
        have := hfirst 0 (by simp) (Nat.succ_pos j')
        simpa using this
      have hj' : j' < rest.length := by simpa using h
      have hget' : (rest.get ⟨j', hj'⟩).1 = tgt := by simpa using hget
      have hfirst' : ∀ i (hi : i < rest.length), i < j' → (rest.get ⟨i, hi⟩).1 ≠ tgt := by
        intro i hi hij
        have := hfirst (i + 1) (by simpa using Nat.succ_lt_succ hi) (Nat.succ_lt_succ hij)
        simpa using this
      unfold getInstructionFactGo
      have hrec := getInstructionFactGo_spec A tgt after rest
        (A.modelInstruction ins f) j' hj' hget' hfirst'
      cases after with
      | false => simp [hp, hrec]
      | true => simp [hp, hrec]

theorem getInstructionFact_replay {F : Type} (A : AnalysisSpec F) (st : DataflowSt F)
    (bb : ISeq) (tgt : Nat) (after : Bool) (h : tgt < bb.instrs.length) :
    getInstructionFact A st bb tgt after =
      dataflowReplay A st bb
        (if after then logicalIndexOf A.dir bb tgt + 1 else logicalIndexOf A.dir bb tgt) := by
  unfold getInstructionFact dataflowReplay analysisOrderEnum analysisOrderInstrs logicalIndexOf
  cases hd : A.dir with
  | FORWARD =>
    have hlen : tgt < bb.instrs.enum.length := by simpa [List.enum_length] using h
    have hget : (bb.instrs.enum.get ⟨tgt, hlen⟩).1 = tgt := by
      rw [List.get_enum]
    have hfirst : ∀ i (hi : i < bb.instrs.enum.length), i < tgt →
        (bb.instrs.enum.get ⟨i, hi⟩).1 ≠ tgt := by
      intro i hi hlt
      rw [List.get_enum]
      exact Nat.ne_of_lt hlt
    rw [getInstructionFactGo_spec A tgt after bb.instrs.enum _ tgt hlen hget hfirst]
    congr 1
    simp only [List.map_take, List.enum_map_snd]
  | BACKWARD =>
    have hlen0 : 0 < bb.instrs.length := Nat.lt_of_le_of_lt (Nat.zero_le _) h
    set j := bb.instrs.length - 1 - tgt with hj
    have hlenr : j < bb.instrs.enum.reverse.length := by
      simp only [List.length_reverse, List.enum_length]
      omega
    have hreq : bb.instrs.enum.length - 1 - j = tgt := by
      simp only [List.enum_length]
      omega
    have hget : (bb.instrs.enum.reverse.get ⟨j, hlenr⟩).1 = tgt := by
      have hb : bb.instrs.enum.length - 1 - (⟨j, hlenr⟩ : Fin _).1 <
          bb.instrs.enum.length := by
        simp only [List.enum_length]
        omega
      rw [List.get_reverse' _ _ hb]
      simp only [List.get_enum, hreq]
    have hfirst : ∀ i (hi : i < bb.instrs.enum.reverse.length), i < j →
        (bb.instrs.enum.reverse.get ⟨i, hi⟩).1 ≠ tgt := by
      intro i hi hlt
      have hi' : i < bb.instrs.enum.length := by
        simpa [List.length_reverse] using hi
      have hb : bb.instrs.enum.length - 1 - (⟨i, hi⟩ : Fin _).1 <
          bb.instrs.enum.length := by
        simp only [List.enum_length] at hi' ⊢
        omega
      rw [List.get_reverse' _ _ hb]
      simp only [List.get_enum, List.enum_length]
      omega
    rw [getInstructionFactGo_spec A tgt after bb.instrs.enum.reverse _ j hlenr hget hfirst]
    congr 1
    simp only [List.map_take, List.map_reverse, List.enum_map_snd]

/-- **C7.** For every dataflow analysis, block `bb` and instruction position
`tgt` in `bb`, `get_fact_before_instruction` and `get_fact_after_instruction`
equal the fact obtained by starting from `bb`'s logical-begin fact and
applying `model_instruction` to `bb`'s instructions in logical (analysis)
order up to the instruction: exclusive of it for the program-order "before"
query under a forward analysis (inclusive under a backward one), and
inclusive of it for the program-order "after" query under a forward analysis
(exclusive under a backward one). -/
theorem claim_C7 {F : Type} (A : AnalysisSpec F) (st : DataflowSt F) (bb : ISeq)
    (tgt : Nat) (h : tgt < bb.instrs.length) :
    getFactBeforeInstruction A st bb tgt =
      dataflowReplay A st bb
        (if A.dir = .FORWARD then logicalIndexOf A.dir bb tgt
         else logicalIndexOf A.dir bb tgt + 1) ∧
    getFactAfterInstruction A st bb tgt =
      dataflowReplay A st bb
        (if A.dir = .FORWARD then logicalIndexOf A.dir bb tgt + 1
         else logicalIndexOf A.dir bb tgt) := by
  unfold getFactBeforeInstruction getFactAfterInstruction
  cases hd : A.dir with
  | FORWARD =>
    rw [getInstructionFact_replay A st bb tgt _ h, getInstructionFact_replay A st bb tgt _ h]
    simp [hd]
  | BACKWARD =>
    rw [getInstructionFact_replay A st bb tgt _ h, getInstructionFact_replay A st bb tgt _ h]
    simp [hd]

/-- Witness for C7: the liveness analysis on a concrete two-instruction
block, at instruction position 0. -/
theorem claim_C7_witness :
    0 < witnessBB.instrs.length ∧
    (getFactBeforeInstruction liveVregsAnalysis witnessDF witnessBB 0 =
      dataflowReplay liveVregsAnalysis witnessDF witnessBB
        (if liveVregsAnalysis.dir = .FORWARD then
          logicalIndexOf liveVregsAnalysis.dir witnessBB 0
         else logicalIndexOf liveVregsAnalysis.dir witnessBB 0 + 1) ∧
     getFactAfterInstruction liveVregsAnalysis witnessDF witnessBB 0 =
      dataflowReplay liveVregsAnalysis witnessDF witnessBB
        (if liveVregsAnalysis.dir = .FORWARD then
          logicalIndexOf liveVregsAnalysis.dir witnessBB 0 + 1
         else logicalIndexOf liveVregsAnalysis.dir witnessBB 0)) :=
  ⟨by decide, claim_C7 liveVregsAnalysis witnessDF witnessBB 0 (by decide)⟩

/-! ## Claim C3: the transform framework -/

theorem exceptBind_ok {ε α β : Type} (m : Except ε α) (k : α → Except ε β) (r : β) :
    (m >>= k) = .ok r ↔ ∃ a, m = .ok a ∧ k a = .ok r := by
  cases m with
  | error e => simp [Bind.bind, Except.bind]
  | ok a => simp [Bind.bind, Except.bind]

theorem adoptBasicBlock_ok_spec (g : CFG) (bb : ISeq) (g' : CFG) (id : Nat)
    (h : g.adoptBasicBlock bb = .ok (g', id)) :
    id = g.blocks.length ∧ g'.blocks = g.blocks ++ [{ bb with blockId := g.blocks.length }] ∧
    g'.edges = g.edges := by
  unfold CFG.adoptBasicBlock at h
  cases hk : bb.kind with
  | ENTRY =>
    simp only [hk] at h
    by_cases he : g.entryId = none
    · rw [if_pos he] at h
      simp only [Except.ok.injEq, Prod.mk.injEq] at h
      obtain ⟨h1, h2⟩ := h
      subst h2
      rw [← h1]
      exact ⟨rfl, rfl, rfl⟩
    · rw [if_neg he] at h
      exact absurd h (by simp)
  | EXIT =>
    simp only [hk] at h
    by_cases he : g.exitId = none
    · rw [if_pos he] at h
      simp only [Except.ok.injEq, Prod.mk.injEq] at h
      obtain ⟨h1, h2⟩ := h
      subst h2
      rw [← h1]
      exact ⟨rfl, rfl, rfl⟩
    · rw [if_neg he] at h
      exact absurd h (by simp)
  | INTERIOR =>
    simp only [hk] at h
    simp only [Except.ok.injEq, Prod.mk.injEq] at h
    obtain ⟨h1, h2⟩ := h
    subst h2
    rw [← h1]
    exact ⟨rfl, rfl, rfl⟩

theorem transformAdopt_fold_spec (tbb : ISeq → ISeq) :
    ∀ (L : List ISeq) (acc res : CFG),
      L.foldlM (transformAdoptStep tbb) acc = .ok res →
      res.edges = acc.edges ∧
      res.blocks.length = acc.blocks.length + L.length ∧
      (∀ j, j < acc.blocks.length → res.blocks.getD j {} = acc.blocks.getD j {}) ∧
      (∀ k, k < L.length → ∃ bb, transformedBlock tbb (L.getD k {}) = some bb ∧
        res.blocks.getD (acc.blocks.length + k) {} =
          { bb with blockId := acc.blocks.length + k })
  | [], acc, res => by
    intro h
    simp only [List.foldlM_nil, pure, Except.pure, Except.ok.injEq] at h
    subst h
    exact ⟨rfl, rfl, fun j _ => rfl, fun k hk => absurd hk (by simp)⟩
  | orig :: L, acc, res => by
    intro h
    rw [List.foldlM_cons, exceptBind_ok] at h
    obtain ⟨a, ha, hrest⟩ := h
    unfold transformAdoptStep at ha
    cases htb : transformedBlock tbb orig with
    | none => rw [htb] at ha; exact absurd ha (by simp)
    | some resultBB =>
      simp only [htb] at ha
      cases hadopt : acc.adoptBasicBlock resultBB with
      | error e => simp only [hadopt] at ha; exact absurd ha (by simp)
      | ok p =>
        simp only [hadopt, Except.ok.injEq] at ha
        obtain ⟨hid, hblocks, hedges⟩ :=
          adoptBasicBlock_ok_spec acc resultBB p.1 p.2 (by rw [hadopt])
        obtain ⟨he, hlen, hold, hnew⟩ := transformAdopt_fold_spec tbb L a res hrest
        subst ha
        refine ⟨by rw [he, hedges], ?_, ?_, ?_⟩
        · rw [hlen, hblocks]
          simp only [List.length_append, List.length_singleton, List.length_cons,
            List.length_nil]
          omega
        · intro j hj
          rw [hold j (by rw [hblocks]; simp only [List.length_append]; omega), hblocks,
            List.getD_append _ _ _ _ hj]
        · intro k hk
          cases k with
          | zero =>
            refine ⟨resultBB, by simpa using htb, ?_⟩
            rw [hold (acc.blocks.length + 0)
                (by rw [hblocks]; simp only [List.length_append, List.length_singleton]; omega),
              hblocks]
            simp
          | succ k' =>
            have hk' : k' < L.length := by simpa using hk
            obtain ⟨bb, hbb, hres⟩ := hnew k' hk'
            refine ⟨bb, by simpa using hbb, ?_⟩
            have heq : p.1.blocks.length + k' = acc.blocks.length + (k' + 1) := by
              rw [hblocks]
              simp only [List.length_append, List.length_singleton, List.length_cons,
                List.length_nil]
              omega
            rw [← heq, hres, heq]

theorem createEdge_fold_spec :
    ∀ (es : List CfgEdge) (acc res : CFG),
      es.foldlM (fun (a : CFG) e => a.createEdge e.src e.tgt e.kind) acc = .ok res →
      res.blocks = acc.blocks ∧ res.edges = acc.edges ++ es
  | [], acc, res => by
    intro h
    simp only [List.foldlM_nil, pure, Except.pure, Except.ok.injEq] at h
    subst h
    exact ⟨rfl, by simp⟩
  | e :: es, acc, res => by
    intro h
    rw [List.foldlM_cons, exceptBind_ok] at h
    obtain ⟨a, ha, hrest⟩ := h
    obtain ⟨hnone, hedges, hblocks⟩ := createEdge_ok_spec acc e.src e.tgt e.kind a ha
    obtain ⟨hb, he⟩ := createEdge_fold_spec es a res hrest
    refine ⟨by rw [hb, hblocks], ?_⟩
    rw [he, hedges]
    simp

theorem transformEdge_fold_spec (g : CFG) :
    ∀ (L : List ISeq) (acc res : CFG),
      L.foldlM (transformEdgeStep g) acc = .ok res →
      res.blocks = acc.blocks ∧
      res.edges = acc.edges ++ L.flatMap (fun orig => g.getOutgoingEdges orig.blockId)
  | [], acc, res => by
    intro h
    simp only [List.foldlM_nil, pure, Except.pure, Except.ok.injEq] at h
    subst h
    exact ⟨rfl, by simp⟩
  | orig :: L, acc, res => by
    intro h
    rw [List.foldlM_cons, exceptBind_ok] at h
    obtain ⟨a, ha, hrest⟩ := h
    obtain ⟨hb1, he1⟩ := createEdge_fold_spec _ acc a ha
    obtain ⟨hb2, he2⟩ := transformEdge_fold_spec g L a res hrest
    refine ⟨by rw [hb2, hb1], ?_⟩
    rw [he2, he1]
    simp

/-- **C3.** `ControlFlowGraphTransform::transform_cfg` returns a newly created
CFG (assembled from scratch — the embedding is a pure function of the input
CFG, which is left unmodified) in which: the result has exactly one block per
original block; the block with id `k` is the result of
`transform_basic_block` applied to the original block with id `k`, with the
original's kind, code order and block label copied onto it; and an edge
`(s, t, kind)` exists in the result exactly when it exists in the original —
i.e., for every original edge there is an edge of the same kind between the
transformed counterparts of its endpoints, and no others.  The hypotheses
state that `g` is a well-formed CFG (block ids equal positions, as
`adopt_basic_block` assigns them, and edge sources are owned blocks, as
`create_edge` asserts). -/
theorem claim_C3 (tbb : ISeq → ISeq) (g g' : CFG)
    (hids : ∀ j, j < g.blocks.length → (g.blocks.getD j {}).blockId = j)
    (hsrc : ∀ e ∈ g.edges, e.src < g.blocks.length)
    (hok : transformCfg tbb g = .ok g') :
    g'.blocks.length = g.blocks.length ∧
    (∀ k, k < g.blocks.length → ∃ bb,
      transformedBlock tbb (g.blocks.getD k {}) = some bb ∧
      g'.getBlock k = { bb with blockId := k }) ∧
    (∀ e : CfgEdge, e ∈ g'.edges ↔ e ∈ g.edges) := by
  unfold transformCfg at hok
  cases hp1 : g.blocks.foldlM (transformAdoptStep tbb) ({} : CFG) with
  | error e => rw [hp1] at hok; exact absurd hok (by simp)
  | ok result =>
    rw [hp1] at hok
    obtain ⟨hedges0, hlen, -, hnew⟩ :=
      transformAdopt_fold_spec tbb g.blocks ({} : CFG) result hp1
    obtain ⟨hblocks2, hedges2⟩ := transformEdge_fold_spec g g.blocks result g' hok
    have hlen' : g'.blocks.length = g.blocks.length := by
      rw [hblocks2, hlen]
      simp
    refine ⟨hlen', ?_, ?_⟩
    · intro k hk
      obtain ⟨bb, hbb, hres⟩ := hnew k (by simpa using hk)
      exact ⟨bb, hbb, by
        unfold CFG.getBlock
        rw [hblocks2]
        simpa using hres⟩
    · intro e
      rw [hedges2, hedges0]
      simp only [List.nil_append, List.mem_flatMap]
      constructor
      · rintro ⟨orig, -, hmem⟩
        unfold CFG.getOutgoingEdges at hmem
        exact (List.mem_filter.mp hmem).1
      · intro hmem
        have hsrclt := hsrc e hmem
        refine ⟨g.blocks.getD e.src {}, ?_, ?_⟩
        · rw [List.getD_eq_getElem _ _ hsrclt]
          exact List.getElem_mem _
        · unfold CFG.getOutgoingEdges
          rw [hids e.src hsrclt]
          exact List.mem_filter.mpr ⟨hmem, by simp⟩

/-- Witness for C3: the identity transform applied to the concrete built CFG
`witnessCfg` (the hypotheses hold for it by computation). -/
theorem claim_C3_witness :
    (∀ j, j < witnessCfg.blocks.length → (witnessCfg.blocks.getD j {}).blockId = j) ∧
    ((witnessTransformed.blocks.length = witnessCfg.blocks.length) ∧
     (∀ k, k < witnessCfg.blocks.length → ∃ bb,
       transformedBlock id (witnessCfg.blocks.getD k {}) = some bb ∧
       witnessTransformed.getBlock k = { bb with blockId := k }) ∧
     (∀ e : CfgEdge, e ∈ witnessTransformed.edges ↔ e ∈ witnessCfg.edges)) :=
  ⟨by decide, claim_C3 id witnessCfg witnessTransformed (by decide) (by decide) rfl⟩

/-! ## Claim C4: dead store elimination -/

theorem ISeq.instrs_append (s : ISeq) (ins : Instr) :
    (s.append ins).instrs = s.instrs ++ [ins] := by
  unfold ISeq.append ISeq.instrs
  simp

theorem dse_fold_spec (df : DataflowSt Nat) (origBB : ISeq) :
    ∀ (ps : List (Nat × Instr)) (acc : ISeq),
      (ps.foldl
        (fun newBB pi =>
          let p := pi.1
          let inst := pi.2
          if dseStructural inst then newBB.append inst
          else if dseSelfMove inst then newBB
          else
            let fact := getFactAfterInstruction liveVregsAnalysis df origBB p
            if dseDeadDest inst fact then newBB
            else newBB.append inst)
        acc).instrs =
      acc.instrs ++ ((ps.filter (fun pi =>
        dseKeep pi.2 (getFactAfterInstruction liveVregsAnalysis df origBB pi.1))).map
          Prod.snd)
  | [], acc => by simp
  | pi :: ps, acc => by
    rw [List.foldl_cons, List.filter_cons]
    by_cases h1 : dseStructural pi.2
    · have hk : dseKeep pi.2 (getFactAfterInstruction liveVregsAnalysis df origBB pi.1)
          = true := by
        unfold dseKeep
        simp [h1]
      rw [if_pos h1, dse_fold_spec df origBB ps (acc.append pi.2), ISeq.instrs_append]
      simp [hk]
    · by_cases h2 : dseSelfMove pi.2
      · have hk : dseKeep pi.2 (getFactAfterInstruction liveVregsAnalysis df origBB pi.1)
            = false := by
          unfold dseKeep
          simp [h1, h2]
        rw [if_neg h1, if_pos h2, dse_fold_spec df origBB ps acc]
        simp [hk]
      · by_cases h3 : dseDeadDest pi.2 (getFactAfterInstruction liveVregsAnalysis df origBB pi.1)
        · have hk : dseKeep pi.2 (getFactAfterInstruction liveVregsAnalysis df origBB pi.1)
              = false := by
            unfold dseKeep
            simp [h1, h2, h3]
          rw [if_neg h1, if_neg h2, if_pos h3, dse_fold_spec df origBB ps acc]
          simp [hk]
        · have hk : dseKeep pi.2 (getFactAfterInstruction liveVregsAnalysis df origBB pi.1)
              = true := by
            unfold dseKeep
            simp [h1, h2, h3]
          rw [if_neg h1, if_neg h2, if_neg h3, dse_fold_spec df origBB ps (acc.append pi.2),
            ISeq.instrs_append]
          simp [hk]

/-- Counterexample to C4 as stated: for the store `mov_q (vr5), vr5` —
whose destination is the memory reference `(vr5)`, not a register — the
claim's rule keeps the instruction (it is not a move between syntactically
identical registers, and its destination is not a plain register), but
`DSE::transform_basic_block` drops it, because the code compares only the
*base registers* of the two operands (`get_base_reg() == get_base_reg()`)
without checking that the operands are plain registers. -/
theorem claim_C4_counterexample :
    (cexC4Cfg.getBlock 2).instrs =
      [⟨HINS_mov_q, [Operand.make1 .VREG_MEM 5, Operand.make1 .VREG 5]⟩] ∧
    claimC4Keep ((cexC4Cfg.getBlock 2).getInstruction 0)
      (getFactAfterInstruction liveVregsAnalysis cexC4DF (cexC4Cfg.getBlock 2) 0) = true ∧
    (dseTransformBlock cexC4DF (cexC4Cfg.getBlock 2)).instrs = [] := by
  refine ⟨by decide, by decide, by decide⟩

/-- **C4 (amended).** For every basic block, `DSE::transform_basic_block`
copies each instruction (duplicated, in order) into the output block, except
that: a non-structural move whose source operand is register-based (not an
immediate integer, label or immediate label) and whose source and destination
operands have the *same base register* — even if one of them is a memory
reference — is dropped; and a non-structural instruction whose destination
base register is absent from the liveness fact immediately after that
instruction, whose destination register number is *strictly greater than 10*,
and whose destination operand is not a vreg memory reference is dropped;
every other instruction is kept.  (`dseKeep` states exactly this rule; the
claim as originally stated differs in the two italicized places, see
`claim_C4_counterexample`.) -/
theorem claim_C4 (df : DataflowSt Nat) (origBB : ISeq) :
    (dseTransformBlock df origBB).instrs =
      (origBB.instrs.enum.filter (fun pi =>
        dseKeep pi.2 (getFactAfterInstruction liveVregsAnalysis df origBB pi.1))).map
          Prod.snd := by
  unfold dseTransformBlock
  rw [dse_fold_spec]
  rfl

/-! ## Claim C5: local value numbering -/

/-- Counterexample to C5 as stated: in the block
`mov_q vr11, $5 ; add_q vr12, $5, $5 ; add_q vr13, vr11, vr11`, the third
instruction's canonical key *as the claim defines it* — opcode plus
canonically ordered source value numbers, here (`add_q`, `[1, 1]`) — has
already been seen in the block (the second instruction bound it to value
number 2).  The claim therefore requires the existing value number to be
reused with no new allocation; but `LVN::transform_basic_block` stores keys
in a `std::map<LVNKey, int>` ordered by `LVNKey::operator<`, which also
compares the `is_constant_result` field, so the immediate-operand key and the
register-operand key are distinct, a fresh value number 3 is allocated, and
`vr13` does not share `vr12`'s value number. -/
theorem claim_C5_counterexample :
    -- a key with the claim's canonical pair (add_q, [1,1]) was seen already
    cexC5St2.keyToVN.lookup ⟨HINS_add_q, [1, 1], true⟩ = some 2 ∧
    -- the third instruction resolves to the same canonical pair
    (lvnSourceVNs cexC5St2 cexC5Instr3).2.1 = [1, 1] ∧
    (lvnKeyOf cexC5St2 cexC5Instr3).opcode = HINS_add_q ∧
    (lvnKeyOf cexC5St2 cexC5Instr3).operands = [1, 1] ∧
    -- yet a fresh value number is allocated for it
    (lvnPostState cexC5St2 cexC5Instr3).nextVN = cexC5St2.nextVN + 1 ∧
    -- and the destination register does not reuse the existing number
    (lvnPostState cexC5St2 cexC5Instr3).vregToVN.lookup 13 = some 3 ∧
    cexC5St2.vregToVN.lookup 12 = some 2 := by
  refine ⟨by decide, by decide, by decide, by decide, by decide, by decide, by decide⟩

theorem lookup_alSet_self {K V : Type} [DecidableEq K] (m : List (K × V)) (k : K) (v : V) :
    (alSet m k v).lookup k = some v := by
  simp [alSet, List.lookup]

theorem getOperand_map_enum (inst : Instr) (f : Nat × Operand → Operand) (i : Nat)
    (h : i < inst.operands.length) :
    ({ inst with operands := inst.operands.enum.map f } : Instr).getOperand i =
      f (i, inst.getOperand i) := by
  unfold Instr.getOperand
  simp only
  rw [List.getD_eq_getElem _ _ (by simpa [List.enum_length] using h :
        i < (inst.operands.enum.map f).length)]
  rw [List.getElem_map, List.getElem_enum]
  congr 1
  rw [List.getD_eq_getElem _ _ h]

/-- **C5 (amended).** Within each basic block processed by
`LVN::transform_basic_block` — whose value-numbering state is reset at the
start of every block, since the maps are locals of the per-block method (see
`lvnTransformBlock`, which folds `lvnStep` from the empty state) — for every
non-structural instruction:
(i) a move assigns its source operand's value number to the destination
register, allocating no new value number beyond source resolution;
(ii) any other instruction whose canonical key — opcode, canonically ordered
source value numbers *and the all-operands-constant flag*, since the
`std::map` orders keys by `operator<`, which compares all three fields —
has already been seen in the block reuses the existing value number instead
of allocating a new one;
(iii) each register (non-immediate, non-label) source operand of the emitted
duplicate is rewritten to reference the first register ever observed to carry
that operand's base register's *current* value number (current in the state
after the destination binding), the operand being rebuilt from its kind and
that register.  The claim as originally stated omits the constant flag from
the key, which `claim_C5_counterexample` refutes. -/
theorem claim_C5 (st : LVNState) (inst : Instr)
    (hns : lvnStructural inst = false) :
    (isMovOpcode inst.opcode →
      (lvnPostState st inst).vregToVN.lookup (inst.getOperand 0).getBaseReg =
        some ((lvnSourceVNs st inst).2.1.getD 0 0) ∧
      (lvnPostState st inst).nextVN = (lvnSourceVNs st inst).1.nextVN) ∧
    (¬ isMovOpcode inst.opcode →
      ∀ vn, (lvnSourceVNs st inst).1.keyToVN.lookup (lvnKeyOf st inst) = some vn →
        (lvnPostState st inst).vregToVN.lookup (inst.getOperand 0).getBaseReg = some vn ∧
        (lvnPostState st inst).nextVN = (lvnSourceVNs st inst).1.nextVN) ∧
    ((lvnEmitted st inst).opcode = inst.opcode ∧
     (lvnEmitted st inst).getNumOperands = inst.getNumOperands ∧
     (∀ i, i < inst.getNumOperands →
        (lvnEmitted st inst).getOperand i =
          (if i = 0 then inst.getOperand i
           else if ¬ (inst.getOperand i).isImmIval ∧ ¬ (inst.getOperand i).isLabel then
             Operand.make1 (inst.getOperand i).kind
               (lvnFirstHolder (lvnPostState st inst) (inst.getOperand i).getBaseReg)
           else inst.getOperand i))) := by
  have hpost : lvnPostState st inst = lvnBoundState st inst := by
    unfold lvnPostState lvnStep
    rw [hns]
    simp [lvnProcess]
  have hemit : lvnEmitted st inst =
      { inst with
        operands := inst.operands.enum.map (lvnRewriteOperand (lvnBoundState st inst)) } := by
    unfold lvnEmitted lvnStep
    rw [hns]
    simp [lvnProcess]
  refine ⟨?_, ?_, ?_⟩
  · intro hmov
    rw [hpost]
    unfold lvnBoundState
    constructor
    · rw [lookup_alSet_self]
      congr 1
      unfold lvnResultVN lvnKeyState lvnKeyOf
      rw [if_pos hmov, lookup_alSet_self]
      rfl
    · unfold lvnKeyState
      rw [if_pos hmov]
  · intro hmov vn hvn
    rw [hpost]
    unfold lvnBoundState
    have hks : lvnKeyState st inst = (lvnSourceVNs st inst).1 := by
      unfold lvnKeyState
      rw [if_neg hmov]
      unfold lvnKeyOf at hvn
      rw [hvn]
      simp
    constructor
    · rw [lookup_alSet_self]
      congr 1
      unfold lvnResultVN
      rw [hks, hvn]
      rfl
    · rw [hks]
  · refine ⟨by rw [hemit], by rw [hemit]; simp [Instr.getNumOperands, List.enum_length], ?_⟩
    intro i hi
    rw [hemit, getOperand_map_enum inst _ i hi, hpost]
    unfold lvnRewriteOperand
    by_cases h0 : i = 0
    · simp [h0]
    · simp only [h0, if_false]

/-- Witness for C5: the amended claim instantiated at the concrete state
`cexC5St2` and the non-structural move `mov_q vr14, vr11`. -/
theorem claim_C5_witness :
    lvnStructural witnessLvnInstr = false ∧
    ((isMovOpcode witnessLvnInstr.opcode →
      (lvnPostState cexC5St2 witnessLvnInstr).vregToVN.lookup
          (witnessLvnInstr.getOperand 0).getBaseReg =
        some ((lvnSourceVNs cexC5St2 witnessLvnInstr).2.1.getD 0 0) ∧
      (lvnPostState cexC5St2 witnessLvnInstr).nextVN =
        (lvnSourceVNs cexC5St2 witnessLvnInstr).1.nextVN) ∧
    (¬ isMovOpcode witnessLvnInstr.opcode →
      ∀ vn, (lvnSourceVNs cexC5St2 witnessLvnInstr).1.keyToVN.lookup
          (lvnKeyOf cexC5St2 witnessLvnInstr) = some vn →
        (lvnPostState cexC5St2 witnessLvnInstr).vregToVN.lookup
            (witnessLvnInstr.getOperand 0).getBaseReg = some vn ∧
        (lvnPostState cexC5St2 witnessLvnInstr).nextVN =
          (lvnSourceVNs cexC5St2 witnessLvnInstr).1.nextVN) ∧
    ((lvnEmitted cexC5St2 witnessLvnInstr).opcode = witnessLvnInstr.opcode ∧
     (lvnEmitted cexC5St2 witnessLvnInstr).getNumOperands = witnessLvnInstr.getNumOperands ∧
     (∀ i, i < witnessLvnInstr.getNumOperands →
        (lvnEmitted cexC5St2 witnessLvnInstr).getOperand i =
          (if i = 0 then witnessLvnInstr.getOperand i
           else if ¬ (witnessLvnInstr.getOperand i).isImmIval ∧
               ¬ (witnessLvnInstr.getOperand i).isLabel then
             Operand.make1 (witnessLvnInstr.getOperand i).kind
               (lvnFirstHolder (lvnPostState cexC5St2 witnessLvnInstr)
                 (witnessLvnInstr.getOperand i).getBaseReg)
           else witnessLvnInstr.getOperand i)))) :=
  ⟨by decide, claim_C5 cexC5St2 witnessLvnInstr (by decide)⟩

/-! ## Claim C2: the dataflow fixed point -/

theorem getD_set_self {α : Type} (l : List α) (i : Nat) (v d : α) (h : i < l.length) :
    (l.set i v).getD i d = v := by
  rw [List.getD_eq_getElem _ _ (by simpa using h), List.getElem_set_self]

theorem getD_set_ne {α : Type} (l : List α) (i j : Nat) (v d : α) (h : i ≠ j) :
    (l.set i v).getD j d = l.getD j d := by
  simp [List.getD_eq_getElem?_getD, List.getElem?_set_ne h]

theorem set_getD_self {α : Type} (l : List α) (i : Nat) (d : α) :
    l.set i (l.getD i d) = l := by
  rcases Nat.lt_or_ge i l.length with h | h
  · rw [List.getD_eq_getElem _ _ h]
    apply List.ext_getElem
    · simp
    · intro j h1 h2
      rcases eq_or_ne i j with rfl | hne
      · simp
      · simp [List.getElem_set_ne hne]
  · exact List.set_eq_of_length_le h

theorem getD_replicate_self {α : Type} (n i : Nat) (a : α) :
    (List.replicate n a).getD i a = a := by
  rcases Nat.lt_or_ge i n with h | h
  · rw [List.getD_eq_getElem _ _ (by simpa using h), List.getElem_replicate]
  · rw [List.getD_eq_default _ _ (by simpa using h)]

theorem logicalEndFacts_setLogicalBegin {F : Type} (dir : DDirection)
    (st : DataflowSt F) (id : Nat) (f : F) :
    logicalEndFacts dir (setLogicalBegin dir st id f) = logicalEndFacts dir st := by
  cases dir <;> rfl

theorem logicalBeginFacts_setLogicalBegin {F : Type} (dir : DDirection)
    (st : DataflowSt F) (id : Nat) (f : F) :
    logicalBeginFacts dir (setLogicalBegin dir st id f) =
      (logicalBeginFacts dir st).set id f := by
  cases dir <;> rfl

theorem logicalBeginFacts_setLogicalEnd {F : Type} (dir : DDirection)
    (st : DataflowSt F) (id : Nat) (f : F) :
    logicalBeginFacts dir (setLogicalEnd dir st id f) = logicalBeginFacts dir st := by
  cases dir <;> rfl

theorem logicalEndFacts_setLogicalEnd {F : Type} (dir : DDirection)
    (st : DataflowSt F) (id : Nat) (f : F) :
    logicalEndFacts dir (setLogicalEnd dir st id f) =
      (logicalEndFacts dir st).set id f := by
  cases dir <;> rfl

theorem combinePreds_congr {F : Type} (A : AnalysisSpec F) (g : CFG)
    (st st' : DataflowSt F) (id : Nat)
    (h : logicalEndFacts A.dir st = logicalEndFacts A.dir st') :
    combinePreds A g st id = combinePreds A g st' id := by
  unfold combinePreds
  rw [h]

theorem blockOutput_congr {F : Type} (A : AnalysisSpec F) (g : CFG)
    (st st' : DataflowSt F) (id : Nat)
    (h : logicalEndFacts A.dir st = logicalEndFacts A.dir st') :
    blockOutput A g st id = blockOutput A g st' id := by
  unfold blockOutput
  rw [combinePreds_congr A g st st' id h]

theorem processBlock_eq {F : Type} [DecidableEq F] (A : AnalysisSpec F) (g : CFG)
    (st : DataflowSt F) (id : Nat) :
    processBlock A g st id =
      (if blockOutput A g st id = (logicalEndFacts A.dir st).getD id A.top then
        (setLogicalBegin A.dir st id (combinePreds A g st id), false)
      else
        (setLogicalEnd A.dir (setLogicalBegin A.dir st id (combinePreds A g st id)) id
          (blockOutput A g st id), true)) := by
  unfold processBlock blockOutput
  dsimp only
  rw [logicalEndFacts_setLogicalBegin]
  by_cases h : (analysisOrderInstrs A.dir (g.getBlock id)).foldl
      (fun f i => A.modelInstruction i f)
      (A.modelBlock (g.getBlock id) (combinePreds A g st id)) =
      (logicalEndFacts A.dir st).getD id A.top
  · rw [if_pos h, if_neg (by simpa using h)]
  · rw [if_neg h, if_pos (by simpa using h)]

theorem processBlock_fst_facts {F : Type} [DecidableEq F] (A : AnalysisSpec F) (g : CFG)
    (st : DataflowSt F) (id : Nat) :
    logicalEndFacts A.dir (processBlock A g st id).1 =
      (if (processBlock A g st id).2 then
        (logicalEndFacts A.dir st).set id (blockOutput A g st id)
      else logicalEndFacts A.dir st) ∧
    logicalBeginFacts A.dir (processBlock A g st id).1 =
      (logicalBeginFacts A.dir st).set id (combinePreds A g st id) := by
  rw [processBlock_eq]
  by_cases h : blockOutput A g st id = (logicalEndFacts A.dir st).getD id A.top
  · rw [if_pos h]
    exact ⟨by simp [logicalEndFacts_setLogicalBegin],
      by simp [logicalBeginFacts_setLogicalBegin]⟩
  · rw [if_neg h]
    refine ⟨by simp [logicalEndFacts_setLogicalEnd, logicalEndFacts_setLogicalBegin], ?_⟩
    simp [logicalBeginFacts_setLogicalEnd, logicalBeginFacts_setLogicalBegin]

theorem processBlock_snd_false {F : Type} [DecidableEq F] (A : AnalysisSpec F) (g : CFG)
    (st : DataflowSt F) (id : Nat) (h : (processBlock A g st id).2 = false) :
    blockOutput A g st id = (logicalEndFacts A.dir st).getD id A.top := by
  rw [processBlock_eq] at h
  by_cases hb : blockOutput A g st id = (logicalEndFacts A.dir st).getD id A.top
  · exact hb
  · rw [if_neg hb] at h
    simp at h

theorem runPass_eq_fold {F : Type} [DecidableEq F] (A : AnalysisSpec F) (g : CFG)
    (order : List Nat) (st : DataflowSt F) :
    runPass A g order st = order.foldl (runPassStep A g) (st, false) := rfl

theorem runPass_fold_lengths {F : Type} [DecidableEq F] (A : AnalysisSpec F) (g : CFG) :
    ∀ (order : List Nat) (acc : DataflowSt F × Bool),
      (logicalBeginFacts A.dir (order.foldl (runPassStep A g) acc).1).length =
        (logicalBeginFacts A.dir acc.1).length ∧
      (logicalEndFacts A.dir (order.foldl (runPassStep A g) acc).1).length =
        (logicalEndFacts A.dir acc.1).length
  | [], acc => ⟨rfl, rfl⟩
  | id :: rest, acc => by
    rw [List.foldl_cons]
    obtain ⟨h1, h2⟩ := runPass_fold_lengths A g rest (runPassStep A g acc id)
    obtain ⟨he, hb⟩ := processBlock_fst_facts A g acc.1 id
    refine ⟨?_, ?_⟩
    · rw [h1]
      show (logicalBeginFacts A.dir (processBlock A g acc.1 id).1).length = _
      rw [hb, List.length_set]
    · rw [h2]
      show (logicalEndFacts A.dir (processBlock A g acc.1 id).1).length = _
      rw [he]
      by_cases hc : (processBlock A g acc.1 id).2 <;> simp [hc]

theorem runPass_fold_untouched {F : Type} [DecidableEq F] (A : AnalysisSpec F) (g : CFG) :
    ∀ (order : List Nat) (acc : DataflowSt F × Bool) (id : Nat), id ∉ order →
      (logicalBeginFacts A.dir (order.foldl (runPassStep A g) acc).1).getD id A.top =
        (logicalBeginFacts A.dir acc.1).getD id A.top ∧
      (logicalEndFacts A.dir (order.foldl (runPassStep A g) acc).1).getD id A.top =
        (logicalEndFacts A.dir acc.1).getD id A.top
  | [], acc, id, _ => ⟨rfl, rfl⟩
  | id' :: rest, acc, id, hmem => by
    have hne : id' ≠ id := by
      intro h
      exact hmem (h ▸ List.mem_cons_self id' rest)
    have hrest : id ∉ rest := fun h => hmem (List.mem_cons_of_mem _ h)
    rw [List.foldl_cons]
    obtain ⟨h1, h2⟩ := runPass_fold_untouched A g rest (runPassStep A g acc id') id hrest
    obtain ⟨he, hb⟩ := processBlock_fst_facts A g acc.1 id'
    refine ⟨?_, ?_⟩
    · rw [h1]
      show (logicalBeginFacts A.dir (processBlock A g acc.1 id').1).getD id A.top = _
      rw [hb, getD_set_ne _ _ _ _ _ hne]
    · rw [h2]
      show (logicalEndFacts A.dir (processBlock A g acc.1 id').1).getD id A.top = _
      rw [he]
      by_cases hc : (processBlock A g acc.1 id').2
      · rw [if_pos hc, getD_set_ne _ _ _ _ _ hne]
      · rw [if_neg (by simpa using hc)]

theorem runPass_fold_false_spec {F : Type} [DecidableEq F] (A : AnalysisSpec F) (g : CFG) :
    ∀ (order : List Nat) (st : DataflowSt F) (b : Bool) (st' : DataflowSt F),
      order.foldl (runPassStep A g) (st, b) = (st', false) →
      b = false ∧
      logicalEndFacts A.dir st' = logicalEndFacts A.dir st ∧
      (∀ id ∈ order,
        blockOutput A g st id = (logicalEndFacts A.dir st).getD id A.top ∧
        (id < (logicalBeginFacts A.dir st).length →
          (logicalBeginFacts A.dir st').getD id A.top = combinePreds A g st id)) ∧
      (∀ id, id ∉ order →
        (logicalBeginFacts A.dir st').getD id A.top =
          (logicalBeginFacts A.dir st).getD id A.top)
  | [], st, b, st' => by
    intro h
    simp only [List.foldl_nil, Prod.mk.injEq] at h
    obtain ⟨h1, h2⟩ := h
    subst h1 h2
    exact ⟨rfl, rfl, fun id hid => absurd hid (by simp), fun id _ => rfl⟩
  | id' :: rest, st, b, st' => by
    intro h
    rw [List.foldl_cons] at h
    obtain ⟨hb, hends, hmem, huntouched⟩ :=
      runPass_fold_false_spec A g rest (processBlock A g st id').1
        (b ∨ (processBlock A g st id').2) st' h
    have hb' : b = false ∧ (processBlock A g st id').2 = false := by
      cases b with
      | false =>
        cases hc : (processBlock A g st id').2 with
        | false => exact ⟨rfl, rfl⟩
        | true => rw [hc] at hb; simp at hb
      | true => simp at hb
    obtain ⟨hbf, hpf⟩ := hb'
    obtain ⟨he1, hb1⟩ := processBlock_fst_facts A g st id'
    rw [hpf] at he1
    simp only [Bool.false_eq_true, if_false] at he1
    have hendsEq : logicalEndFacts A.dir st' = logicalEndFacts A.dir st := by
      rw [hends, he1]
    have hout : blockOutput A g st id' = (logicalEndFacts A.dir st).getD id' A.top :=
      processBlock_snd_false A g st id' hpf
    refine ⟨hbf, hendsEq, ?_, ?_⟩
    · intro id hid
      rcases List.mem_cons.mp hid with rfl | hid'
      · refine ⟨hout, ?_⟩
        intro hlt
        by_cases hin : id ∈ rest
        · have := (hmem id hin).2 (by
            show id < (logicalBeginFacts A.dir (processBlock A g st id).1).length
            rw [hb1, List.length_set]
            exact hlt)
          rw [this]
          exact combinePreds_congr A g _ st id (by rw [he1])
        · obtain ⟨hbu, -⟩ := runPass_fold_untouched A g rest
            (runPassStep A g (st, b) id) id hin
          rw [h] at hbu
          have hfst : (runPassStep A g (st, b) id).1 = (processBlock A g st id).1 := rfl
          rw [hfst] at hbu
          rw [hbu, hb1, getD_set_self _ _ _ _ hlt]
      · obtain ⟨ho, hbp⟩ := hmem id hid'
        refine ⟨?_, ?_⟩
        · rw [← blockOutput_congr A g _ st id (by rw [he1]), ho, he1]
        · intro hlt
          rw [hbp (by rw [hb1, List.length_set]; exact hlt)]
          exact combinePreds_congr A g _ st id (by rw [he1])
    · intro id hid
      have hne : id ∉ rest := fun hh => hid (List.mem_cons_of_mem _ hh)
      have hne' : id' ≠ id := fun hh => hid (hh ▸ List.mem_cons_self id' rest)
      rw [huntouched id hne, hb1, getD_set_ne _ _ _ _ _ hne']

theorem dataflowLoop_some_spec {F : Type} [DecidableEq F] (A : AnalysisSpec F) (g : CFG)
    (order : List Nat) :
    ∀ (fuel : Nat) (st0 st' : DataflowSt F),
      dataflowLoop A g order fuel st0 = some st' →
      (∀ id ∈ order,
        blockOutput A g st' id = (logicalEndFacts A.dir st').getD id A.top ∧
        (id < (logicalBeginFacts A.dir st').length →
          (logicalBeginFacts A.dir st').getD id A.top = combinePreds A g st' id)) ∧
      (∀ id, id ∉ order →
        (logicalBeginFacts A.dir st').getD id A.top =
          (logicalBeginFacts A.dir st0).getD id A.top ∧
        (logicalEndFacts A.dir st').getD id A.top =
          (logicalEndFacts A.dir st0).getD id A.top) ∧
      (logicalBeginFacts A.dir st').length = (logicalBeginFacts A.dir st0).length
  | 0, st0, st' => by intro h; exact absurd h (by simp [dataflowLoop])
  | fuel + 1, st0, st' => by
    intro h
    unfold dataflowLoop at h
    rw [runPass_eq_fold] at h
    by_cases hc : (order.foldl (runPassStep A g) (st0, false)).2
    · rw [if_pos hc] at h
      obtain ⟨hmem, hun, hlen⟩ := dataflowLoop_some_spec A g order fuel _ st' h
      refine ⟨hmem, ?_, ?_⟩
      · intro id hid
        obtain ⟨hb, he⟩ := hun id hid
        obtain ⟨hb2, he2⟩ := runPass_fold_untouched A g order (st0, false) id hid
        exact ⟨by rw [hb, hb2], by rw [he, he2]⟩
      · rw [hlen, (runPass_fold_lengths A g order (st0, false)).1]
    · rw [if_neg hc] at h
      simp only [Option.some.injEq] at h
      have hfold : order.foldl (runPassStep A g) (st0, false) = (st', false) := by
        rw [← h]
        exact Prod.ext rfl (by simpa using hc)
      obtain ⟨-, hends, hmem, hun⟩ := runPass_fold_false_spec A g order st0 false st' hfold
      have hlen : (logicalBeginFacts A.dir st').length =
          (logicalBeginFacts A.dir st0).length := by
        have := (runPass_fold_lengths A g order (st0, false)).1
        rw [hfold] at this
        exact this
      refine ⟨?_, ?_, hlen⟩
      · intro id hid
        obtain ⟨ho, hb⟩ := hmem id hid
        refine ⟨?_, ?_⟩
        · rw [blockOutput_congr A g st' st0 id hends, ho, hends]
        · intro hlt
          rw [hb (by rw [← hlen]; exact hlt)]
          exact (combinePreds_congr A g st' st0 id hends).symm
      · intro id hid
        exact ⟨hun id hid, by rw [hends]⟩

theorem logicalSuccIds_lt (g : CFG) (dir : DDirection)
    (hedge : ∀ e ∈ g.edges, e.src < g.blocks.length ∧ e.tgt < g.blocks.length)
    (b : Nat) : ∀ s ∈ logicalSuccIds g dir b, s < g.blocks.length := by
  intro s hs
  cases dir with
  | FORWARD =>
    unfold logicalSuccIds CFG.getOutgoingEdges at hs
    obtain ⟨e, he, rfl⟩ := List.mem_map.mp hs
    exact (hedge e (List.mem_filter.mp he).1).2
  | BACKWARD =>
    unfold logicalSuccIds CFG.getIncomingEdges at hs
    obtain ⟨e, he, rfl⟩ := List.mem_map.mp hs
    exact (hedge e (List.mem_filter.mp he).1).1

theorem nodup_lt_length_le (n : Nat) (vis : List Nat) (hnd : vis.Nodup)
    (hlt : ∀ x ∈ vis, x < n) : vis.length ≤ n := by
  rw [← List.toFinset_card_of_nodup hnd, ← Finset.card_range n]
  apply Finset.card_le_card
  intro x hx
  rw [List.mem_toFinset] at hx
  exact Finset.mem_range.mpr (hlt x hx)

mutual

theorem dfsVisit_spec (g : CFG) (dir : DDirection)
    (hedge : ∀ e ∈ g.edges, e.src < g.blocks.length ∧ e.tgt < g.blocks.length) :
    ∀ (fuel b : Nat) (vis : List Nat), vis.Nodup → (∀ x ∈ vis, x < g.blocks.length) →
      b < g.blocks.length → g.blocks.length + 1 ≤ fuel + vis.length →
      dfsVisitOK g dir vis b (dfsVisit g dir fuel b vis)
  | 0, b, vis => by
    intro hnd hrange hb hfuel
    have := nodup_lt_length_le g.blocks.length vis hnd hrange
    omega
  | fuel + 1, b, vis => by
    intro hnd hrange hb hfuel
    unfold dfsVisit
    by_cases hmem : b ∈ vis
    · rw [if_pos hmem]
      exact ⟨hnd, hrange, fun x hx => hx, hmem, Nat.le_refl _,
        fun x hx => Or.inl hx, fun x => by simp⟩
    · rw [if_neg hmem]
      have hfold := dfsFold_spec g dir hedge fuel (logicalSuccIds g dir b) (b :: vis) []
        (List.nodup_cons.mpr ⟨hmem, hnd⟩)
        (by
          intro x hx
          rcases List.mem_cons.mp hx with rfl | hx'
          · exact hb
          · exact hrange x hx')
        (logicalSuccIds_lt g dir hedge b)
        (by simp only [List.length_cons]; omega)
      obtain ⟨fnd, frange, fsub, fl, flen, fclosed, fpo⟩ := hfold
      have hbmem : b ∈ (dfsFold g dir fuel (logicalSuccIds g dir b) (b :: vis, [])).1 :=
        fsub b (List.mem_cons_self b vis)
      refine ⟨fnd, frange, ?_, hbmem, ?_, ?_, ?_⟩
      · intro x hx
        exact fsub x (List.mem_cons_of_mem b hx)
      · calc vis.length ≤ (b :: vis).length := by simp
          _ ≤ _ := flen
      · intro x hx
        rcases fclosed x hx with hxv | hxs
        · rcases List.mem_cons.mp hxv with rfl | hx'
          · exact Or.inr fl
          · exact Or.inl hx'
        · exact Or.inr hxs
      · intro x
        simp only [List.mem_append, List.mem_singleton]
        constructor
        · rintro (hpo | rfl)
          · obtain ⟨hx1, hx2⟩ := ((fpo x).mp hpo).resolve_left (by simp)
            exact ⟨hx1, fun hv => hx2 (List.mem_cons_of_mem b hv)⟩
          · exact ⟨hbmem, hmem⟩
        · rintro ⟨hx1, hx2⟩
          by_cases hxb : x = b
          · exact Or.inr hxb
          · exact Or.inl ((fpo x).mpr (Or.inr ⟨hx1, by
              intro hc
              rcases List.mem_cons.mp hc with h | h
              · exact hxb h
              · exact hx2 h⟩))
termination_by fuel _ _ => (fuel, 0)

theorem dfsFold_spec (g : CFG) (dir : DDirection)
    (hedge : ∀ e ∈ g.edges, e.src < g.blocks.length ∧ e.tgt < g.blocks.length) :
    ∀ (fuel : Nat) (l : List Nat) (vis po0 : List Nat), vis.Nodup →
      (∀ x ∈ vis, x < g.blocks.length) → (∀ x ∈ l, x < g.blocks.length) →
      g.blocks.length + 1 ≤ fuel + vis.length →
      dfsFoldOK g dir vis po0 l (dfsFold g dir fuel l (vis, po0))
  | fuel, [], vis, po0 => by
    intro hnd hrange _ _
    exact ⟨hnd, hrange, fun x hx => hx, by simp, Nat.le_refl _,
      fun x hx => Or.inl hx, fun x => by simp [dfsFold]⟩
  | fuel, s :: rest, vis, po0 => by
    intro hnd hrange hl hfuel
    have hvisit := dfsVisit_spec g dir hedge fuel s vis hnd hrange
      (hl s (List.mem_cons_self s rest)) hfuel
    obtain ⟨vnd, vrange, vsub, vmem, vlen, vclosed, vpo⟩ := hvisit
    have hrest := dfsFold_spec g dir hedge fuel rest
      (dfsVisit g dir fuel s vis).1 (po0 ++ (dfsVisit g dir fuel s vis).2)
      vnd vrange (fun x hx => hl x (List.mem_cons_of_mem s hx))
      (by omega)
    obtain ⟨fnd, frange, fsub, fl, flen, fclosed, fpo⟩ := hrest
    have hstep : dfsFold g dir fuel (s :: rest) (vis, po0) =
        dfsFold g dir fuel rest
          ((dfsVisit g dir fuel s vis).1, po0 ++ (dfsVisit g dir fuel s vis).2) := rfl
    rw [hstep]
    refine ⟨fnd, frange, ?_, ?_, ?_, ?_, ?_⟩
    · intro x hx
      exact fsub x (vsub x hx)
    · intro x hx
      rcases List.mem_cons.mp hx with rfl | hx'
      · exact fsub x vmem
      · exact fl x hx'
    · omega
    · intro x hx
      rcases fclosed x hx with hxv | hxs
      · rcases vclosed x hxv with hxv2 | hxs2
        · exact Or.inl hxv2
        · exact Or.inr (fun t ht => fsub t (hxs2 t ht))
      · exact Or.inr hxs
    · intro x
      rw [fpo x]
      simp only [List.mem_append]
      constructor
      · rintro ((hp | hq) | ⟨hx1, hx2⟩)
        · exact Or.inl hp
        · obtain ⟨h1, h2⟩ := (vpo x).mp hq
          exact Or.inr ⟨fsub x h1, h2⟩
        · exact Or.inr ⟨hx1, fun hv => hx2 (vsub x hv)⟩
      · rintro (hp | ⟨hx1, hx2⟩)
        · exact Or.inl (Or.inl hp)
        · by_cases hxv : x ∈ (dfsVisit g dir fuel s vis).1
          · exact Or.inl (Or.inr ((vpo x).mpr ⟨hxv, hx2⟩))
          · exact Or.inr ⟨hx1, hxv⟩
termination_by fuel l _ _ => (fuel, l.length + 1)

end

theorem logicalPred_iff_succ (g : CFG) (dir : DDirection) (p id : Nat) :
    p ∈ logicalPredIds g dir id ↔ id ∈ logicalSuccIds g dir p := by
  cases dir with
  | FORWARD =>
    unfold logicalPredIds logicalSuccIds CFG.getIncomingEdges CFG.getOutgoingEdges
    simp only [List.mem_map, List.mem_filter]
    constructor
    · rintro ⟨e, ⟨he, ht⟩, rfl⟩
      exact ⟨e, ⟨he, by simp⟩, by simpa using ht⟩
    · rintro ⟨e, ⟨he, hs⟩, rfl⟩
      exact ⟨e, ⟨he, by simp⟩, by simpa using hs⟩
  | BACKWARD =>
    unfold logicalPredIds logicalSuccIds CFG.getIncomingEdges CFG.getOutgoingEdges
    simp only [List.mem_map, List.mem_filter]
    constructor
    · rintro ⟨e, ⟨he, hs⟩, rfl⟩
      exact ⟨e, ⟨he, by simp⟩, by simpa using hs⟩
    · rintro ⟨e, ⟨he, ht⟩, rfl⟩
      exact ⟨e, ⟨he, by simp⟩, by simpa using ht⟩

theorem combine_fold_top {F : Type} (A : AnalysisSpec F)
    (htop : A.combine A.top A.top = A.top) :
    ∀ (l : List F), (∀ f ∈ l, f = A.top) →
      l.foldl (fun f p => A.combine f p) A.top = A.top
  | [], _ => rfl
  | f :: l, h => by
    rw [List.foldl_cons, h f (List.mem_cons_self f l), htop]
    exact combine_fold_top A htop l (fun f' hf => h f' (List.mem_cons_of_mem f hf))

theorem combinePreds_eq_top {F : Type} (A : AnalysisSpec F) (g : CFG)
    (st : DataflowSt F) (id : Nat) (htop : A.combine A.top A.top = A.top)
    (h : ∀ p ∈ logicalPredIds g A.dir id,
      (logicalEndFacts A.dir st).getD p A.top = A.top) :
    combinePreds A g st id = A.top := by
  unfold combinePreds
  rw [show (logicalPredIds g A.dir id).foldl
      (fun f p => A.combine f ((logicalEndFacts A.dir st).getD p A.top)) A.top =
      ((logicalPredIds g A.dir id).map
        (fun p => (logicalEndFacts A.dir st).getD p A.top)).foldl
        (fun f p => A.combine f p) A.top from (List.foldl_map _ _ _ _).symm]
  apply combine_fold_top A htop
  intro f hf
  obtain ⟨p, hp, rfl⟩ := List.mem_map.mp hf
  exact h p hp

theorem setLogicalBegin_noop {F : Type} (dir : DDirection) (st : DataflowSt F)
    (id : Nat) (f : F)
    (h : (logicalBeginFacts dir st).set id f = logicalBeginFacts dir st) :
    setLogicalBegin dir st id f = st := by
  cases dir with
  | FORWARD =>
    unfold setLogicalBegin
    unfold logicalBeginFacts at h
    rw [h]
  | BACKWARD =>
    unfold setLogicalBegin
    unfold logicalBeginFacts at h
    rw [h]

theorem processBlock_noop {F : Type} [DecidableEq F] (A : AnalysisSpec F) (g : CFG)
    (st : DataflowSt F) (id : Nat)
    (hout : blockOutput A g st id = (logicalEndFacts A.dir st).getD id A.top)
    (hbegin : (logicalBeginFacts A.dir st).set id (combinePreds A g st id) =
      logicalBeginFacts A.dir st) :
    processBlock A g st id = (st, false) := by
  rw [processBlock_eq, if_pos hout, setLogicalBegin_noop A.dir st id _ hbegin]

theorem runPass_noop {F : Type} [DecidableEq F] (A : AnalysisSpec F) (g : CFG) :
    ∀ (order : List Nat) (st : DataflowSt F),
      (∀ id ∈ order, processBlock A g st id = (st, false)) →
      order.foldl (runPassStep A g) (st, false) = (st, false)
  | [], st, _ => rfl
  | id :: rest, st, h => by
    rw [List.foldl_cons]
    have hid := h id (List.mem_cons_self id rest)
    have hstep : runPassStep A g (st, false) id = (st, false) := by
      unfold runPassStep
      rw [hid]
      simp
    rw [hstep]
    exact runPass_noop A g rest st (fun i hi => h i (List.mem_cons_of_mem id hi))

theorem computeIterOrder_nil_spec (g : CFG) (dir : DDirection)
    (hedge : ∀ e ∈ g.edges, e.src < g.blocks.length ∧ e.tgt < g.blocks.length)
    (hstart : ∀ s, logicalStartId g dir = some s → s < g.blocks.length) :
    (∀ id ∈ computeIterOrder g dir [], id < g.blocks.length) ∧
    (∀ p ∈ computeIterOrder g dir [], ∀ t ∈ logicalSuccIds g dir p,
      t ∈ computeIterOrder g dir []) := by
  unfold computeIterOrder
  cases hst : logicalStartId g dir with
  | none => exact ⟨fun id h => absurd h (by simp), fun p h => absurd h (by simp)⟩
  | some s =>
    obtain ⟨vnd, vrange, -, -, -, vclosed, vpo⟩ :=
      dfsVisit_spec g dir hedge (g.blocks.length + 1) s [] (by simp) (by simp)
        (hstart s hst) (by simp)
    constructor
    · intro id hid
      rw [List.mem_reverse, List.nil_append] at hid
      exact vrange id ((vpo id).mp hid).1
    · intro p hp t ht
      rw [List.mem_reverse, List.nil_append] at hp
      rw [List.mem_reverse, List.nil_append]
      have hpv := ((vpo p).mp hp).1
      rcases vclosed p hpv with h | h
      · exact absurd h (by simp)
      · exact (vpo t).mpr ⟨h t ht, by simp⟩

theorem computeIterOrder_mem (g : CFG) (dir : DDirection) (prev : List Nat) (x : Nat) :
    x ∈ computeIterOrder g dir prev ↔ x ∈ prev ∨ x ∈ computeIterOrder g dir [] := by
  unfold computeIterOrder
  cases logicalStartId g dir with
  | none => simp
  | some s => simp [Or.comm]

theorem logicalBeginFacts_setIterOrder {F : Type} (dir : DDirection)
    (st : DataflowSt F) (o : List Nat) :
    logicalBeginFacts dir { st with iterOrder := o } = logicalBeginFacts dir st := by
  cases dir <;> rfl

theorem logicalEndFacts_setIterOrder {F : Type} (dir : DDirection)
    (st : DataflowSt F) (o : List Nat) :
    logicalEndFacts dir { st with iterOrder := o } = logicalEndFacts dir st := by
  cases dir <;> rfl

theorem logicalBeginFacts_init_length {F : Type} (A : AnalysisSpec F) (g : CFG) :
    (logicalBeginFacts A.dir (dataflowInit A g)).length = g.blocks.length := by
  cases hd : A.dir <;> simp [dataflowInit, logicalBeginFacts, hd]

theorem logicalBeginFacts_init_getD {F : Type} (A : AnalysisSpec F) (g : CFG) (id : Nat) :
    (logicalBeginFacts A.dir (dataflowInit A g)).getD id A.top = A.top := by
  cases hd : A.dir <;> simp [dataflowInit, logicalBeginFacts, hd, getD_replicate_self]

theorem logicalEndFacts_init_getD {F : Type} (A : AnalysisSpec F) (g : CFG) (id : Nat) :
    (logicalEndFacts A.dir (dataflowInit A g)).getD id A.top = A.top := by
  cases hd : A.dir <;> simp [dataflowInit, logicalEndFacts, hd, getD_replicate_self]

/-- **C2.** After `Dataflow::execute()` returns (modelled by
`dataflowExecute` reaching its fixed point within its fuel, starting from the
freshly constructed analysis state), for every basic block `id` of the
analyzed CFG, combining — via `combine_facts`, starting from the top fact —
the logical-end facts of all of the block's logical predecessors equals the
block's stored logical-begin fact; and calling `execute()` a second time on
the same `Dataflow` object succeeds and leaves every begin fact and end fact
unchanged.  The hypotheses say that the CFG's edges join owned blocks and the
logical start block is owned (as for every CFG the builder produces), and
that the top fact is idempotent for `combine_facts` (spec §3: combine is an
idempotent meet with a top element). -/
theorem claim_C2 {F : Type} [DecidableEq F] (A : AnalysisSpec F) (g : CFG)
    (fuel1 : Nat) (st1 : DataflowSt F)
    (hedge : ∀ e ∈ g.edges, e.src < g.blocks.length ∧ e.tgt < g.blocks.length)
    (hstart : ∀ s, logicalStartId g A.dir = some s → s < g.blocks.length)
    (htop : A.combine A.top A.top = A.top)
    (hexec : dataflowExecute A g fuel1 (dataflowInit A g) = some st1) :
    (∀ id, id < g.blocks.length →
      combinePreds A g st1 id = (logicalBeginFacts A.dir st1).getD id A.top) ∧
    (∀ fuel2, 1 ≤ fuel2 → ∃ st2, dataflowExecute A g fuel2 st1 = some st2 ∧
      st2.beginFacts = st1.beginFacts ∧ st2.endFacts = st1.endFacts) := by
  unfold dataflowExecute at hexec
  rw [show (dataflowInit A g).iterOrder = [] from rfl, Option.map_eq_some'] at hexec
  obtain ⟨stl, hloop, hst1⟩ := hexec
  obtain ⟨hmem, hun, hlen⟩ := dataflowLoop_some_spec A g _ fuel1 _ stl hloop
  have hlenn : (logicalBeginFacts A.dir stl).length = g.blocks.length := by
    rw [hlen, logicalBeginFacts_setIterOrder, logicalBeginFacts_init_length]
  obtain ⟨hrange, hclosed⟩ := computeIterOrder_nil_spec g A.dir hedge hstart
  have hb1 : logicalBeginFacts A.dir st1 = logicalBeginFacts A.dir stl := by
    rw [← hst1]
    exact logicalBeginFacts_setIterOrder ..
  have he1 : logicalEndFacts A.dir st1 = logicalEndFacts A.dir stl := by
    rw [← hst1]
    exact logicalEndFacts_setIterOrder ..
  have hio : st1.iterOrder = computeIterOrder g A.dir [] := by rw [← hst1]
  refine ⟨?_, ?_⟩
  · intro id hid
    rw [hb1, combinePreds_congr A g st1 stl id he1]
    by_cases hidm : id ∈ computeIterOrder g A.dir []
    · exact ((hmem id hidm).2 (by rw [hlenn]; exact hid)).symm
    · have hb : (logicalBeginFacts A.dir stl).getD id A.top = A.top := by
        rw [(hun id hidm).1, logicalBeginFacts_setIterOrder, logicalBeginFacts_init_getD]
      rw [hb]
      apply combinePreds_eq_top A g stl id htop
      intro p hp
      have hpn : p ∉ computeIterOrder g A.dir [] := by
        intro hpc
        exact hidm (hclosed p hpc id ((logicalPred_iff_succ g A.dir p id).mp hp))
      rw [(hun p hpn).2, logicalEndFacts_setIterOrder, logicalEndFacts_init_getD]
  · intro fuel2 hf2
    obtain ⟨k, rfl⟩ : ∃ k, fuel2 = k + 1 := ⟨fuel2 - 1, by omega⟩
    have hnoop : ∀ id ∈ computeIterOrder g A.dir st1.iterOrder,
        processBlock A g
          ({ st1 with iterOrder := computeIterOrder g A.dir st1.iterOrder }) id =
          (({ st1 with iterOrder := computeIterOrder g A.dir st1.iterOrder } :
            DataflowSt F), false) := by
      intro id hid
      have hid1 : id ∈ computeIterOrder g A.dir [] := by
        rcases (computeIterOrder_mem g A.dir _ id).mp hid with h | h
        · rw [hio] at h
          exact h
        · exact h
      have hidn := hrange id hid1
      apply processBlock_noop
      · rw [blockOutput_congr A g _ stl id
            (by rw [logicalEndFacts_setIterOrder]; exact he1),
          logicalEndFacts_setIterOrder, he1]
        exact (hmem id hid1).1
      · rw [logicalBeginFacts_setIterOrder, hb1,
          combinePreds_congr A g _ stl id
            (by rw [logicalEndFacts_setIterOrder]; exact he1)]
        rw [← (hmem id hid1).2 (by rw [hlenn]; exact hidn)]
        exact set_getD_self _ _ _
    refine ⟨{ st1 with iterOrder := computeIterOrder g A.dir st1.iterOrder }, ?_, rfl, rfl⟩
    have hrp : runPass A g (computeIterOrder g A.dir st1.iterOrder)
        { st1 with iterOrder := computeIterOrder g A.dir st1.iterOrder } =
        (({ st1 with iterOrder := computeIterOrder g A.dir st1.iterOrder } :
          DataflowSt F), false) := by
      rw [runPass_eq_fold]
      exact runPass_noop A g _ _ hnoop
    have hloop2 : dataflowLoop A g (computeIterOrder g A.dir st1.iterOrder) (k + 1)
        { st1 with iterOrder := computeIterOrder g A.dir st1.iterOrder } =
        some { st1 with iterOrder := computeIterOrder g A.dir st1.iterOrder } := by
      show (if (runPass A g (computeIterOrder g A.dir st1.iterOrder)
            { st1 with iterOrder := computeIterOrder g A.dir st1.iterOrder }).2
          then dataflowLoop A g (computeIterOrder g A.dir st1.iterOrder) k
            (runPass A g (computeIterOrder g A.dir st1.iterOrder)
              { st1 with iterOrder := computeIterOrder g A.dir st1.iterOrder }).1
          else some (runPass A g (computeIterOrder g A.dir st1.iterOrder)
            { st1 with iterOrder := computeIterOrder g A.dir st1.iterOrder }).1) =
          some { st1 with iterOrder := computeIterOrder g A.dir st1.iterOrder }
      rw [hrp]
      simp
    have hx : dataflowExecute A g (k + 1) st1 =
        Option.map
          (fun st' : DataflowSt F =>
            { st' with iterOrder := computeIterOrder g A.dir st1.iterOrder })
          (dataflowLoop A g (computeIterOrder g A.dir st1.iterOrder) (k + 1)
            { st1 with iterOrder := computeIterOrder g A.dir st1.iterOrder }) := rfl
    rw [hx, hloop2]
    rfl

/-- Witness for C2: the executed liveness analysis on the concrete built CFG
`witnessCfg`, with all hypotheses discharged by computation. -/
theorem claim_C2_witness :
    (∀ id, id < witnessCfg.blocks.length →
      combinePreds liveVregsAnalysis witnessCfg witnessDF id =
        (logicalBeginFacts liveVregsAnalysis.dir witnessDF).getD id
          liveVregsAnalysis.top) ∧
    (∀ fuel2, 1 ≤ fuel2 → ∃ st2,
      dataflowExecute liveVregsAnalysis witnessCfg fuel2 witnessDF = some st2 ∧
      st2.beginFacts = witnessDF.beginFacts ∧
      st2.endFacts = witnessDF.endFacts) :=
  claim_C2 liveVregsAnalysis witnessCfg 8 witnessDF
    (by decide)
    (by
      intro s hs
      rw [show logicalStartId witnessCfg liveVregsAnalysis.dir = some 1 from rfl] at hs
      injection hs with h
      subst h
      decide)
    (by decide)
    (by rfl)

theorem ISeq.append_length (s : ISeq) (i : Instr) :
    (s.append i).length = s.length + 1 := by
  unfold ISeq.append ISeq.length
  simp

theorem ISeq.append_getLast (s : ISeq) (i : Instr) :
    (s.append i).getLastInstruction = i := by
  unfold ISeq.append ISeq.getLastInstruction ISeq.getInstruction ISeq.length
  simp [List.getD_append_right]

/-- One-step unfolding of the scanning loop when the start index is in
range. -/
theorem scanGo_succ (props : InsProps) (seq : ISeq) (fuel : Nat) (bb : ISeq)
    (index : Nat) (h : index < seq.length) :
    scanGo props seq (fuel + 1) bb index =
      (if index + 1 ≥ seq.length then bb.append (seq.getInstruction index)
       else if props.isFunctionCall (seq.getInstruction index) then
         bb.append (seq.getInstruction index)
       else if isBranchIns (seq.getInstruction index) then
         bb.append (seq.getInstruction index)
       else if seq.hasLabelAt (index + 1) then
         bb.append (seq.getInstruction index)
       else scanGo props seq fuel (bb.append (seq.getInstruction index))
         (index + 1)) := by
  cases fuel with
  | zero =>
    unfold scanGo
    rw [if_pos h]
    rfl
  | succ f =>
    unfold scanGo
    rw [if_pos h]
    rfl

/-- The scanning loop started in range adds at least one instruction, stays
within the sequence, and its last appended instruction is the one at the
final scanned index. -/
theorem scanGo_spec (props : InsProps) (seq : ISeq) :
    ∀ (fuel : Nat) (bb : ISeq) (index : Nat), index < seq.length →
      ∃ k, 1 ≤ k ∧ index + k ≤ seq.length ∧
        (scanGo props seq (fuel + 1) bb index).length = bb.length + k ∧
        (scanGo props seq (fuel + 1) bb index).getLastInstruction =
          seq.getInstruction (index + k - 1)
  | 0, bb, index, h => by
    rw [scanGo_succ props seq 0 bb index h]
    have hstop : (bb.append (seq.getInstruction index)).length = bb.length + 1 ∧
        (bb.append (seq.getInstruction index)).getLastInstruction =
          seq.getInstruction (index + 1 - 1) := by
      refine ⟨ISeq.append_length bb _, ?_⟩
      rw [ISeq.append_getLast]
      congr 1
    by_cases h1 : index + 1 ≥ seq.length
    · rw [if_pos h1]
      exact ⟨1, le_refl 1, by omega, hstop.1, hstop.2⟩
    rw [if_neg h1]
    by_cases h2 : props.isFunctionCall (seq.getInstruction index) = true
    · rw [if_pos h2]
      exact ⟨1, le_refl 1, by omega, hstop.1, hstop.2⟩
    rw [if_neg h2]
    by_cases h3 : isBranchIns (seq.getInstruction index) = true
    · rw [if_pos h3]
      exact ⟨1, le_refl 1, by omega, hstop.1, hstop.2⟩
    rw [if_neg h3]
    by_cases h4 : seq.hasLabelAt (index + 1) = true
    · rw [if_pos h4]
      exact ⟨1, le_refl 1, by omega, hstop.1, hstop.2⟩
    rw [if_neg h4]
    rw [show scanGo props seq 0 (bb.append (seq.getInstruction index)) (index + 1) =
      bb.append (seq.getInstruction index) from rfl]
    exact ⟨1, le_refl 1, by omega, hstop.1, hstop.2⟩
  | fuel + 1, bb, index, h => by
    rw [scanGo_succ props seq (fuel + 1) bb index h]
    have hstop : (bb.append (seq.getInstruction index)).length = bb.length + 1 ∧
        (bb.append (seq.getInstruction index)).getLastInstruction =
          seq.getInstruction (index + 1 - 1) := by
      refine ⟨ISeq.append_length bb _, ?_⟩
      rw [ISeq.append_getLast]
      congr 1
    by_cases h1 : index + 1 ≥ seq.length
    · rw [if_pos h1]
      exact ⟨1, le_refl 1, by omega, hstop.1, hstop.2⟩
    rw [if_neg h1]
    by_cases h2 : props.isFunctionCall (seq.getInstruction index) = true
    · rw [if_pos h2]
      exact ⟨1, le_refl 1, by omega, hstop.1, hstop.2⟩
    rw [if_neg h2]
    by_cases h3 : isBranchIns (seq.getInstruction index) = true
    · rw [if_pos h3]
      exact ⟨1, le_refl 1, by omega, hstop.1, hstop.2⟩
    rw [if_neg h3]
    by_cases h4 : seq.hasLabelAt (index + 1) = true
    · rw [if_pos h4]
      exact ⟨1, le_refl 1, by omega, hstop.1, hstop.2⟩
    rw [if_neg h4]
    obtain ⟨k, hk1, hk2, hk3, hk4⟩ :=
      scanGo_spec props seq fuel (bb.append (seq.getInstruction index)) (index + 1)
        (by omega)
    refine ⟨k + 1, by omega, by omega, ?_, ?_⟩
    · rw [hk3, ISeq.append_length]
      omega
    · rw [hk4]
      congr 1
      omega

/-- The last instruction of a scanned basic block that ends exactly at the
end of the input sequence is the input sequence's last instruction. -/
theorem scanBasicBlock_last_at_end (props : InsProps) (seq : ISeq) (i : Nat)
    (l : String) (hi : i < seq.length)
    (hend : i + (scanBasicBlock props seq i l).length = seq.length) :
    (scanBasicBlock props seq i l).getLastInstruction =
      seq.getInstruction (seq.length - 1) := by
  unfold scanBasicBlock at hend ⊢
  rw [show seq.length - i = (seq.length - i - 1) + 1 by omega] at hend ⊢
  obtain ⟨k, hk1, hk2, hk3, hk4⟩ :=
    scanGo_spec props seq (seq.length - i - 1)
      (ISeq.mkBlock .INTERIOR (Int.ofNat i) l) i hi
  rw [hk3] at hend
  rw [hk4]
  congr 1
  have hmk : (ISeq.mkBlock .INTERIOR (Int.ofNat i) l).length = 0 := rfl
  rw [hmk] at hend
  omega

theorem builderStep_lastB (props : InsProps) (seq : ISeq) (st : BuilderSt)
    (item : WorkItem) (rest : List WorkItem) (st' : BuilderSt)
    (hft : props.fallsThrough (seq.getInstruction (seq.length - 1)) = false)
    (hnone : st.lastB = none)
    (h : builderStep props seq st item rest = .ok st') :
    st'.lastB = none := by
  unfold builderStep at h
  by_cases hgt : item.insIndex > seq.length
  · rw [if_pos hgt] at h
    exact absurd h (by simp)
  rw [if_neg hgt] at h
  by_cases heq : item.insIndex = seq.length
  · rw [if_pos heq] at h
    cases hce : st.cfg.createEdge item.pred 1 item.edgeKind with
    | error e =>
      simp only [hce] at h
      exact absurd h (by simp)
    | ok g =>
      simp only [hce, Except.ok.injEq] at h
      rw [← h]
      exact hnone
  rw [if_neg heq] at h
  have hlt : item.insIndex < seq.length := by omega
  cases hlk : st.bmap.lookup item.insIndex with
  | some bid =>
    simp only [hlk] at h
    by_cases hrel : item.edgeKind = EdgeKind.BRANCH ∧
        ¬ (st.cfg.getBlock bid).hasBlockLabel = true
    · rw [if_pos hrel] at h
      cases hsb : (st.cfg.getBlock bid).setBlockLabel item.label with
      | none =>
        simp only [hsb] at h
        exact absurd h (by simp)
      | some bb =>
        simp only [hsb] at h
        by_cases hmis : item.edgeKind = EdgeKind.BRANCH ∧
            (({ st.cfg with blocks := st.cfg.blocks.set bid bb } : CFG).getBlock bid).getBlockLabel ≠ item.label
        · rw [if_pos hmis] at h
          exact absurd h (by simp)
        rw [if_neg hmis] at h
        cases hce : ({ st.cfg with blocks := st.cfg.blocks.set bid bb } : CFG).createEdge item.pred bid item.edgeKind with
        | error e =>
          simp only [hce] at h
          exact absurd h (by simp)
        | ok g =>
          simp only [hce, Except.ok.injEq] at h
          rw [← h]
          exact hnone
    · rw [if_neg hrel] at h
      dsimp only at h
      by_cases hmis : item.edgeKind = EdgeKind.BRANCH ∧
          (st.cfg.getBlock bid).getBlockLabel ≠ item.label
      · rw [if_pos hmis] at h
        exact absurd h (by simp)
      rw [if_neg hmis] at h
      cases hce : st.cfg.createEdge item.pred bid item.edgeKind with
      | error e =>
        simp only [hce] at h
        exact absurd h (by simp)
      | ok g =>
        simp only [hce, Except.ok.injEq] at h
        rw [← h]
        exact hnone
  | none =>
    simp only [hlk] at h
    cases had : st.cfg.adoptBasicBlock (scanBasicBlock props seq item.insIndex item.label) with
    | error e =>
      simp only [had] at h
      exact absurd h (by simp)
    | ok gp =>
      obtain ⟨g, bid⟩ := gp
      simp only [had] at h
      by_cases hmis : item.edgeKind = EdgeKind.BRANCH ∧
          (g.getBlock bid).getBlockLabel ≠ item.label
      · rw [if_pos hmis] at h
        exact absurd h (by simp)
      rw [if_neg hmis] at h
      cases hce : g.createEdge item.pred bid item.edgeKind with
      | error e =>
        simp only [hce] at h
        exact absurd h (by simp)
      | ok g2 =>
        simp only [hce] at h
        split at h
        · exact absurd h (by simp)
        next branchItems hbw =>
          by_cases hftb : props.fallsThrough
              (scanBasicBlock props seq item.insIndex item.label).getLastInstruction = true
          · rw [if_pos hftb] at h
            by_cases htg : item.insIndex +
                (scanBasicBlock props seq item.insIndex item.label).length > seq.length
            · rw [if_pos htg] at h
              exact absurd h (by simp)
            rw [if_neg htg] at h
            by_cases hte : item.insIndex +
                (scanBasicBlock props seq item.insIndex item.label).length = seq.length
            · exfalso
              have hlast := scanBasicBlock_last_at_end props seq item.insIndex item.label hlt hte
              rw [hlast, hft] at hftb
              exact absurd hftb (by simp)
            · rw [if_neg hte] at h
              simp only [Except.ok.injEq] at h
              rw [← h]
              exact hnone
          · rw [if_neg hftb] at h
            simp only [Except.ok.injEq] at h
            rw [← h]
            exact hnone

/-- With no block remembered as falling through past the end of the input
sequence (and no block able to become so remembered, because the input's
last instruction does not fall through), the worklist loop never returns a
CFG. -/
theorem buildLoop_lastB_none (props : InsProps) (seq : ISeq)
    (hft : props.fallsThrough (seq.getInstruction (seq.length - 1)) = false) :
    ∀ (fuel : Nat) (st : BuilderSt), st.lastB = none →
      ∀ g, buildLoop props seq fuel st ≠ .ok g
  | 0, st, hn, g => by
    intro h
    exact absurd h (by simp [buildLoop, throw, throwThe, MonadExceptOf.throw])
  | fuel + 1, st, hn, g => by
    intro h
    unfold buildLoop at h
    cases hw : st.work with
    | nil =>
      simp only [hw] at h
      simp only [hn] at h
      exact absurd h (by simp [throw, throwThe, MonadExceptOf.throw])
    | cons item rest =>
      simp only [hw] at h
      cases hbs : builderStep props seq st item rest with
      | error e =>
        simp only [hbs] at h
        exact absurd h (by simp)
      | ok st2 =>
        simp only [hbs] at h
        exact buildLoop_lastB_none props seq hft fuel st2
          (builderStep_lastB props seq st item rest st2 hft hn hbs) g h

/-- A successful run of the worklist loop passes through a drained state
whose remembered fall-through block receives the final `FALLTHROUGH` edge to
the exit block (block id 1), appended as the last edge of the result. -/
theorem buildLoop_ok_spec (props : InsProps) (seq : ISeq) :
    ∀ (fuel : Nat) (st : BuilderSt) (g : CFG),
      buildLoop props seq fuel st = .ok g →
      ∃ fuel' st' p, st'.work = [] ∧ st'.lastB = some p ∧
        buildLoop props seq fuel' st' = .ok g ∧
        g.edges = st'.cfg.edges ++ [⟨p, 1, .FALLTHROUGH⟩]
  | 0, st, g, h => absurd h (by simp [buildLoop, throw, throwThe, MonadExceptOf.throw])
  | fuel + 1, st, g, h => by
    unfold buildLoop at h
    cases hw : st.work with
    | nil =>
      simp only [hw] at h
      cases hl : st.lastB with
      | none =>
        simp only [hl] at h
        exact absurd h (by simp [throw, throwThe, MonadExceptOf.throw])
      | some p =>
        simp only [hl] at h
        refine ⟨fuel + 1, st, p, hw, hl, ?_,
          (createEdge_ok_spec st.cfg p 1 .FALLTHROUGH g h).2.1⟩
        unfold buildLoop
        simp only [hw, hl]
        exact h
    | cons item rest =>
      simp only [hw] at h
      cases hbs : builderStep props seq st item rest with
      | error e =>
        simp only [hbs] at h
        exact absurd h (by simp)
      | ok st2 =>
        simp only [hbs] at h
        exact buildLoop_ok_spec props seq fuel st2 g h

/-- **C9.** `ControlFlowGraphBuilder::build` returns successfully only by
reaching a drained worklist with some scanned block remembered as falling
through past the end of the sequence (`last`), in which case the final step
creates a `FALLTHROUGH` edge from that block to the exit block, appended as
the last edge of the result; and when the input's last instruction does not
fall through (so no scanned block can fall through to the sequence end, e.g.
a sequence ending in an unconditional jump), `build` fails the
`assert(last != nullptr)` instead of returning a CFG. -/
theorem claim_C9 (props : InsProps) (seq : ISeq) :
    (∀ (fuel : Nat) (st : BuilderSt) (g : CFG),
      buildLoop props seq fuel st = .ok g →
      ∃ fuel' st' p, st'.work = [] ∧ st'.lastB = some p ∧
        buildLoop props seq fuel' st' = .ok g ∧
        g.edges = st'.cfg.edges ++ [⟨p, 1, .FALLTHROUGH⟩]) ∧
    (0 < seq.length →
      props.fallsThrough (seq.getInstruction (seq.length - 1)) = false →
      ∀ g, build props seq ≠ .ok g) :=
  ⟨buildLoop_ok_spec props seq,
   fun _ hft g => buildLoop_lastB_none props seq hft (2 * seq.length + 4)
     (builderInit seq) rfl g⟩

/-- Witness for C9: the straight-line sequence `witnessSeq` builds
successfully through a drained state with a remembered fall-through block,
and the self-looping `L: jmp L` sequence `cexC9Seq` never builds. -/
theorem claim_C9_witness :
    (buildLoop highLevelProps witnessSeq (2 * witnessSeq.length + 4)
        (builderInit witnessSeq) = .ok witnessCfg ∧
      ∃ fuel' st' p, st'.work = [] ∧ st'.lastB = some p ∧
        buildLoop highLevelProps witnessSeq fuel' st' = .ok witnessCfg ∧
        witnessCfg.edges = st'.cfg.edges ++ [⟨p, 1, .FALLTHROUGH⟩]) ∧
    (0 < cexC9Seq.length ∧
      highLevelProps.fallsThrough (cexC9Seq.getInstruction (cexC9Seq.length - 1)) = false ∧
      ∀ g, build highLevelProps cexC9Seq ≠ .ok g) := by
  have hbl : buildLoop highLevelProps witnessSeq (2 * witnessSeq.length + 4)
      (builderInit witnessSeq) = .ok witnessCfg := by rfl
  exact ⟨⟨hbl, (claim_C9 highLevelProps witnessSeq).1 _ _ witnessCfg hbl⟩,
    by decide, by decide,
    fun g => (claim_C9 highLevelProps cexC9Seq).2 (by decide) (by decide) g⟩

/-- **C8.** When the worklist item at the head of the work deque makes the
builder scan a new basic block that ends in a branch whose label operand
resolves to no instruction of the input sequence
(`get_index_of_labeled_instruction` raises), the builder step fails with an
error — it never produces an updated state — and therefore the worklist loop
never returns a CFG from that state, for any fuel. -/
theorem claim_C8 (props : InsProps) (seq : ISeq) (st : BuilderSt)
    (item : WorkItem) (rest : List WorkItem)
    (hwork : st.work = item :: rest)
    (hin : item.insIndex < seq.length)
    (hnew : st.bmap.lookup item.insIndex = none)
    (hbr : endsInBranch props (scanBasicBlock props seq item.insIndex item.label) = true)
    (hlab : seq.getIndexOfLabeledInstruction
      (((scanBasicBlock props seq item.insIndex item.label).getLastInstruction).getOperand
        ((scanBasicBlock props seq item.insIndex item.label).getLastInstruction.getNumOperands
          - 1)).getLabel = none) :
    (∃ e, builderStep props seq st item rest = .error e) ∧
    (∀ fuel g, buildLoop props seq fuel st ≠ .ok g) := by
  have hstep : ∃ e, builderStep props seq st item rest = .error e := by
    unfold builderStep
    rw [if_neg (by omega : ¬ item.insIndex > seq.length),
      if_neg (by omega : ¬ item.insIndex = seq.length)]
    simp only [hnew]
    cases had : st.cfg.adoptBasicBlock (scanBasicBlock props seq item.insIndex item.label) with
    | error e =>
      exact ⟨e, rfl⟩
    | ok gp =>
      obtain ⟨g, bid⟩ := gp
      dsimp only
      by_cases hmis : item.edgeKind = EdgeKind.BRANCH ∧
          (g.getBlock bid).getBlockLabel ≠ item.label
      · rw [if_pos hmis]
        exact ⟨.branchLabelMismatch, rfl⟩
      rw [if_neg hmis]
      cases hce : g.createEdge item.pred bid item.edgeKind with
      | error e =>
        exact ⟨e, rfl⟩
      | ok g2 =>
        rw [if_pos hbr]
        by_cases hno : (scanBasicBlock props seq item.insIndex
            item.label).getLastInstruction.getNumOperands = 0
        · rw [if_pos hno]
          exact ⟨.branchHasNoOperands, rfl⟩
        rw [if_neg hno]
        by_cases hkind : ((scanBasicBlock props seq item.insIndex
            item.label).getLastInstruction.getOperand
            ((scanBasicBlock props seq item.insIndex
              item.label).getLastInstruction.getNumOperands - 1)).kind ≠ OperandKind.LABEL
        · rw [if_pos hkind]
          exact ⟨.branchLastOperandNotLabel, rfl⟩
        rw [if_neg hkind]
        simp only [hlab]
        exact ⟨.unresolvedLabel, rfl⟩
  refine ⟨hstep, ?_⟩
  intro fuel g h
  obtain ⟨e, he⟩ := hstep
  cases fuel with
  | zero =>
    exact absurd h (by simp [buildLoop, throw, throwThe, MonadExceptOf.throw])
  | succ fuel =>
    unfold buildLoop at h
    simp only [hwork] at h
    rw [he] at h
    exact absurd h (by simp)

/-- Witness for C8: the builder on `cexC8Seq` (an unconditional jump to a
nonexistent label) fails at its first work item and never returns a CFG. -/
theorem claim_C8_witness :
    ((builderInit cexC8Seq).work = (⟨0, 0, .FALLTHROUGH, ""⟩ : WorkItem) :: [] ∧
     (0 : Nat) < cexC8Seq.length ∧
     (builderInit cexC8Seq).bmap.lookup 0 = none ∧
     endsInBranch highLevelProps (scanBasicBlock highLevelProps cexC8Seq 0 "") = true ∧
     cexC8Seq.getIndexOfLabeledInstruction
       (((scanBasicBlock highLevelProps cexC8Seq 0 "").getLastInstruction).getOperand
         ((scanBasicBlock highLevelProps cexC8Seq 0 "").getLastInstruction.getNumOperands
           - 1)).getLabel = none) ∧
    (∃ e, builderStep highLevelProps cexC8Seq (builderInit cexC8Seq)
        ⟨0, 0, .FALLTHROUGH, ""⟩ [] = .error e) ∧
    (∀ fuel g, buildLoop highLevelProps cexC8Seq fuel (builderInit cexC8Seq) ≠ .ok g) :=
  ⟨⟨by decide, by decide, by decide, by decide, by decide⟩,
   claim_C8 highLevelProps cexC8Seq (builderInit cexC8Seq) ⟨0, 0, .FALLTHROUGH, ""⟩ []
     (by decide) (by decide) (by decide) (by decide) (by decide)⟩

theorem cfgReach_mono (g g' : CFG) (h : ∀ e ∈ g.edges, e ∈ g'.edges) (a b : Nat)
    (hr : cfgReach g a b) : cfgReach g' a b :=
  Relation.ReflTransGen.mono
    (fun x y hxy => by
      obtain ⟨e, he, hs, ht⟩ := hxy
      exact ⟨e, h e he, hs, ht⟩) hr

theorem cfgReach_of_append (g g' : CFG) (e0 : CfgEdge)
    (h : g'.edges = g.edges ++ [e0]) (a b : Nat) (hr : cfgReach g a b) :
    cfgReach g' a b :=
  cfgReach_mono g g' (fun e he => by rw [h]; exact List.mem_append_left _ he) a b hr

theorem ISeq.setBlockLabel_preserves (s : ISeq) (l : String) (s' : ISeq)
    (h : s.setBlockLabel l = some s') : s'.kind = s.kind ∧ s'.length = s.length := by
  unfold ISeq.setBlockLabel at h
  cases hs : s.slots with
  | nil =>
    simp only [hs] at h
    unfold ISeq.defineLabel at h
    split at h
    · simp only [Option.some.injEq] at h
      rw [← h]
      exact ⟨rfl, rfl⟩
    · exact absurd h (by simp)
  | cons sl rest =>
    simp only [hs, Option.some.injEq] at h
    rw [← h]
    refine ⟨rfl, ?_⟩
    unfold ISeq.length
    simp [hs]

theorem scanGo_kind (props : InsProps) (seq : ISeq) :
    ∀ (fuel : Nat) (bb : ISeq) (index : Nat),
      (scanGo props seq fuel bb index).kind = bb.kind
  | 0, bb, index => rfl
  | fuel + 1, bb, index => by
    by_cases h : index < seq.length
    · rw [scanGo_succ props seq fuel bb index h]
      have hap : (bb.append (seq.getInstruction index)).kind = bb.kind := rfl
      split
      · exact hap
      · split
        · exact hap
        · split
          · exact hap
          · split
            · exact hap
            · rw [scanGo_kind props seq fuel (bb.append (seq.getInstruction index))
                (index + 1)]
              exact hap
    · unfold scanGo
      rw [if_neg h]

theorem scanBasicBlock_kind (props : InsProps) (seq : ISeq) (i : Nat) (l : String) :
    (scanBasicBlock props seq i l).kind = .INTERIOR := by
  unfold scanBasicBlock
  rw [scanGo_kind]
  rfl

theorem scanBasicBlock_pos (props : InsProps) (seq : ISeq) (i : Nat) (l : String)
    (hi : i < seq.length) : 0 < (scanBasicBlock props seq i l).length := by
  unfold scanBasicBlock
  rw [show seq.length - i = (seq.length - i - 1) + 1 by omega]
  obtain ⟨k, hk1, hk2, hk3, hk4⟩ :=
    scanGo_spec props seq (seq.length - i - 1)
      (ISeq.mkBlock .INTERIOR (Int.ofNat i) l) i hi
  rw [hk3]
  have hmk : (ISeq.mkBlock .INTERIOR (Int.ofNat i) l).length = 0 := rfl
  omega

theorem adoptBasicBlock_interior (g : CFG) (bb : ISeq) (hk : bb.kind = .INTERIOR) :
    g.adoptBasicBlock bb =
      .ok ({ g with blocks := g.blocks ++ [{ bb with blockId := g.blocks.length }] },
        g.blocks.length) := by
  unfold CFG.adoptBasicBlock
  dsimp only
  rw [show ({ bb with blockId := g.blocks.length } : ISeq).kind = bb.kind from rfl, hk]

theorem getBlock_set_ne (g : CFG) (bid : Nat) (bb : ISeq) (i : Nat) (h : i ≠ bid) :
    ({ g with blocks := g.blocks.set bid bb } : CFG).getBlock i = g.getBlock i := by
  unfold CFG.getBlock
  dsimp only
  rw [List.getD, List.getD, List.get?_eq_getElem?, List.get?_eq_getElem?,
    List.getElem?_set_ne (Ne.symm h)]

theorem getBlock_set_self (g : CFG) (bid : Nat) (bb : ISeq)
    (h : bid < g.blocks.length) :
    ({ g with blocks := g.blocks.set bid bb } : CFG).getBlock bid = bb := by
  unfold CFG.getBlock
  dsimp only
  rw [List.getD, List.get?_eq_getElem?, List.getElem?_set_self h]
  rfl

theorem getBlock_append (g : CFG) (bb : ISeq) (i : Nat) :
    ({ g with blocks := g.blocks ++ [bb] } : CFG).getBlock i =
      if i = g.blocks.length then bb else g.getBlock i := by
  unfold CFG.getBlock
  dsimp only
  by_cases h : i = g.blocks.length
  · rw [if_pos h, h]
    simp [List.getD_append_right]
  · rw [if_neg h]
    by_cases hlt : i < g.blocks.length
    · rw [List.getD_append _ _ _ _ hlt]
    · rw [List.getD_eq_default _ _ (by simp; omega),
        List.getD_eq_default _ _ (by omega)]

theorem builderInit_inv (seq : ISeq) : builderInv (builderInit seq) := by
  refine ⟨by rw [show (builderInit seq).cfg.blocks.length = 2 from rfl],
    ?_, ?_, ?_, ?_, ?_, ?_, ?_, ?_⟩
  · intro i hi
    have hl : (builderInit seq).cfg.blocks.length = 2 := rfl
    rw [hl] at hi
    match i, hi with
    | 0, _ => simp [builderInit, CFG.getBlock, ISeq.mkBlock]
    | 1, _ => simp [builderInit, CFG.getBlock, ISeq.mkBlock]
  · intro i hi
    have hl : (builderInit seq).cfg.blocks.length = 2 := rfl
    rw [hl] at hi
    match i, hi with
    | 0, _ => simp [builderInit, CFG.getBlock, ISeq.mkBlock]
    | 1, _ => simp [builderInit, CFG.getBlock, ISeq.mkBlock]
  · intro e he
    exact absurd he (by simp [builderInit])
  · intro i hi hk
    have hl : (builderInit seq).cfg.blocks.length = 2 := rfl
    rw [hl] at hi
    match i, hi with
    | 0, _ => exact absurd hk (by simp [builderInit, CFG.getBlock, ISeq.mkBlock])
    | 1, _ => exact absurd hk (by simp [builderInit, CFG.getBlock, ISeq.mkBlock])
  · intro i h2 hi
    have hl : (builderInit seq).cfg.blocks.length = 2 := rfl
    rw [hl] at hi
    omega
  · intro p hp
    have hb : (builderInit seq).bmap = [(seq.length, 1)] := rfl
    rw [hb] at hp
    simp at hp
    rw [hp]
    exact one_ne_zero
  · intro item hitem
    have hw : (builderInit seq).work = [⟨0, 0, .FALLTHROUGH, ""⟩] := rfl
    rw [hw] at hitem
    simp at hitem
    rw [hitem]
    exact ⟨by decide, Relation.ReflTransGen.refl⟩
  · intro p hp
    exact absurd hp (by simp [builderInit])

theorem getBlock_congr (g g' : CFG) (h : g.blocks = g'.blocks) (i : Nat) :
    g.getBlock i = g'.getBlock i := by
  unfold CFG.getBlock
  rw [h]

theorem pairLookup_mem {α β : Type} [BEq α] [LawfulBEq α] :
    ∀ (l : List (α × β)) (a : α) (b : β), l.lookup a = some b → (a, b) ∈ l
  | [], a, b, h => by simp [List.lookup] at h
  | (x, y) :: t, a, b, h => by
    unfold List.lookup at h
    split at h
    · simp only [Option.some.injEq] at h
      rename_i hax
      have : a = x := by simpa using hax
      rw [this, ← h]
      exact List.mem_cons_self _ _
    · exact List.mem_cons_of_mem _ (pairLookup_mem t a b h)

theorem getBlock_setLabel_preserves (g : CFG) (bid : Nat) (l : String) (bb : ISeq)
    (hsb : (g.getBlock bid).setBlockLabel l = some bb) (i : Nat) :
    (({ g with blocks := g.blocks.set bid bb } : CFG).getBlock i).kind =
      (g.getBlock i).kind ∧
    (({ g with blocks := g.blocks.set bid bb } : CFG).getBlock i).length =
      (g.getBlock i).length := by
  by_cases hib : i = bid
  · subst hib
    by_cases hlen : i < g.blocks.length
    · rw [getBlock_set_self g i bb hlen]
      exact ⟨(ISeq.setBlockLabel_preserves _ _ _ hsb).1,
        (ISeq.setBlockLabel_preserves _ _ _ hsb).2⟩
    · rw [getBlock_congr _ g (by dsimp only; exact List.set_eq_of_length_le (by omega)) i]
      exact ⟨rfl, rfl⟩
  · rw [getBlock_set_ne g bid bb i hib]
    exact ⟨rfl, rfl⟩

/-- Preservation of the builder invariant by a step that only adds one
well-formed edge (and possibly relabels a block, preserving kinds and
lengths). -/
theorem builderInv_edgeStep (st : BuilderSt) (item : WorkItem)
    (rest : List WorkItem) (g : CFG) (e0 : CfgEdge)
    (hinv : builderInv st) (hwork : st.work = item :: rest)
    (hlen : g.blocks.length = st.cfg.blocks.length)
    (hkind : ∀ i, (g.getBlock i).kind = (st.cfg.getBlock i).kind)
    (hblen : ∀ i, (g.getBlock i).length = (st.cfg.getBlock i).length)
    (hedges : g.edges = st.cfg.edges ++ [e0])
    (ht : e0.tgt ≠ 0) (hs : e0.src ≠ 1) :
    builderInv { st with cfg := g, work := rest } := by
  obtain ⟨h1, h2, h3, h4, h5, h6, h7, h8, h9⟩ := hinv
  refine ⟨?_, ?_, ?_, ?_, ?_, ?_, ?_, ?_, ?_⟩
  · show 2 ≤ g.blocks.length
    rw [hlen]
    exact h1
  · intro i hi
    show (g.getBlock i).kind = .ENTRY ↔ i = 0
    rw [hkind i]
    exact h2 i (by rw [← hlen]; exact hi)
  · intro i hi
    show (g.getBlock i).kind = .EXIT ↔ i = 1
    rw [hkind i]
    exact h3 i (by rw [← hlen]; exact hi)
  · intro e he
    show e.tgt ≠ 0 ∧ e.src ≠ 1
    rw [hedges] at he
    rcases List.mem_append.mp he with hold | hnew
    · exact h4 e hold
    · have : e = e0 := by simpa using hnew
      rw [this]
      exact ⟨ht, hs⟩
  · intro i hi hk
    show 0 < (g.getBlock i).length
    rw [hblen i]
    rw [hkind i] at hk
    exact h5 i (by rw [← hlen]; exact hi) hk
  · intro i h2i hi
    show cfgReach g 0 i
    exact cfgReach_of_append st.cfg g e0 hedges 0 i (h6 i h2i (by rw [← hlen]; exact hi))
  · intro p hp
    exact h7 p hp
  · intro it hit
    have hmem : it ∈ st.work := by
      rw [hwork]
      exact List.mem_cons_of_mem _ hit
    obtain ⟨ha, hb⟩ := h8 it hmem
    exact ⟨ha, cfgReach_of_append st.cfg g e0 hedges 0 it.pred hb⟩
  · intro p hp
    exact h9 p hp

/-- Preservation of the builder invariant by a step that scans, adopts and
connects a new interior block. -/
theorem builderInv_scan (props : InsProps) (seq : ISeq) (st : BuilderSt)
    (item : WorkItem) (rest : List WorkItem) (bid : Nat) (g2 : CFG)
    (newWork : List WorkItem) (newLast : Option Nat)
    (hinv : builderInv st) (hwork : st.work = item :: rest)
    (hlt : item.insIndex < seq.length)
    (hbid : bid = st.cfg.blocks.length)
    (hblocks : g2.blocks = st.cfg.blocks ++
      [{ scanBasicBlock props seq item.insIndex item.label with blockId := bid }])
    (hedges : g2.edges = st.cfg.edges ++ [⟨item.pred, bid, item.edgeKind⟩])
    (hnew : ∀ it ∈ newWork, it ∈ rest ∨ it.pred = bid)
    (hlast : newLast = st.lastB ∨ newLast = some bid) :
    builderInv
      { cfg := g2
        bmap := (item.insIndex, bid) :: st.bmap
        work := newWork
        lastB := newLast } := by
  obtain ⟨h1, h2, h3, h4, h5, h6, h7, h8, h9⟩ := hinv
  have hg2get : ∀ i, g2.getBlock i =
      if i = st.cfg.blocks.length then
        { scanBasicBlock props seq item.insIndex item.label with blockId := bid }
      else st.cfg.getBlock i := by
    intro i
    rw [getBlock_congr g2 ({ st.cfg with blocks := st.cfg.blocks ++
      [{ scanBasicBlock props seq item.insIndex item.label with blockId := bid }] } : CFG)
      (by rw [hblocks])]
    exact getBlock_append st.cfg _ i
  have hg2len : g2.blocks.length = st.cfg.blocks.length + 1 := by
    rw [hblocks]
    simp
  have hpredOK : item.pred ≠ 1 ∧ cfgReach st.cfg 0 item.pred :=
    h8 item (by rw [hwork]; exact List.mem_cons_self _ _)
  have hreach_bid : cfgReach g2 0 bid := by
    refine Relation.ReflTransGen.tail
      (cfgReach_of_append st.cfg g2 _ hedges 0 item.pred hpredOK.2) ?_
    exact ⟨⟨item.pred, bid, item.edgeKind⟩,
      by rw [hedges]; exact List.mem_append_right _ (List.mem_singleton_self _),
      rfl, rfl⟩
  have hkindNew : ({ scanBasicBlock props seq item.insIndex item.label with
      blockId := bid } : ISeq).kind = .INTERIOR := by
    rw [show ({ scanBasicBlock props seq item.insIndex item.label with
      blockId := bid } : ISeq).kind =
      (scanBasicBlock props seq item.insIndex item.label).kind from rfl]
    exact scanBasicBlock_kind props seq item.insIndex item.label
  refine ⟨?_, ?_, ?_, ?_, ?_, ?_, ?_, ?_, ?_⟩
  · show 2 ≤ g2.blocks.length
    omega
  · intro i hi
    show (g2.getBlock i).kind = .ENTRY ↔ i = 0
    rw [hg2get i]
    by_cases hib : i = st.cfg.blocks.length
    · rw [if_pos hib, hkindNew]
      constructor
      · intro hcontra
        exact absurd hcontra (by simp)
      · intro hi0
        omega
    · rw [if_neg hib]
      rw [hg2len] at hi
      exact h2 i (by omega)
  · intro i hi
    show (g2.getBlock i).kind = .EXIT ↔ i = 1
    rw [hg2get i]
    by_cases hib : i = st.cfg.blocks.length
    · rw [if_pos hib, hkindNew]
      constructor
      · intro hcontra
        exact absurd hcontra (by simp)
      · intro hi1
        omega
    · rw [if_neg hib]
      rw [hg2len] at hi
      exact h3 i (by omega)
  · intro e he
    show e.tgt ≠ 0 ∧ e.src ≠ 1
    rw [hedges] at he
    rcases List.mem_append.mp he with hold | hnew'
    · exact h4 e hold
    · have : e = ⟨item.pred, bid, item.edgeKind⟩ := by simpa using hnew'
      rw [this]
      exact ⟨by show bid ≠ 0; omega, hpredOK.1⟩
  · intro i hi hk
    show 0 < (g2.getBlock i).length
    rw [hg2get i] at hk ⊢
    by_cases hib : i = st.cfg.blocks.length
    · rw [if_pos hib]
      rw [show ({ scanBasicBlock props seq item.insIndex item.label with
        blockId := bid } : ISeq).length =
        (scanBasicBlock props seq item.insIndex item.label).length from rfl]
      exact scanBasicBlock_pos props seq item.insIndex item.label hlt
    · rw [if_neg hib] at hk ⊢
      rw [hg2len] at hi
      exact h5 i (by omega) hk
  · intro i h2i hi
    show cfgReach g2 0 i
    rw [hg2len] at hi
    by_cases hib : i = st.cfg.blocks.length
    · rw [hib, ← hbid]
      exact hreach_bid
    · exact cfgReach_of_append st.cfg g2 _ hedges 0 i (h6 i h2i (by omega))
  · intro p hp
    rcases List.mem_cons.mp hp with hph | hpt
    · rw [hph]
      show bid ≠ 0
      omega
    · exact h7 p hpt
  · intro it hit
    rcases hnew it hit with hr | hb
    · obtain ⟨ha, hrb⟩ := h8 it (by rw [hwork]; exact List.mem_cons_of_mem _ hr)
      exact ⟨ha, cfgReach_of_append st.cfg g2 _ hedges 0 it.pred hrb⟩
    · rw [hb]
      exact ⟨by omega, hreach_bid⟩
  · intro p hp
    show p ≠ 1
    rcases hlast with hl | hl
    · rw [hl] at hp
      exact h9 p hp
    · rw [hl] at hp
      simp only [Option.some.injEq] at hp
      omega

/-- One builder worklist step preserves the builder invariant. -/
theorem builderStep_inv (props : InsProps) (seq : ISeq) (st : BuilderSt)
    (item : WorkItem) (rest : List WorkItem) (st' : BuilderSt)
    (hinv : builderInv st)
    (hwork : st.work = item :: rest)
    (h : builderStep props seq st item rest = .ok st') :
    builderInv st' := by
  have hinv' := hinv
  obtain ⟨h1, h2, h3, h4, h5, h6, h7, h8, h9⟩ := hinv'
  have hpredOK : item.pred ≠ 1 ∧ cfgReach st.cfg 0 item.pred :=
    h8 item (by rw [hwork]; exact List.mem_cons_self _ _)
  unfold builderStep at h
  by_cases hgt : item.insIndex > seq.length
  · rw [if_pos hgt] at h
    exact absurd h (by simp)
  rw [if_neg hgt] at h
  by_cases heq : item.insIndex = seq.length
  · rw [if_pos heq] at h
    cases hce : st.cfg.createEdge item.pred 1 item.edgeKind with
    | error e =>
      simp only [hce] at h
      exact absurd h (by simp)
    | ok g =>
      simp only [hce, Except.ok.injEq] at h
      obtain ⟨-, hedges, hblocks⟩ := createEdge_ok_spec _ _ _ _ _ hce
      rw [← h]
      exact builderInv_edgeStep st item rest g _ hinv hwork
        (by rw [hblocks]) (fun i => by rw [getBlock_congr g st.cfg hblocks i])
        (fun i => by rw [getBlock_congr g st.cfg hblocks i]) hedges
        one_ne_zero hpredOK.1
  rw [if_neg heq] at h
  have hlt : item.insIndex < seq.length := by omega
  cases hlk : st.bmap.lookup item.insIndex with
  | some bid =>
    have hbid0 : bid ≠ 0 := h7 (item.insIndex, bid) (pairLookup_mem _ _ _ hlk)
    simp only [hlk] at h
    by_cases hrel : item.edgeKind = EdgeKind.BRANCH ∧
        ¬ (st.cfg.getBlock bid).hasBlockLabel = true
    · rw [if_pos hrel] at h
      cases hsb : (st.cfg.getBlock bid).setBlockLabel item.label with
      | none =>
        simp only [hsb] at h
        exact absurd h (by simp)
      | some bb =>
        simp only [hsb] at h
        by_cases hmis : item.edgeKind = EdgeKind.BRANCH ∧
            (({ st.cfg with blocks := st.cfg.blocks.set bid bb } : CFG).getBlock
              bid).getBlockLabel ≠ item.label
        · rw [if_pos hmis] at h
          exact absurd h (by simp)
        rw [if_neg hmis] at h
        cases hce : ({ st.cfg with blocks := st.cfg.blocks.set bid bb } : CFG).createEdge
            item.pred bid item.edgeKind with
        | error e =>
          simp only [hce] at h
          exact absurd h (by simp)
        | ok g =>
          simp only [hce, Except.ok.injEq] at h
          obtain ⟨-, hedges, hblocks⟩ := createEdge_ok_spec _ _ _ _ _ hce
          rw [← h]
          exact builderInv_edgeStep st item rest g _ hinv hwork
            (by rw [hblocks]; dsimp only; exact List.length_set _ _ _)
            (fun i => by
              rw [getBlock_congr g _ hblocks i]
              exact (getBlock_setLabel_preserves st.cfg bid item.label bb hsb i).1)
            (fun i => by
              rw [getBlock_congr g _ hblocks i]
              exact (getBlock_setLabel_preserves st.cfg bid item.label bb hsb i).2)
            hedges hbid0 hpredOK.1
    · rw [if_neg hrel] at h
      dsimp only at h
      by_cases hmis : item.edgeKind = EdgeKind.BRANCH ∧
          (st.cfg.getBlock bid).getBlockLabel ≠ item.label
      · rw [if_pos hmis] at h
        exact absurd h (by simp)
      rw [if_neg hmis] at h
      cases hce : st.cfg.createEdge item.pred bid item.edgeKind with
      | error e =>
        simp only [hce] at h
        exact absurd h (by simp)
      | ok g =>
        simp only [hce, Except.ok.injEq] at h
        obtain ⟨-, hedges, hblocks⟩ := createEdge_ok_spec _ _ _ _ _ hce
        rw [← h]
        exact builderInv_edgeStep st item rest g _ hinv hwork
          (by rw [hblocks]) (fun i => by rw [getBlock_congr g st.cfg hblocks i])
          (fun i => by rw [getBlock_congr g st.cfg hblocks i]) hedges
          hbid0 hpredOK.1
  | none =>
    simp only [hlk] at h
    have hscanK : (scanBasicBlock props seq item.insIndex item.label).kind =
        .INTERIOR := scanBasicBlock_kind props seq item.insIndex item.label
    rw [adoptBasicBlock_interior st.cfg _ hscanK] at h
    dsimp only at h
    by_cases hmis : item.edgeKind = EdgeKind.BRANCH ∧
        (({ st.cfg with blocks := st.cfg.blocks ++
          [{ scanBasicBlock props seq item.insIndex item.label with
            blockId := st.cfg.blocks.length }] } : CFG).getBlock
          st.cfg.blocks.length).getBlockLabel ≠ item.label
    · rw [if_pos hmis] at h
      exact absurd h (by simp)
    rw [if_neg hmis] at h
    cases hce : ({ st.cfg with blocks := st.cfg.blocks ++
        [{ scanBasicBlock props seq item.insIndex item.label with
          blockId := st.cfg.blocks.length }] } : CFG).createEdge
        item.pred st.cfg.blocks.length item.edgeKind with
    | error e =>
      simp only [hce] at h
      exact absurd h (by simp)
    | ok g2 =>
      simp only [hce] at h
      obtain ⟨-, hedges, hblocks⟩ := createEdge_ok_spec _ _ _ _ _ hce
      split at h
      · exact absurd h (by simp)
      next branchItems hbw =>
        have hpredB : ∀ it ∈ branchItems, it.pred = st.cfg.blocks.length := by
          split at hbw
          · split at hbw
            · exact absurd hbw (by simp)
            · split at hbw
              · exact absurd hbw (by simp)
              · split at hbw
                · exact absurd hbw (by simp)
                · simp only [Except.ok.injEq] at hbw
                  rw [← hbw]
                  intro it hit
                  simp only [List.mem_singleton] at hit
                  rw [hit]
          · simp only [Except.ok.injEq] at hbw
            rw [← hbw]
            intro it hit
            exact absurd hit (by simp)
        by_cases hftb : props.fallsThrough
            (scanBasicBlock props seq item.insIndex item.label).getLastInstruction = true
        · rw [if_pos hftb] at h
          by_cases htg : item.insIndex +
              (scanBasicBlock props seq item.insIndex item.label).length > seq.length
          · rw [if_pos htg] at h
            exact absurd h (by simp)
          rw [if_neg htg] at h
          by_cases hte : item.insIndex +
              (scanBasicBlock props seq item.insIndex item.label).length = seq.length
          · rw [if_pos hte] at h
            simp only [Except.ok.injEq] at h
            rw [← h]
            refine builderInv_scan props seq st item rest st.cfg.blocks.length g2
              _ _ hinv hwork hlt rfl (by rw [hblocks]) hedges ?_ (Or.inr rfl)
            intro it hit
            rcases List.mem_append.mp hit with hr | hb
            · exact Or.inl hr
            · exact Or.inr (hpredB it hb)
          · rw [if_neg hte] at h
            simp only [Except.ok.injEq] at h
            rw [← h]
            refine builderInv_scan props seq st item rest st.cfg.blocks.length g2
              _ _ hinv hwork hlt rfl (by rw [hblocks]) hedges ?_ (Or.inl rfl)
            intro it hit
            rcases List.mem_append.mp hit with hrb | hft
            · rcases List.mem_append.mp hrb with hr | hb
              · exact Or.inl hr
              · exact Or.inr (hpredB it hb)
            · simp only [List.mem_singleton] at hft
              rw [hft]
              exact Or.inr rfl
        · rw [if_neg hftb] at h
          simp only [Except.ok.injEq] at h
          rw [← h]
          refine builderInv_scan props seq st item rest st.cfg.blocks.length g2
            _ _ hinv hwork hlt rfl (by rw [hblocks]) hedges ?_ (Or.inl rfl)
          intro it hit
          rcases List.mem_append.mp hit with hr | hb
          · exact Or.inl hr
          · exact Or.inr (hpredB it hb)

/-- The worklist loop preserves the builder invariant and transfers it to
the final CFG (after the final fall-through edge to the exit block). -/
theorem buildLoop_inv (props : InsProps) (seq : ISeq) :
    ∀ (fuel : Nat) (st : BuilderSt) (g : CFG), builderInv st →
      buildLoop props seq fuel st = .ok g →
      2 ≤ g.blocks.length ∧
      (∀ i, i < g.blocks.length → ((g.getBlock i).kind = .ENTRY ↔ i = 0)) ∧
      (∀ i, i < g.blocks.length → ((g.getBlock i).kind = .EXIT ↔ i = 1)) ∧
      (∀ e ∈ g.edges, e.tgt ≠ 0 ∧ e.src ≠ 1) ∧
      (∀ i, i < g.blocks.length → (g.getBlock i).kind = .INTERIOR →
        0 < (g.getBlock i).length) ∧
      (∀ i, 2 ≤ i → i < g.blocks.length → cfgReach g 0 i)
  | 0, st, g, hinv, h =>
    absurd h (by simp [buildLoop, throw, throwThe, MonadExceptOf.throw])
  | fuel + 1, st, g, hinv, h => by
    unfold buildLoop at h
    cases hw : st.work with
    | nil =>
      simp only [hw] at h
      cases hl : st.lastB with
      | none =>
        simp only [hl] at h
        exact absurd h (by simp [throw, throwThe, MonadExceptOf.throw])
      | some p =>
        simp only [hl] at h
        obtain ⟨h1, h2, h3, h4, h5, h6, h7, h8, h9⟩ := hinv
        obtain ⟨-, hedges, hblocks⟩ := createEdge_ok_spec _ _ _ _ _ h
        have hp1 : p ≠ 1 := h9 p hl
        refine ⟨?_, ?_, ?_, ?_, ?_, ?_⟩
        · rw [hblocks]
          exact h1
        · intro i hi
          rw [getBlock_congr g st.cfg hblocks i]
          exact h2 i (by rw [← hblocks]; exact hi)
        · intro i hi
          rw [getBlock_congr g st.cfg hblocks i]
          exact h3 i (by rw [← hblocks]; exact hi)
        · intro e he
          rw [hedges] at he
          rcases List.mem_append.mp he with hold | hnew
          · exact h4 e hold
          · have : e = ⟨p, 1, .FALLTHROUGH⟩ := by simpa using hnew
            rw [this]
            exact ⟨one_ne_zero, hp1⟩
        · intro i hi hk
          rw [getBlock_congr g st.cfg hblocks i] at hk ⊢
          exact h5 i (by rw [← hblocks]; exact hi) hk
        · intro i h2i hi
          exact cfgReach_of_append st.cfg g _ hedges 0 i
            (h6 i h2i (by rw [← hblocks]; exact hi))
    | cons item rest =>
      simp only [hw] at h
      cases hbs : builderStep props seq st item rest with
      | error e =>
        simp only [hbs] at h
        exact absurd h (by simp)
      | ok st2 =>
        simp only [hbs] at h
        exact buildLoop_inv props seq fuel st2 g
          (builderStep_inv props seq st item rest st2 hinv hw hbs) h

/-- **C6.** The CFG produced by a successful `ControlFlowGraphBuilder::build`
has exactly one `ENTRY` block (block 0) and exactly one `EXIT` block
(block 1); no edge targets the entry block and no edge leaves the exit
block; every `INTERIOR` block contains at least one instruction; and every
block other than the entry and exit blocks is reachable from the entry
block by following edges. -/
theorem claim_C6 (props : InsProps) (seq : ISeq) (g : CFG)
    (h : build props seq = .ok g) :
    2 ≤ g.blocks.length ∧
    (∀ i, i < g.blocks.length → ((g.getBlock i).kind = .ENTRY ↔ i = 0)) ∧
    (∀ i, i < g.blocks.length → ((g.getBlock i).kind = .EXIT ↔ i = 1)) ∧
    (∀ e ∈ g.edges, e.tgt ≠ 0 ∧ e.src ≠ 1) ∧
    (∀ i, i < g.blocks.length → (g.getBlock i).kind = .INTERIOR →
      0 < (g.getBlock i).length) ∧
    (∀ i, 2 ≤ i → i < g.blocks.length → cfgReach g 0 i) :=
  buildLoop_inv props seq (2 * seq.length + 4) (builderInit seq) g
    (builderInit_inv seq) h

/-- Witness for C6: the concrete built CFG `witnessCfg`. -/
theorem claim_C6_witness :
    build highLevelProps witnessSeq = .ok witnessCfg ∧
    (2 ≤ witnessCfg.blocks.length ∧
    (∀ i, i < witnessCfg.blocks.length →
      ((witnessCfg.getBlock i).kind = .ENTRY ↔ i = 0)) ∧
    (∀ i, i < witnessCfg.blocks.length →
      ((witnessCfg.getBlock i).kind = .EXIT ↔ i = 1)) ∧
    (∀ e ∈ witnessCfg.edges, e.tgt ≠ 0 ∧ e.src ≠ 1) ∧
    (∀ i, i < witnessCfg.blocks.length →
      (witnessCfg.getBlock i).kind = .INTERIOR →
      0 < (witnessCfg.getBlock i).length) ∧
    (∀ i, 2 ≤ i → i < witnessCfg.blocks.length → cfgReach witnessCfg 0 i)) := by
  have hb : build highLevelProps witnessSeq = .ok witnessCfg := by rfl
  exact ⟨hb, claim_C6 highLevelProps witnessSeq witnessCfg hb⟩

theorem ISeq.instrs_length (s : ISeq) : s.instrs.length = s.length := by
  unfold ISeq.instrs ISeq.length
  simp

theorem ISeq.instrs_getElem (s : ISeq) (i : Nat) (h : i < s.instrs.length) :
    s.instrs[i] = s.getInstruction i := by
  unfold ISeq.instrs ISeq.getInstruction
  rw [List.getElem_map]
  rw [List.getD, List.get?_eq_getElem?, List.getElem?_eq_getElem (by
    rw [ISeq.instrs_length] at h; exact h)]
  rfl

theorem sliceInstrs_cons (seq : ISeq) (a b : Nat) (ha : a < seq.length)
    (hab : a < b) :
    sliceInstrs seq a b = seq.getInstruction a :: sliceInstrs seq (a + 1) b := by
  unfold sliceInstrs
  rw [List.drop_eq_getElem_cons (by rw [ISeq.instrs_length]; exact ha)]
  rw [show b - a = (b - (a + 1)) + 1 by omega]
  rw [List.take_succ_cons]
  rw [ISeq.instrs_getElem]

theorem sliceInstrs_nil (seq : ISeq) (a : Nat) : sliceInstrs seq a a = [] := by
  unfold sliceInstrs
  simp

theorem sliceInstrs_length (seq : ISeq) (a b : Nat) (hab : a ≤ b)
    (hb : b ≤ seq.length) : (sliceInstrs seq a b).length = b - a := by
  unfold sliceInstrs
  rw [List.length_take, List.length_drop, ISeq.instrs_length]
  omega

theorem sliceInstrs_glue (seq : ISeq) (a b c : Nat) (hab : a ≤ b) (hbc : b ≤ c) :
    sliceInstrs seq a b ++ sliceInstrs seq b c = sliceInstrs seq a c := by
  unfold sliceInstrs
  rw [show c - a = (b - a) + (c - b) by omega, List.take_add]
  congr 1
  rw [List.drop_drop]
  congr 2
  omega

theorem sliceInstrs_full (seq : ISeq) : sliceInstrs seq 0 seq.length = seq.instrs := by
  unfold sliceInstrs
  rw [List.drop_zero, List.take_of_length_le (by rw [ISeq.instrs_length]; omega)]

/-- Full structural characterization of the scanning loop with sufficient
fuel: starting in range, it consumes exactly the instructions up to the
first stopping index `e`, attaching the pending label to the first appended
slot. -/
theorem scanGo_struct (props : InsProps) (seq : ISeq) :
    ∀ (fuel : Nat) (bb : ISeq) (index : Nat), index < seq.length →
      seq.length ≤ index + (fuel + 1) →
      ∃ e, index < e ∧ e ≤ seq.length ∧ scanStop props seq e ∧
        (∀ m, index < m → m < e → ¬ scanStop props seq m) ∧
        scanGo props seq (fuel + 1) bb index =
          { bb with
            slots := bb.slots ++ ⟨bb.nextLabel, seq.getInstruction index⟩ ::
              (sliceInstrs seq (index + 1) e).map (fun ins => ⟨"", ins⟩)
            nextLabel := "" }
  | fuel, bb, index, h, hfuel => by
    rw [scanGo_succ props seq fuel bb index h]
    have hstopPack : ∀ hst : scanStop props seq (index + 1),
        ∃ e, index < e ∧ e ≤ seq.length ∧ scanStop props seq e ∧
        (∀ m, index < m → m < e → ¬ scanStop props seq m) ∧
        bb.append (seq.getInstruction index) =
          { bb with
            slots := bb.slots ++ ⟨bb.nextLabel, seq.getInstruction index⟩ ::
              (sliceInstrs seq (index + 1) e).map (fun ins => ⟨"", ins⟩)
            nextLabel := "" } := by
      intro hst
      refine ⟨index + 1, by omega, by omega, hst, by omega, ?_⟩
      rw [sliceInstrs_nil]
      rfl
    by_cases h1 : index + 1 ≥ seq.length
    · rw [if_pos h1]
      exact hstopPack (Or.inl h1)
    rw [if_neg h1]
    by_cases h2 : props.isFunctionCall (seq.getInstruction index) = true
    · rw [if_pos h2]
      refine hstopPack (Or.inr (Or.inl ?_))
      rw [show index + 1 - 1 = index from rfl]
      exact h2
    rw [if_neg h2]
    by_cases h3 : isBranchIns (seq.getInstruction index) = true
    · rw [if_pos h3]
      refine hstopPack (Or.inr (Or.inr (Or.inl ?_)))
      rw [show index + 1 - 1 = index from rfl]
      exact h3
    rw [if_neg h3]
    by_cases h4 : seq.hasLabelAt (index + 1) = true
    · rw [if_pos h4]
      exact hstopPack (Or.inr (Or.inr (Or.inr h4)))
    rw [if_neg h4]
    have hnostop : ¬ scanStop props seq (index + 1) := by
      unfold scanStop
      push_neg
      refine ⟨by omega, ?_, ?_, ?_⟩
      · rw [show index + 1 - 1 = index from rfl]
        simpa using h2
      · rw [show index + 1 - 1 = index from rfl]
        simpa using h3
      · simpa using h4
    obtain ⟨f, rfl⟩ : ∃ f, fuel = f + 1 := ⟨fuel - 1, by omega⟩
    obtain ⟨e, he1, he2, he3, he4, he5⟩ :=
      scanGo_struct props seq f (bb.append (seq.getInstruction index))
        (index + 1) (by omega) (by omega)
    refine ⟨e, by omega, he2, he3, ?_, ?_⟩
    · intro m hm1 hm2
      by_cases hm : m = index + 1
      · rw [hm]
        exact hnostop
      · exact he4 m (by omega) hm2
    · rw [he5, sliceInstrs_cons seq (index + 1) e (by omega) he1]
      simp [ISeq.append]

/-- Stopping indices reachable from the same start are unique. -/
theorem scanStop_unique (props : InsProps) (seq : ISeq) (s e e' : Nat)
    (h1 : s < e) (h2 : scanStop props seq e)
    (h3 : ∀ m, s < m → m < e → ¬ scanStop props seq m)
    (h1' : s < e') (h2' : scanStop props seq e')
    (h3' : ∀ m, s < m → m < e' → ¬ scanStop props seq m) : e = e' := by
  rcases lt_trichotomy e e' with h | h | h
  · exact absurd h2 (h3' e h1 h)
  · exact h
  · exact absurd h2' (h3 e' h1' h)

/-- Full structural characterization of `scan_basic_block` on an in-range
start index. -/
theorem scanBasicBlock_fields (props : InsProps) (seq : ISeq) (s : Nat)
    (l : String) (hs : s < seq.length) :
    ∃ e, s < e ∧ e ≤ seq.length ∧ scanStop props seq e ∧
      (∀ m, s < m → m < e → ¬ scanStop props seq m) ∧
      scanBasicBlock props seq s l =
        { slots := ⟨l, seq.getInstruction s⟩ ::
            (sliceInstrs seq (s + 1) e).map (fun ins => ⟨"", ins⟩)
          nextLabel := ""
          kind := .INTERIOR
          blockId := 0
          codeOrder := Int.ofNat s } := by
  unfold scanBasicBlock
  rw [show seq.length - s = (seq.length - s - 1) + 1 by omega]
  obtain ⟨e, he1, he2, he3, he4, he5⟩ :=
    scanGo_struct props seq (seq.length - s - 1)
      (ISeq.mkBlock .INTERIOR (Int.ofNat s) l) s hs (by omega)
  refine ⟨e, he1, he2, he3, he4, ?_⟩
  rw [he5]
  rfl

/-- A scanned block's shape depends on the label argument only through the
first slot's label, so `set_block_label` replaces one scan by another. -/
theorem scanBasicBlock_relabel (props : InsProps) (seq : ISeq) (s : Nat)
    (l l2 : String) (i : Nat) (hs : s < seq.length) :
    ({ scanBasicBlock props seq s l with blockId := i } : ISeq).setBlockLabel l2 =
      some { scanBasicBlock props seq s l2 with blockId := i } := by
  obtain ⟨e, he1, he2, he3, he4, he5⟩ := scanBasicBlock_fields props seq s l hs
  obtain ⟨e', hf1, hf2, hf3, hf4, hf5⟩ := scanBasicBlock_fields props seq s l2 hs
  have hee : e = e' := scanStop_unique props seq s e e' he1 he3 he4 hf1 hf3 hf4
  subst hee
  rw [he5, hf5]
  rfl

/-- Derived facts about a block whose contents are a scan result. -/
theorem block_shape_spec (props : InsProps) (seq : ISeq) (s : Nat) (l : String)
    (i : Nat) (bb : ISeq) (hs : s < seq.length)
    (hbb : bb = { scanBasicBlock props seq s l with blockId := i }) :
    ∃ e, s < e ∧ e ≤ seq.length ∧ scanStop props seq e ∧
      (∀ m, s < m → m < e → ¬ scanStop props seq m) ∧
      bb.codeOrder = Int.ofNat s ∧ bb.instrs = sliceInstrs seq s e ∧
      bb.length = e - s := by
  obtain ⟨e, he1, he2, he3, he4, he5⟩ := scanBasicBlock_fields props seq s l hs
  refine ⟨e, he1, he2, he3, he4, ?_, ?_, ?_⟩
  · rw [hbb, show ({ scanBasicBlock props seq s l with blockId := i } : ISeq).codeOrder
      = (scanBasicBlock props seq s l).codeOrder from rfl, he5]
  · rw [hbb, show ({ scanBasicBlock props seq s l with blockId := i } : ISeq).instrs
      = (scanBasicBlock props seq s l).instrs from rfl, he5]
    unfold ISeq.instrs
    dsimp only
    rw [List.map_cons, List.map_map]
    rw [show ((fun sl => sl.ins) ∘ fun ins => (⟨"", ins⟩ : Slot)) = id from rfl,
      List.map_id]
    rw [← sliceInstrs_cons seq s e hs he1]
  · rw [hbb, show ({ scanBasicBlock props seq s l with blockId := i } : ISeq).length
      = (scanBasicBlock props seq s l).length from rfl, he5]
    unfold ISeq.length
    dsimp only
    rw [List.length_cons, List.length_map, sliceInstrs_length seq (s + 1) e he1 he2]
    omega

/-- An index recorded in the derived label map is in range and labeled. -/
theorem labelIndex_hasLabel (seq : ISeq) (l : String) (t : Nat)
    (h : seq.labelIndex l = some t) : t < seq.length ∧ seq.hasLabelAt t = true := by
  unfold ISeq.labelIndex at h
  split at h
  · exact absurd h (by simp)
  have key : ∀ (ps : List (Nat × Slot)) (acc : Option Nat),
      ps.foldl (fun acc p => if p.2.label = l then some p.1 else acc) acc = some t →
      (∃ p ∈ ps, p.1 = t ∧ p.2.label = l) ∨ acc = some t := by
    intro ps
    induction ps with
    | nil =>
      intro acc h
      exact Or.inr h
    | cons p ps ih =>
      intro acc h
      rw [List.foldl_cons] at h
      rcases ih _ h with ⟨q, hq, hq2⟩ | hacc
      · exact Or.inl ⟨q, List.mem_cons_of_mem _ hq, hq2⟩
      · by_cases hp : p.2.label = l
        · rw [if_pos hp] at hacc
          simp only [Option.some.injEq] at hacc
          exact Or.inl ⟨p, List.mem_cons_self _ _, hacc, hp⟩
        · rw [if_neg hp] at hacc
          exact Or.inr hacc
  rcases key seq.slots.enum none h with ⟨p, hp, hp1, hp2⟩ | habs
  · obtain ⟨j, hj, hjp⟩ := List.mem_iff_getElem.mp hp
    rw [List.getElem_enum] at hjp
    have hjlen : j < seq.slots.length := by rwa [List.enum_length] at hj
    have hpt : t = j := by rw [← hp1, ← hjp]
    have hlab : (seq.slots.getD t ⟨"", ⟨0, []⟩⟩).label = l := by
      rw [hpt, List.getD, List.get?_eq_getElem?, List.getElem?_eq_getElem hjlen]
      rw [show (some seq.slots[j]).getD (⟨"", ⟨0, []⟩⟩ : Slot) = seq.slots[j] from rfl]
      rw [← hjp] at hp2
      exact hp2
    constructor
    · rw [hpt]
      exact hjlen
    · unfold ISeq.hasLabelAt
      rw [hlab]
      rename_i hl
      simpa using hl
  · exact absurd habs (by simp)

theorem reconInv_init (props : InsProps) (seq : ISeq) :
    reconInv props seq (builderInit seq) := by
  refine ⟨by rw [show (builderInit seq).cfg.blocks.length = 2 from rfl],
    ?_, rfl, rfl, rfl, rfl, ?_, ?_⟩
  · intro i h2 hi
    rw [show (builderInit seq).cfg.blocks.length = 2 from rfl] at hi
    omega
  · intro item hitem
    have hw : (builderInit seq).work = [⟨0, 0, .FALLTHROUGH, ""⟩] := rfl
    rw [hw] at hitem
    simp at hitem
    rw [hitem]
    exact Or.inl rfl
  · intro p hp
    have hb : (builderInit seq).bmap = [(seq.length, 1)] := rfl
    rw [hb] at hp
    simp at hp
    rw [hp]
    exact Or.inl ⟨rfl, rfl⟩

/-- Two scan shapes of the same block force equal start indices. -/
theorem scan_shape_start_unique (props : InsProps) (seq : ISeq) (s s' : Nat)
    (l l' : String) (i : Nat) (hs : s < seq.length) (hs' : s' < seq.length)
    (h : ({ scanBasicBlock props seq s l with blockId := i } : ISeq) =
      { scanBasicBlock props seq s' l' with blockId := i }) : s = s' := by
  obtain ⟨e, -, -, -, -, hco, -, -⟩ :=
    block_shape_spec props seq s l i _ hs rfl
  obtain ⟨e', -, -, -, -, hco', -, -⟩ :=
    block_shape_spec props seq s' l' i _ hs' rfl
  rw [h] at hco
  rw [hco] at hco'
  exact Int.ofNat_inj.mp hco' 

/-- Transfer of the reconstruction invariant across a step that keeps the
blocks and block map and shrinks the worklist. -/
theorem reconInv_transfer (props : InsProps) (seq : ISeq) (st : BuilderSt)
    (g : CFG) (newWork : List WorkItem)
    (hinv : reconInv props seq st)
    (hblocks : g.blocks = st.cfg.blocks)
    (hw : ∀ it ∈ newWork, it ∈ st.work) :
    reconInv props seq { st with cfg := g, work := newWork } := by
  obtain ⟨r1, r2, r3, r4, r5, r6, r7, r8⟩ := hinv
  refine ⟨?_, ?_, ?_, ?_, ?_, ?_, ?_, ?_⟩
  · show 2 ≤ g.blocks.length
    rw [hblocks]
    exact r1
  · intro i h2 hi
    rw [getBlock_congr g st.cfg hblocks i]
    exact r2 i h2 (by rw [← hblocks]; exact hi)
  · rw [getBlock_congr g st.cfg hblocks 0]
    exact r3
  · rw [getBlock_congr g st.cfg hblocks 1]
    exact r4
  · rw [getBlock_congr g st.cfg hblocks 0]
    exact r5
  · rw [getBlock_congr g st.cfg hblocks 1]
    exact r6
  · intro it hit
    exact r7 it (hw it hit)
  · intro p hp
    rcases r8 p hp with h | ⟨ha, hb, hc, l, hd⟩
    · exact Or.inl h
    · exact Or.inr ⟨ha, hb, by rw [hblocks]; exact hc, l,
        by rw [getBlock_congr g st.cfg hblocks]; exact hd⟩

theorem getBlock_of_blocks_set_self (g g0 : CFG) (bid : Nat) (bb : ISeq)
    (h : g.blocks = g0.blocks.set bid bb) (hlt : bid < g0.blocks.length) :
    g.getBlock bid = bb := by
  unfold CFG.getBlock
  rw [h, List.getD, List.get?_eq_getElem?, List.getElem?_set_self hlt]
  rfl

theorem getBlock_of_blocks_set_ne (g g0 : CFG) (bid : Nat) (bb : ISeq) (i : Nat)
    (h : g.blocks = g0.blocks.set bid bb) (hne : i ≠ bid) :
    g.getBlock i = g0.getBlock i := by
  unfold CFG.getBlock
  rw [h, List.getD, List.getD, List.get?_eq_getElem?, List.get?_eq_getElem?,
    List.getElem?_set_ne (Ne.symm hne)]

/-- Transfer of the reconstruction invariant across a relabeling step. -/
theorem reconInv_relabel (props : InsProps) (seq : ISeq) (st : BuilderSt)
    (bid s0 : Nat) (l0 l2 : String) (g : CFG) (newWork : List WorkItem)
    (hinv : reconInv props seq st)
    (hs0 : s0 < seq.length)
    (hshape : st.cfg.getBlock bid =
      { scanBasicBlock props seq s0 l0 with blockId := bid })
    (hbid2 : 2 ≤ bid) (hbidlt : bid < st.cfg.blocks.length)
    (hblocks : g.blocks = st.cfg.blocks.set bid
      { scanBasicBlock props seq s0 l2 with blockId := bid })
    (hw : ∀ it ∈ newWork, it ∈ st.work) :
    reconInv props seq { st with cfg := g, work := newWork } := by
  obtain ⟨r1, r2, r3, r4, r5, r6, r7, r8⟩ := hinv
  have hget : ∀ i, g.getBlock i =
      if i = bid then { scanBasicBlock props seq s0 l2 with blockId := bid }
      else st.cfg.getBlock i := by
    intro i
    by_cases hib : i = bid
    · rw [if_pos hib, hib]
      exact getBlock_of_blocks_set_self g st.cfg bid _ hblocks hbidlt
    · rw [if_neg hib]
      exact getBlock_of_blocks_set_ne g st.cfg bid _ i hblocks hib
  have hlen : g.blocks.length = st.cfg.blocks.length := by
    rw [hblocks]
    exact List.length_set _ _ _
  refine ⟨?_, ?_, ?_, ?_, ?_, ?_, ?_, ?_⟩
  · show 2 ≤ g.blocks.length
    rw [hlen]
    exact r1
  · intro i h2 hi
    rw [hget i]
    by_cases hib : i = bid
    · rw [if_pos hib]
      obtain ⟨s1, l1, hs1, hsh1, hst1⟩ := r2 bid hbid2 hbidlt
      have hss : s1 = s0 :=
        scan_shape_start_unique props seq s1 s0 l1 l0 bid hs1 hs0
          (hsh1.symm.trans hshape)
      refine ⟨s0, l2, hs0, by rw [hib], ?_⟩
      rw [← hss]
      exact hst1
    · rw [if_neg hib]
      exact r2 i h2 (by rw [← hlen]; exact hi)
  · rw [hget 0, if_neg (by omega)]
    exact r3
  · rw [hget 1, if_neg (by omega)]
    exact r4
  · rw [hget 0, if_neg (by omega)]
    exact r5
  · rw [hget 1, if_neg (by omega)]
    exact r6
  · intro it hit
    exact r7 it (hw it hit)
  · intro p hp
    rcases r8 p hp with h | ⟨ha, hb, hc, l', hd⟩
    · exact Or.inl h
    · by_cases hpb : p.2 = bid
      · have hd' : st.cfg.getBlock bid = { scanBasicBlock props seq p.1 l' with
            blockId := bid } := by
          rw [← hpb]
          exact hd
        have hps : p.1 = s0 :=
          scan_shape_start_unique props seq p.1 s0 l' l0 bid ha hs0
            (hd'.symm.trans hshape)
        refine Or.inr ⟨ha, hb, by rw [hlen]; exact hc, l2, ?_⟩
        rw [hget p.2, if_pos hpb, hps, hpb]
      · exact Or.inr ⟨ha, hb, by rw [hlen]; exact hc, l',
          by rw [hget p.2, if_neg hpb]; exact hd⟩

theorem getBlock_of_blocks_append (g g0 : CFG) (bb : ISeq)
    (h : g.blocks = g0.blocks ++ [bb]) (i : Nat) :
    g.getBlock i = if i = g0.blocks.length then bb else g0.getBlock i := by
  unfold CFG.getBlock
  rw [h]
  by_cases hi : i = g0.blocks.length
  · rw [if_pos hi, hi]
    simp [List.getD_append_right]
  · rw [if_neg hi]
    by_cases hlt : i < g0.blocks.length
    · rw [List.getD_append _ _ _ _ hlt]
    · rw [List.getD_eq_default _ _ (by simp; omega),
        List.getD_eq_default _ _ (by omega)]

/-- Transfer of the reconstruction invariant across a scan-and-adopt step. -/
theorem reconInv_scanStep (props : InsProps) (seq : ISeq) (st : BuilderSt)
    (item : WorkItem) (rest : List WorkItem) (g2 : CFG)
    (newWork : List WorkItem) (newLast : Option Nat)
    (hinv : reconInv props seq st) (hwork : st.work = item :: rest)
    (hlt : item.insIndex < seq.length)
    (hstop0 : item.insIndex = 0 ∨ scanStop props seq item.insIndex)
    (hblocks : g2.blocks = st.cfg.blocks ++
      [{ scanBasicBlock props seq item.insIndex item.label with
        blockId := st.cfg.blocks.length }])
    (hw : ∀ it ∈ newWork, it ∈ rest ∨ it.insIndex = 0 ∨
      it.insIndex = seq.length ∨ scanStop props seq it.insIndex) :
    reconInv props seq
      { cfg := g2
        bmap := (item.insIndex, st.cfg.blocks.length) :: st.bmap
        work := newWork
        lastB := newLast } := by
  obtain ⟨r1, r2, r3, r4, r5, r6, r7, r8⟩ := hinv
  have hget := getBlock_of_blocks_append g2 st.cfg _ hblocks
  have hlen : g2.blocks.length = st.cfg.blocks.length + 1 := by
    rw [hblocks]
    simp
  refine ⟨?_, ?_, ?_, ?_, ?_, ?_, ?_, ?_⟩
  · show 2 ≤ g2.blocks.length
    omega
  · intro i h2 hi
    rw [hget i]
    by_cases hib : i = st.cfg.blocks.length
    · rw [if_pos hib]
      exact ⟨item.insIndex, item.label, hlt, by rw [hib], hstop0⟩
    · rw [if_neg hib]
      rw [hlen] at hi
      exact r2 i h2 (by omega)
  · rw [hget 0, if_neg (by omega)]
    exact r3
  · rw [hget 1, if_neg (by omega)]
    exact r4
  · rw [hget 0, if_neg (by omega)]
    exact r5
  · rw [hget 1, if_neg (by omega)]
    exact r6
  · intro it hit
    rcases hw it hit with hr | hs
    · exact r7 it (by rw [hwork]; exact List.mem_cons_of_mem _ hr)
    · exact hs
  · intro p hp
    rcases List.mem_cons.mp hp with hph | hpt
    · rw [hph]
      refine Or.inr ⟨hlt, by omega, by dsimp only; omega, item.label, ?_⟩
      rw [hget st.cfg.blocks.length, if_pos rfl]
    · rcases r8 p hpt with h | ⟨ha, hb, hc, l', hd⟩
      · exact Or.inl h
      · refine Or.inr ⟨ha, hb, by dsimp only; omega, l', ?_⟩
        rw [hget p.2, if_neg (by omega)]
        exact hd

/-- One builder worklist step preserves the reconstruction invariant. -/
theorem builderStep_recon (props : InsProps) (seq : ISeq) (st : BuilderSt)
    (item : WorkItem) (rest : List WorkItem) (st' : BuilderSt)
    (hinv : reconInv props seq st)
    (hwork : st.work = item :: rest)
    (h : builderStep props seq st item rest = .ok st') :
    reconInv props seq st' := by
  have hinv' := hinv
  obtain ⟨r1, r2, r3, r4, r5, r6, r7, r8⟩ := hinv'
  have hrest : ∀ it ∈ rest, it ∈ st.work := by
    intro it hit
    rw [hwork]
    exact List.mem_cons_of_mem _ hit
  unfold builderStep at h
  by_cases hgt : item.insIndex > seq.length
  · rw [if_pos hgt] at h
    exact absurd h (by simp)
  rw [if_neg hgt] at h
  by_cases heq : item.insIndex = seq.length
  · rw [if_pos heq] at h
    cases hce : st.cfg.createEdge item.pred 1 item.edgeKind with
    | error e =>
      simp only [hce] at h
      exact absurd h (by simp)
    | ok g =>
      simp only [hce, Except.ok.injEq] at h
      obtain ⟨-, -, hblocks⟩ := createEdge_ok_spec _ _ _ _ _ hce
      rw [← h]
      exact reconInv_transfer props seq st g rest hinv hblocks hrest
  rw [if_neg heq] at h
  have hlt : item.insIndex < seq.length := by omega
  cases hlk : st.bmap.lookup item.insIndex with
  | some bid =>
    have hbd := r8 (item.insIndex, bid) (pairLookup_mem _ _ _ hlk)
    rcases hbd with hbad | ⟨hs0, hbid2, hbidlt, l0, hshape⟩
    · exact absurd hbad.1 heq
    simp only [hlk] at h
    by_cases hrel : item.edgeKind = EdgeKind.BRANCH ∧
        ¬ (st.cfg.getBlock bid).hasBlockLabel = true
    · rw [if_pos hrel] at h
      rw [hshape, scanBasicBlock_relabel props seq item.insIndex l0 item.label bid hs0] at h
      simp only at h
      by_cases hmis : item.edgeKind = EdgeKind.BRANCH ∧
          (({ st.cfg with blocks := st.cfg.blocks.set bid ({ scanBasicBlock props seq item.insIndex item.label with blockId := bid } : ISeq) } : CFG).getBlock bid).getBlockLabel ≠ item.label
      · rw [if_pos hmis] at h
        exact absurd h (by simp)
      rw [if_neg hmis] at h
      cases hce : ({ st.cfg with blocks := st.cfg.blocks.set bid ({ scanBasicBlock props seq item.insIndex item.label with blockId := bid } : ISeq) } : CFG).createEdge item.pred bid item.edgeKind with
      | error e =>
        simp only [hce] at h
        exact absurd h (by simp)
      | ok g =>
        simp only [hce, Except.ok.injEq] at h
        obtain ⟨-, -, hblocks⟩ := createEdge_ok_spec _ _ _ _ _ hce
        rw [← h]
        exact reconInv_relabel props seq st bid item.insIndex l0 item.label g rest
          hinv hs0 hshape hbid2 hbidlt hblocks hrest
    · rw [if_neg hrel] at h
      dsimp only at h
      by_cases hmis : item.edgeKind = EdgeKind.BRANCH ∧
          (st.cfg.getBlock bid).getBlockLabel ≠ item.label
      · rw [if_pos hmis] at h
        exact absurd h (by simp)
      rw [if_neg hmis] at h
      cases hce : st.cfg.createEdge item.pred bid item.edgeKind with
      | error e =>
        simp only [hce] at h
        exact absurd h (by simp)
      | ok g =>
        simp only [hce, Except.ok.injEq] at h
        obtain ⟨-, -, hblocks⟩ := createEdge_ok_spec _ _ _ _ _ hce
        rw [← h]
        exact reconInv_transfer props seq st g rest hinv hblocks hrest
  | none =>
    simp only [hlk] at h
    have hscanK : (scanBasicBlock props seq item.insIndex item.label).kind =
        .INTERIOR := scanBasicBlock_kind props seq item.insIndex item.label
    rw [adoptBasicBlock_interior st.cfg _ hscanK] at h
    dsimp only at h
    have hstop0 : item.insIndex = 0 ∨ scanStop props seq item.insIndex := by
      rcases r7 item (by rw [hwork]; exact List.mem_cons_self _ _) with h0 | hl | hs
      · exact Or.inl h0
      · exact absurd hl heq
      · exact Or.inr hs
    by_cases hmis : item.edgeKind = EdgeKind.BRANCH ∧
        (({ st.cfg with blocks := st.cfg.blocks ++
          [{ scanBasicBlock props seq item.insIndex item.label with
            blockId := st.cfg.blocks.length }] } : CFG).getBlock
          st.cfg.blocks.length).getBlockLabel ≠ item.label
    · rw [if_pos hmis] at h
      exact absurd h (by simp)
    rw [if_neg hmis] at h
    cases hce : ({ st.cfg with blocks := st.cfg.blocks ++
        [{ scanBasicBlock props seq item.insIndex item.label with
          blockId := st.cfg.blocks.length }] } : CFG).createEdge
        item.pred st.cfg.blocks.length item.edgeKind with
    | error e =>
      simp only [hce] at h
      exact absurd h (by simp)
    | ok g2 =>
      simp only [hce] at h
      obtain ⟨-, -, hblocks⟩ := createEdge_ok_spec _ _ _ _ _ hce
      split at h
      · exact absurd h (by simp)
      next branchItems hbw =>
        have hbItems : ∀ it ∈ branchItems, it.insIndex = 0 ∨
            it.insIndex = seq.length ∨ scanStop props seq it.insIndex := by
          split at hbw
          · split at hbw
            · exact absurd hbw (by simp)
            · split at hbw
              · exact absurd hbw (by simp)
              · split at hbw
                · exact absurd hbw (by simp)
                next targetIndex hidx =>
                  simp only [Except.ok.injEq] at hbw
                  rw [← hbw]
                  intro it hit
                  simp only [List.mem_singleton] at hit
                  rw [hit]
                  dsimp only
                  obtain ⟨-, hlab⟩ :=
                    labelIndex_hasLabel seq _ targetIndex hidx
                  exact Or.inr (Or.inr (Or.inr (Or.inr (Or.inr hlab))))
          · simp only [Except.ok.injEq] at hbw
            rw [← hbw]
            intro it hit
            exact absurd hit (by simp)
        obtain ⟨e, he1, he2, he3, he4, -, -, helen⟩ :=
          block_shape_spec props seq item.insIndex item.label
            (scanBasicBlock props seq item.insIndex item.label).blockId
            (scanBasicBlock props seq item.insIndex item.label) hlt rfl
        by_cases hftb : props.fallsThrough
            (scanBasicBlock props seq item.insIndex item.label).getLastInstruction = true
        · rw [if_pos hftb] at h
          by_cases htg : item.insIndex +
              (scanBasicBlock props seq item.insIndex item.label).length > seq.length
          · rw [if_pos htg] at h
            exact absurd h (by simp)
          rw [if_neg htg] at h
          by_cases hte : item.insIndex +
              (scanBasicBlock props seq item.insIndex item.label).length = seq.length
          · rw [if_pos hte] at h
            simp only [Except.ok.injEq] at h
            rw [← h]
            refine reconInv_scanStep props seq st item rest g2 _ _ hinv hwork hlt
              hstop0 hblocks ?_
            intro it hit
            rcases List.mem_append.mp hit with hr | hb
            · exact Or.inl hr
            · exact Or.inr (hbItems it hb)
          · rw [if_neg hte] at h
            simp only [Except.ok.injEq] at h
            rw [← h]
            refine reconInv_scanStep props seq st item rest g2 _ _ hinv hwork hlt
              hstop0 hblocks ?_
            intro it hit
            rcases List.mem_append.mp hit with hrb | hft
            · rcases List.mem_append.mp hrb with hr | hb
              · exact Or.inl hr
              · exact Or.inr (hbItems it hb)
            · simp only [List.mem_singleton] at hft
              rw [hft]
              dsimp only
              refine Or.inr (Or.inr (Or.inr ?_))
              rw [helen, show item.insIndex + (e - item.insIndex) = e by omega]
              exact he3
        · rw [if_neg hftb] at h
          simp only [Except.ok.injEq] at h
          rw [← h]
          refine reconInv_scanStep props seq st item rest g2 _ _ hinv hwork hlt
            hstop0 hblocks ?_
          intro it hit
          rcases List.mem_append.mp hit with hr | hb
          · exact Or.inl hr
          · exact Or.inr (hbItems it hb)

/-- The worklist loop transfers the reconstruction invariant to the final
CFG. -/
theorem buildLoop_recon (props : InsProps) (seq : ISeq) :
    ∀ (fuel : Nat) (st : BuilderSt) (g : CFG), reconInv props seq st →
      buildLoop props seq fuel st = .ok g →
      2 ≤ g.blocks.length ∧
      (∀ i, 2 ≤ i → i < g.blocks.length → ∃ s l, s < seq.length ∧
        g.getBlock i = { scanBasicBlock props seq s l with blockId := i } ∧
        (s = 0 ∨ scanStop props seq s)) ∧
      (g.getBlock 0).length = 0 ∧ (g.getBlock 1).length = 0 ∧
      (g.getBlock 0).hasBlockLabel = false ∧ (g.getBlock 1).hasBlockLabel = false
  | 0, st, g, hinv, h =>
    absurd h (by simp [buildLoop, throw, throwThe, MonadExceptOf.throw])
  | fuel + 1, st, g, hinv, h => by
    unfold buildLoop at h
    cases hw : st.work with
    | nil =>
      simp only [hw] at h
      cases hl : st.lastB with
      | none =>
        simp only [hl] at h
        exact absurd h (by simp [throw, throwThe, MonadExceptOf.throw])
      | some p =>
        simp only [hl] at h
        obtain ⟨r1, r2, r3, r4, r5, r6, r7, r8⟩ := hinv
        obtain ⟨-, -, hblocks⟩ := createEdge_ok_spec _ _ _ _ _ h
        refine ⟨by rw [hblocks]; exact r1, ?_, ?_, ?_, ?_, ?_⟩
        · intro i h2 hi
          rw [getBlock_congr g st.cfg hblocks i]
          exact r2 i h2 (by rw [← hblocks]; exact hi)
        · rw [getBlock_congr g st.cfg hblocks 0]
          exact r3
        · rw [getBlock_congr g st.cfg hblocks 1]
          exact r4
        · rw [getBlock_congr g st.cfg hblocks 0]
          exact r5
        · rw [getBlock_congr g st.cfg hblocks 1]
          exact r6
    | cons item rest =>
      simp only [hw] at h
      cases hbs : builderStep props seq st item rest with
      | error e =>
        simp only [hbs] at h
        exact absurd h (by simp)
      | ok st2 =>
        simp only [hbs] at h
        exact buildLoop_recon props seq fuel st2 g
          (builderStep_recon props seq st item rest st2 hinv hw hbs) h

theorem ISeq.append_instrs (s : ISeq) (i : Instr) :
    (s.append i).instrs = s.instrs ++ [i] := by
  unfold ISeq.append ISeq.instrs
  simp

theorem foldl_append_instrs :
    ∀ (l : List Instr) (acc : ISeq),
      (l.foldl ISeq.append acc).instrs = acc.instrs ++ l
  | [], acc => by simp
  | i :: l, acc => by
    rw [List.foldl_cons, foldl_append_instrs l (acc.append i), ISeq.append_instrs]
    simp

theorem appendBasicBlock_instrs (acc bb out : ISeq)
    (h : CFG.appendBasicBlock acc bb = some out) :
    out.instrs = acc.instrs ++ bb.instrs := by
  unfold CFG.appendBasicBlock at h
  by_cases hbl : bb.hasBlockLabel = true
  · rw [if_pos hbl] at h
    cases hd : acc.defineLabel bb.getBlockLabel with
    | none =>
      rw [hd] at h
      exact absurd h (by simp)
    | some acc1 =>
      rw [hd] at h
      simp only [Option.bind_eq_bind, Option.some_bind, pure, Option.some.injEq] at h
      rw [← h, foldl_append_instrs]
      have hacc1 : acc1.instrs = acc.instrs := by
        unfold ISeq.defineLabel at hd
        split at hd
        · simp only [Option.some.injEq] at hd
          rw [← hd]
          rfl
        · exact absurd hd (by simp)
      rw [hacc1]
  · rw [if_neg hbl] at h
    simp only [pure, Option.bind_eq_bind, Option.some_bind, Option.some.injEq] at h
    rw [← h, foldl_append_instrs]

theorem rebuild_instrs (g : CFG) :
    ∀ (order : List Nat) (acc : ISeq) (out : ISeq),
      (order.foldlM (fun a id => CFG.appendBasicBlock a (g.getBlock id)) acc :
        Option ISeq) = some out →
      out.instrs = acc.instrs ++
        (order.map (fun id => (g.getBlock id).instrs)).flatten
  | [], acc, out, h => by
    simp only [List.foldlM_nil, pure, Option.some.injEq] at h
    rw [← h]
    simp
  | id :: order, acc, out, h => by
    rw [List.foldlM_cons] at h
    cases ha : CFG.appendBasicBlock acc (g.getBlock id) with
    | none =>
      rw [ha] at h
      exact absurd h (by simp)
    | some acc1 =>
      rw [ha] at h
      simp only [Option.bind_eq_bind, Option.some_bind] at h
      rw [rebuild_instrs g order acc1 out h, appendBasicBlock_instrs acc _ acc1 ha]
      simp

theorem flatten_filter_of_nil {α β : Type} (f : α → List β) (p : α → Bool) :
    ∀ l : List α, (∀ x ∈ l, p x = false → f x = []) →
      (l.map f).flatten = ((l.filter p).map f).flatten
  | [], _ => rfl
  | x :: l, h => by
    rw [List.map_cons, List.flatten_cons, List.filter_cons]
    by_cases hp : p x = true
    · rw [if_pos hp, List.map_cons, List.flatten_cons,
        flatten_filter_of_nil f p l (fun y hy hf => h y (List.mem_cons_of_mem _ hy) hf)]
    · rw [if_neg hp, h x (List.mem_cons_self _ _) (by simpa using hp),
        flatten_filter_of_nil f p l (fun y hy hf => h y (List.mem_cons_of_mem _ hy) hf)]
      simp

/-- Concatenating the instruction slices of disjoint scanned blocks whose
starts tile an interval reproduces the interval. -/
theorem tile_concat (props : InsProps) (seq : ISeq) (g : CFG) :
    ∀ (L : List Nat) (c : Nat),
      (∀ id ∈ L,
        (g.getBlock id).instrs = sliceInstrs seq (blockStart g id) (blockEnd g id) ∧
        blockStart g id < blockEnd g id ∧ blockEnd g id ≤ seq.length ∧
        (∀ m, blockStart g id < m → m < blockEnd g id → ¬ scanStop props seq m) ∧
        (blockStart g id = 0 ∨ scanStop props seq (blockStart g id))) →
      (∀ id ∈ L, c ≤ blockStart g id) →
      L.Pairwise (fun a b => blockStart g a ≤ blockStart g b) →
      L.Pairwise (fun a b => blockStart g a ≠ blockStart g b) →
      (∀ ix, c ≤ ix → ix < seq.length →
        ∃ id ∈ L, blockStart g id ≤ ix ∧ ix < blockEnd g id) →
      c ≤ seq.length →
      (L.map (fun id => (g.getBlock id).instrs)).flatten = sliceInstrs seq c seq.length
  | [], c, _, _, _, _, hcov, hc => by
    have hcl : c = seq.length := by
      by_contra hne
      obtain ⟨id, hid, -⟩ := hcov c le_rfl (by omega)
      exact absurd hid (by simp)
    rw [hcl, sliceInstrs_nil]
    rfl
  | id :: L, c, hdata, hge, hsort, hdist, hcov, hc => by
    obtain ⟨hinstr, hlt, hle, hmin, -⟩ := hdata id (List.mem_cons_self _ _)
    have hsc : blockStart g id = c := by
      rcases Nat.lt_or_ge c (blockStart g id) with hgt | hge'
      · exfalso
        obtain ⟨id', hid', hs', -⟩ := hcov c le_rfl (by omega)
        rcases List.mem_cons.mp hid' with rfl | hmem
        · omega
        · have h1 := (List.pairwise_cons.mp hsort).1 id' hmem
          omega
      · have h2 := hge id (List.mem_cons_self _ _)
        omega
    have hrestStart : ∀ id' ∈ L, blockEnd g id ≤ blockStart g id' := by
      intro id' hmem
      have hsort1 := (List.pairwise_cons.mp hsort).1 id' hmem
      have hdist1 := (List.pairwise_cons.mp hdist).1 id' hmem
      by_contra hcon
      push_neg at hcon
      have hlt2 : blockStart g id < blockStart g id' := by omega
      obtain ⟨-, -, -, -, hstop'⟩ := hdata id' (List.mem_cons_of_mem _ hmem)
      rcases hstop' with h0 | hss
      · omega
      · exact hmin (blockStart g id') hlt2 hcon hss
    have htail := tile_concat props seq g L (blockEnd g id)
      (fun id' h' => hdata id' (List.mem_cons_of_mem _ h'))
      hrestStart
      (List.pairwise_cons.mp hsort).2
      (List.pairwise_cons.mp hdist).2
      (by
        intro ix hix1 hix2
        obtain ⟨id', hid', hs', he'⟩ := hcov ix (by omega) hix2
        rcases List.mem_cons.mp hid' with rfl | hmem
        · omega
        · exact ⟨id', hmem, hs', he'⟩)
      hle
    rw [List.map_cons, List.flatten_cons, hinstr, htail, hsc]
    exact sliceInstrs_glue seq c (blockEnd g id) seq.length (by omega) hle

/-- Counterexample for the original C1: every branch instruction of
`cexC1Seq` has a resolvable label as its last operand, the build and the
reconstruction both succeed, yet the output has fewer instructions than the
input (the unreachable `nop` is dropped), so the round trip does not
preserve the instructions. -/
theorem claim_C1_counterexample :
    (∀ j, j < cexC1Seq.length → isBranchIns (cexC1Seq.getInstruction j) = true →
      (cexC1Seq.getIndexOfLabeledInstruction
        ((cexC1Seq.getInstruction j).getOperand
          ((cexC1Seq.getInstruction j).getNumOperands - 1)).getLabel).isSome = true) ∧
    build highLevelProps cexC1Seq = .ok cexC1Cfg ∧
    CFG.createInstructionSequence cexC1Cfg = some cexC1Out ∧
    cexC1Out.instrs ≠ cexC1Seq.instrs ∧
    cexC1Out.instrs.length ≠ cexC1Seq.instrs.length :=
  ⟨by decide, by rfl, by rfl, by decide, by decide⟩

theorem ISeq.slots_getD_ins (s : ISeq) (k : Nat) :
    (s.slots.getD k ⟨"", ⟨0, []⟩⟩).ins = s.instrs.getD k ⟨0, []⟩ := by
  unfold ISeq.instrs
  rw [List.getD, List.getD, List.get?_map]
  cases s.slots.get? k <;> rfl

theorem ISeq.getLastInstruction_eq (s : ISeq) :
    s.getLastInstruction = s.instrs.getD (s.length - 1) ⟨0, []⟩ := by
  unfold ISeq.getLastInstruction ISeq.getInstruction
  exact ISeq.slots_getD_ins s (s.length - 1)

theorem sliceInstrs_getD (seq : ISeq) (a b k : Nat) (d : Instr)
    (hk : k < b - a) (hb : b ≤ seq.length) :
    (sliceInstrs seq a b).getD k d = seq.getInstruction (a + k) := by
  unfold sliceInstrs
  rw [List.getD, List.get?_take hk, List.get?_drop]
  have hlt : a + k < seq.instrs.length := by
    rw [ISeq.instrs_length]
    omega
  rw [List.get?_eq_getElem?, List.getElem?_eq_getElem hlt]
  rw [show (some seq.instrs[a + k]).getD d = seq.instrs[a + k] from rfl]
  exact ISeq.instrs_getElem seq (a + k) hlt

/-- Extended structural characterization of a block whose contents are a
scan result: code order, length, slots, block label, and last
instruction. -/
theorem block_shape_full (props : InsProps) (seq : ISeq) (s : Nat) (l : String)
    (i : Nat) (bb : ISeq) (hs : s < seq.length)
    (hbb : bb = { scanBasicBlock props seq s l with blockId := i }) :
    ∃ e, s < e ∧ e ≤ seq.length ∧ scanStop props seq e ∧
      (∀ m, s < m → m < e → ¬ scanStop props seq m) ∧
      bb.codeOrder = Int.ofNat s ∧
      bb.instrs = sliceInstrs seq s e ∧
      bb.length = e - s ∧
      bb.slots = ⟨l, seq.getInstruction s⟩ ::
        (sliceInstrs seq (s + 1) e).map (fun ins => (⟨"", ins⟩ : Slot)) ∧
      bb.getBlockLabel = l ∧
      bb.getLastInstruction = seq.getInstruction (e - 1) := by
  obtain ⟨e, he1, he2, he3, he4, hco, hinstr, hlen⟩ :=
    block_shape_spec props seq s l i bb hs hbb
  obtain ⟨e', hf1, hf2, hf3, hf4, hf5⟩ := scanBasicBlock_fields props seq s l hs
  have hee : e' = e := scanStop_unique props seq s e' e hf1 hf3 hf4 he1 he3 he4
  subst hee
  have hslots : bb.slots = ⟨l, seq.getInstruction s⟩ ::
      (sliceInstrs seq (s + 1) e').map (fun ins => (⟨"", ins⟩ : Slot)) := by
    rw [hbb, show ({ scanBasicBlock props seq s l with blockId := i } : ISeq).slots
      = (scanBasicBlock props seq s l).slots from rfl, hf5]
  refine ⟨e', he1, he2, he3, he4, hco, hinstr, hlen, hslots, ?_, ?_⟩
  · unfold ISeq.getBlockLabel
    rw [hslots]
  · rw [ISeq.getLastInstruction_eq, hinstr, hlen,
      sliceInstrs_getD seq s e' (e' - s - 1) ⟨0, []⟩ (by omega) he2]
    congr 1
    omega

/-- An index recorded in the derived label map carries that label. -/
theorem labelIndex_slot (seq : ISeq) (l : String) (t : Nat)
    (h : seq.labelIndex l = some t) :
    (seq.slots.getD t ⟨"", ⟨0, []⟩⟩).label = l := by
  unfold ISeq.labelIndex at h
  split at h
  · exact absurd h (by simp)
  have key : ∀ (ps : List (Nat × Slot)) (acc : Option Nat),
      ps.foldl (fun acc p => if p.2.label = l then some p.1 else acc) acc = some t →
      (∃ p ∈ ps, p.1 = t ∧ p.2.label = l) ∨ acc = some t := by
    intro ps
    induction ps with
    | nil =>
      intro acc h
      exact Or.inr h
    | cons p ps ih =>
      intro acc h
      rw [List.foldl_cons] at h
      rcases ih _ h with ⟨q, hq, hq2⟩ | hacc
      · exact Or.inl ⟨q, List.mem_cons_of_mem _ hq, hq2⟩
      · by_cases hp : p.2.label = l
        · rw [if_pos hp] at hacc
          simp only [Option.some.injEq] at hacc
          exact Or.inl ⟨p, List.mem_cons_self _ _, hacc, hp⟩
        · rw [if_neg hp] at hacc
          exact Or.inr hacc
  rcases key seq.slots.enum none h with ⟨p, hp, hp1, hp2⟩ | habs
  · obtain ⟨j, hj, hjp⟩ := List.mem_iff_getElem.mp hp
    rw [List.getElem_enum] at hjp
    have hjlen : j < seq.slots.length := by rwa [List.enum_length] at hj
    have hpt : t = j := by rw [← hp1, ← hjp]
    rw [hpt, List.getD, List.get?_eq_getElem?, List.getElem?_eq_getElem hjlen]
    rw [show (some seq.slots[j]).getD (⟨"", ⟨0, []⟩⟩ : Slot) = seq.slots[j] from rfl]
    rw [← hjp] at hp2
    exact hp2
  · exact absurd habs (by simp)

/-- The label-provenance invariant of the builder loop: branch work items
carry a branch instruction's label operand resolving to their target index,
fall-through items are unlabeled, block labels resolve (via the label map)
to the block's own start index and stem from a branch instruction of the
input, and every interior block ending in an edge-creating branch has its
target's label either pending in the worklist or already installed on the
target block. -/
theorem lblInv_init (props : InsProps) (seq : ISeq) :
    lblInv props seq (builderInit seq) := by
  refine ⟨?_, ?_, ?_⟩
  · intro item hitem
    have hw : (builderInit seq).work = [⟨0, 0, .FALLTHROUGH, ""⟩] := rfl
    rw [hw] at hitem
    simp at hitem
    rw [hitem]
    exact ⟨fun _ => rfl, fun hbr => absurd hbr (by decide)⟩
  · intro i h2 hi
    rw [show (builderInit seq).cfg.blocks.length = 2 from rfl] at hi
    omega
  · intro i h2 hi
    rw [show (builderInit seq).cfg.blocks.length = 2 from rfl] at hi
    omega

/-- Transfer of the label-provenance invariant across a step that keeps the
blocks and the block map, when every dropped branch work item has its label
already installed on the mapped target block. -/
theorem lblInv_transfer (props : InsProps) (seq : ISeq) (st : BuilderSt)
    (g : CFG) (newWork : List WorkItem)
    (hinv : lblInv props seq st)
    (hblocks : g.blocks = st.cfg.blocks)
    (hw : ∀ it ∈ newWork, it ∈ st.work)
    (hwit : ∀ it ∈ st.work, it.edgeKind = .BRANCH → it.insIndex < seq.length →
      it ∈ newWork ∨ ∃ id, (it.insIndex, id) ∈ st.bmap ∧
        (g.getBlock id).getBlockLabel = it.label) :
    lblInv props seq { st with cfg := g, work := newWork } := by
  obtain ⟨w1, w2, w3⟩ := hinv
  refine ⟨?_, ?_, ?_⟩
  · intro it hit
    exact w1 it (hw it hit)
  · intro i h2 hi
    show (g.getBlock i).getBlockLabel ≠ "" → _
    rw [getBlock_congr g st.cfg hblocks i]
    exact w2 i h2 (by rw [← hblocks]; exact hi)
  · intro i h2 hi hbr
    rw [show ({ st with cfg := g, work := newWork } : BuilderSt).cfg = g from rfl,
      getBlock_congr g st.cfg hblocks i] at hbr ⊢
    obtain ⟨t, hti, hd⟩ := w3 i h2 (by rw [← hblocks]; exact hi) hbr
    refine ⟨t, hti, ?_⟩
    rcases hd with ⟨item, hitem, hbrk, hlbl, hidx⟩ | ⟨id, hbm, hlbl⟩
    · have htlt : t < seq.length := (labelIndex_hasLabel seq _ t hti).1
      rcases hwit item hitem hbrk (by rw [hidx]; exact htlt) with hin | ⟨id, hbm, hlbl2⟩
      · exact Or.inl ⟨item, hin, hbrk, hlbl, hidx⟩
      · refine Or.inr ⟨id, by rw [← hidx]; exact hbm, ?_⟩
        show (g.getBlock id).getBlockLabel = _
        rw [hlbl2, hlbl]
    · refine Or.inr ⟨id, hbm, ?_⟩
      show (g.getBlock id).getBlockLabel = _
      rw [getBlock_congr g st.cfg hblocks id]
      exact hlbl

theorem labelIndex_ne_empty (seq : ISeq) (l : String) (t : Nat)
    (h : seq.labelIndex l = some t) : l ≠ "" := by
  unfold ISeq.labelIndex at h
  split at h
  · exact absurd h (by simp)
  · rename_i hl
    exact hl

/-- Transfer of the label-provenance invariant across a relabeling step
(the processed branch item installs its label on the unlabeled target
block). -/
theorem lblInv_relabel (props : InsProps) (seq : ISeq) (st : BuilderSt)
    (item : WorkItem) (rest : List WorkItem) (bid : Nat) (l0 : String) (g : CFG)
    (hinv : lblInv props seq st)
    (hwork : st.work = item :: rest)
    (hbrk : item.edgeKind = .BRANCH)
    (hlt : item.insIndex < seq.length)
    (hbm : (item.insIndex, bid) ∈ st.bmap)
    (hbidlt : bid < st.cfg.blocks.length)
    (hshape : st.cfg.getBlock bid =
      { scanBasicBlock props seq item.insIndex l0 with blockId := bid })
    (hl0 : (st.cfg.getBlock bid).getBlockLabel = "")
    (hblocks : g.blocks = st.cfg.blocks.set bid
      ({ scanBasicBlock props seq item.insIndex item.label with blockId := bid } : ISeq)) :
    lblInv props seq { st with cfg := g, work := rest } := by
  obtain ⟨w1, w2, w3⟩ := hinv
  have hitem1 := (w1 item (by rw [hwork]; exact List.mem_cons_self _ _)).2 hbrk
  have hget : ∀ i, g.getBlock i =
      if i = bid then
        { scanBasicBlock props seq item.insIndex item.label with blockId := bid }
      else st.cfg.getBlock i := by
    intro i
    by_cases hib : i = bid
    · rw [if_pos hib, hib]
      exact getBlock_of_blocks_set_self g st.cfg bid _ hblocks hbidlt
    · rw [if_neg hib]
      exact getBlock_of_blocks_set_ne g st.cfg bid _ i hblocks hib
  obtain ⟨e, he1, he2, he3, he4, hcoN, -, -, -, hlblN, hlastN⟩ :=
    block_shape_full props seq item.insIndex item.label bid _ hlt rfl
  obtain ⟨e', hf1, hf2, hf3, hf4, -, -, -, -, -, hlastO⟩ :=
    block_shape_full props seq item.insIndex l0 bid (st.cfg.getBlock bid) hlt hshape
  have hee : e' = e :=
    scanStop_unique props seq item.insIndex e' e hf1 hf3 hf4 he1 he3 he4
  subst hee
  have hlast_eq :
      ({ scanBasicBlock props seq item.insIndex item.label with blockId := bid } :
        ISeq).getLastInstruction = (st.cfg.getBlock bid).getLastInstruction := by
    rw [hlastN, hlastO]
  have hlen : g.blocks.length = st.cfg.blocks.length := by
    rw [hblocks]
    exact List.length_set _ _ _
  have hbrEq : ∀ i, (endsInBranch props (g.getBlock i) =
      endsInBranch props (st.cfg.getBlock i)) ∧
      (g.getBlock i).getLastInstruction = (st.cfg.getBlock i).getLastInstruction := by
    intro i
    rw [hget i]
    by_cases hib : i = bid
    · rw [if_pos hib, hib]
      refine ⟨?_, hlast_eq⟩
      unfold endsInBranch
      rw [hlast_eq]
    · rw [if_neg hib]
      exact ⟨rfl, rfl⟩
  refine ⟨?_, ?_, ?_⟩
  · intro it hit
    exact w1 it (by rw [hwork]; exact List.mem_cons_of_mem _ hit)
  · intro i h2 hi
    show (g.getBlock i).getBlockLabel ≠ "" → _
    rw [hget i]
    by_cases hib : i = bid
    · rw [if_pos hib]
      intro hne
      rw [hlblN, hcoN]
      refine ⟨?_, hitem1.2⟩
      rw [show (Int.ofNat item.insIndex).toNat = item.insIndex from rfl]
      exact hitem1.1
    · rw [if_neg hib]
      exact w2 i h2 (by rw [← hlen]; exact hi)
  · intro i h2 hi hbr
    rw [show ({ st with cfg := g, work := rest } : BuilderSt).cfg = g from rfl] at hbr ⊢
    have hbr' : endsInBranch props (st.cfg.getBlock i) = true := by
      rw [← (hbrEq i).1]
      exact hbr
    obtain ⟨t, hti, hd⟩ := w3 i h2 (by rw [← hlen]; exact hi) hbr'
    rw [(hbrEq i).2]
    refine ⟨t, hti, ?_⟩
    rcases hd with ⟨item', hitem', hbrk', hlbl', hidx'⟩ | ⟨id, hbm', hlbl'⟩
    · rw [hwork] at hitem'
      rcases List.mem_cons.mp hitem' with heqi | hmem
      · refine Or.inr ⟨bid, ?_, ?_⟩
        · have ht' : t = item.insIndex := by rw [← hidx', heqi]
          rw [ht']
          exact hbm
        · show (g.getBlock bid).getBlockLabel = _
          rw [hget bid, if_pos rfl, hlblN, ← hlbl', heqi]
      · exact Or.inl ⟨item', hmem, hbrk', hlbl', hidx'⟩
    · have hne : id ≠ bid := by
        intro heq
        rw [heq, hl0] at hlbl'
        exact labelIndex_ne_empty seq _ t hti hlbl'.symm
      refine Or.inr ⟨id, hbm', ?_⟩
      show (g.getBlock id).getBlockLabel = _
      rw [hget id, if_neg hne]
      exact hlbl'

theorem endsInBranch_spec (props : InsProps) (bb : ISeq)
    (h : endsInBranch props bb = true) :
    props.isFunctionCall bb.getLastInstruction = false ∧
    isBranchIns bb.getLastInstruction = true := by
  unfold endsInBranch at h
  simp only [Bool.decide_and, Bool.and_eq_true, decide_eq_true_eq] at h
  exact ⟨by simpa using h.1, by simpa using h.2⟩

/-- Transfer of the label-provenance invariant across a scan-and-adopt
step. -/
theorem lblInv_scanStep (props : InsProps) (seq : ISeq) (st : BuilderSt)
    (item : WorkItem) (rest branchItems newWork : List WorkItem)
    (newLast : Option Nat) (g2 : CFG)
    (hinv : lblInv props seq st)
    (hrecon : reconInv props seq st)
    (hwork : st.work = item :: rest)
    (hlt : item.insIndex < seq.length)
    (hblocks : g2.blocks = st.cfg.blocks ++
      [{ scanBasicBlock props seq item.insIndex item.label with
        blockId := st.cfg.blocks.length }])
    (hbw1 : ∀ it ∈ branchItems, it.edgeKind = .BRANCH ∧
      endsInBranch props (scanBasicBlock props seq item.insIndex item.label) = true ∧
      it.label = branchTargetLabel
        (scanBasicBlock props seq item.insIndex item.label).getLastInstruction ∧
      seq.labelIndex it.label = some it.insIndex)
    (hbw2 : endsInBranch props
        (scanBasicBlock props seq item.insIndex item.label) = true →
      ∃ it, it ∈ branchItems)
    (hw : ∀ it ∈ newWork, it ∈ rest ∨ it ∈ branchItems ∨
      (it.edgeKind = .FALLTHROUGH ∧ it.label = ""))
    (hrsub : ∀ it ∈ rest, it ∈ newWork)
    (hbsub : ∀ it ∈ branchItems, it ∈ newWork) :
    lblInv props seq
      { cfg := g2
        bmap := (item.insIndex, st.cfg.blocks.length) :: st.bmap
        work := newWork
        lastB := newLast } := by
  obtain ⟨w1, w2, w3⟩ := hinv
  have hn2 : 2 ≤ st.cfg.blocks.length := hrecon.1
  have hget := getBlock_of_blocks_append g2 st.cfg _ hblocks
  have hlen2 : g2.blocks.length = st.cfg.blocks.length + 1 := by
    rw [hblocks]
    simp
  obtain ⟨e, he1, he2, he3, he4, hcoN, hinstrN, hlenN, hslotsN, hlblN, hlastN⟩ :=
    block_shape_full props seq item.insIndex item.label st.cfg.blocks.length _ hlt rfl
  have hlastS : (scanBasicBlock props seq item.insIndex item.label).getLastInstruction =
      seq.getInstruction (e - 1) := hlastN
  have hpop := w1 item (by rw [hwork]; exact List.mem_cons_self _ _)
  refine ⟨?_, ?_, ?_⟩
  · intro it hit
    rcases hw it hit with hr | hb | ⟨hftk, hftl⟩
    · exact w1 it (by rw [hwork]; exact List.mem_cons_of_mem _ hr)
    · obtain ⟨hk, hbr, hlbleq, hli⟩ := hbw1 it hb
      refine ⟨fun hft => absurd (hk.symm.trans hft) (by simp), fun _ => ⟨hli, ?_⟩⟩
      obtain ⟨hcall, hbrj⟩ := endsInBranch_spec props _ hbr
      rw [hlastS] at hcall hbrj
      refine ⟨e - 1, by omega, ⟨hcall, hbrj⟩, ?_⟩
      rw [← hlastS, ← hlbleq]
    · exact ⟨fun _ => hftl, fun hbr => absurd (hftk.symm.trans hbr) (by simp)⟩
  · intro i h2 hi
    show (g2.getBlock i).getBlockLabel ≠ "" → _
    rw [hget i]
    by_cases hib : i = st.cfg.blocks.length
    · rw [if_pos hib]
      intro hne
      rw [hlblN] at hne ⊢
      cases hk : item.edgeKind with
      | FALLTHROUGH => exact absurd (hpop.1 hk) hne
      | BRANCH =>
        obtain ⟨hli, hj⟩ := hpop.2 hk
        rw [hcoN]
        exact ⟨hli, hj⟩
    · rw [if_neg hib]
      rw [hlen2] at hi
      exact w2 i h2 (by omega)
  · intro i h2 hi hbr
    dsimp only at hbr ⊢
    rw [hget i] at hbr ⊢
    by_cases hib : i = st.cfg.blocks.length
    · rw [if_pos hib] at hbr ⊢
      have hbrS : endsInBranch props
          (scanBasicBlock props seq item.insIndex item.label) = true := hbr
      obtain ⟨it, hbit⟩ := hbw2 hbrS
      obtain ⟨hk, -, hlbleq, hli⟩ := hbw1 it hbit
      refine ⟨it.insIndex, ?_, Or.inl ⟨it, hbsub it hbit, hk, ?_, rfl⟩⟩
      · rw [show ({ scanBasicBlock props seq item.insIndex item.label with
          blockId := st.cfg.blocks.length } : ISeq).getLastInstruction =
          (scanBasicBlock props seq item.insIndex item.label).getLastInstruction
          from rfl, ← hlbleq]
        exact hli
      · rw [show ({ scanBasicBlock props seq item.insIndex item.label with
          blockId := st.cfg.blocks.length } : ISeq).getLastInstruction =
          (scanBasicBlock props seq item.insIndex item.label).getLastInstruction
          from rfl, ← hlbleq]
    · rw [if_neg hib] at hbr ⊢
      rw [hlen2] at hi
      obtain ⟨t, hti, hd⟩ := w3 i h2 (by omega) hbr
      refine ⟨t, hti, ?_⟩
      rcases hd with ⟨item', hitem', hbrk', hlbl', hidx'⟩ | ⟨id, hbm', hlbl'⟩
      · rw [hwork] at hitem'
        rcases List.mem_cons.mp hitem' with heqi | hmem
        · refine Or.inr ⟨st.cfg.blocks.length, ?_, ?_⟩
          · have ht' : t = item.insIndex := by rw [← hidx', heqi]
            rw [ht']
            exact List.mem_cons_self _ _
          · show (g2.getBlock st.cfg.blocks.length).getBlockLabel = _
            rw [hget st.cfg.blocks.length, if_pos rfl, hlblN, ← hlbl', heqi]
        · exact Or.inl ⟨item', hrsub item' hmem, hbrk', hlbl', hidx'⟩
      · have hidne : id ≠ st.cfg.blocks.length := by
          rcases hrecon.2.2.2.2.2.2.2 (t, id) hbm' with ⟨-, h1⟩ | ⟨-, -, hlt2, -⟩
          · omega
          · omega
        refine Or.inr ⟨id, List.mem_cons_of_mem _ hbm', ?_⟩
        show (g2.getBlock id).getBlockLabel = _
        rw [hget id, if_neg hidne]
        exact hlbl'

theorem getBlockLabel_empty_of_not_has (s : ISeq) (sl : Slot) (tl : List Slot)
    (hs : s.slots = sl :: tl) (h : ¬ s.hasBlockLabel = true) :
    s.getBlockLabel = "" := by
  unfold ISeq.hasBlockLabel at h
  unfold ISeq.getBlockLabel
  rw [hs] at h ⊢
  simpa using h

/-- A successful builder step preserves the label-provenance invariant. -/
theorem builderStep_lbl (props : InsProps) (seq : ISeq) (st : BuilderSt)
    (item : WorkItem) (rest : List WorkItem) (st' : BuilderSt)
    (hrecon : reconInv props seq st)
    (hinv : lblInv props seq st)
    (hwork : st.work = item :: rest)
    (h : builderStep props seq st item rest = .ok st') :
    lblInv props seq st' := by
  have hrecon' := hrecon
  obtain ⟨r1, r2, r3, r4, r5, r6, r7, r8⟩ := hrecon'
  unfold builderStep at h
  by_cases hgt : item.insIndex > seq.length
  · rw [if_pos hgt] at h
    exact absurd h (by simp)
  rw [if_neg hgt] at h
  by_cases heq : item.insIndex = seq.length
  · rw [if_pos heq] at h
    cases hce : st.cfg.createEdge item.pred 1 item.edgeKind with
    | error e =>
      simp only [hce] at h
      exact absurd h (by simp)
    | ok g =>
      simp only [hce, Except.ok.injEq] at h
      obtain ⟨-, -, hblocks⟩ := createEdge_ok_spec _ _ _ _ _ hce
      rw [← h]
      refine lblInv_transfer props seq st g rest hinv hblocks ?_ ?_
      · intro it hit
        rw [hwork]
        exact List.mem_cons_of_mem _ hit
      · intro it hit hbrk hltit
        rw [hwork] at hit
        rcases List.mem_cons.mp hit with heqi | hmem
        · rw [heqi] at hltit
          omega
        · exact Or.inl hmem
  rw [if_neg heq] at h
  have hlt : item.insIndex < seq.length := by omega
  cases hlk : st.bmap.lookup item.insIndex with
  | some bid =>
    have hbm : (item.insIndex, bid) ∈ st.bmap := pairLookup_mem _ _ _ hlk
    have hbd := r8 (item.insIndex, bid) hbm
    rcases hbd with hbad | ⟨hs0, hbid2, hbidlt, l0, hshape⟩
    · exact absurd hbad.1 heq
    simp only [hlk] at h
    by_cases hrel : item.edgeKind = EdgeKind.BRANCH ∧
        ¬ (st.cfg.getBlock bid).hasBlockLabel = true
    · rw [if_pos hrel] at h
      rw [hshape, scanBasicBlock_relabel props seq item.insIndex l0 item.label bid hs0] at h
      simp only at h
      by_cases hmis : item.edgeKind = EdgeKind.BRANCH ∧
          (({ st.cfg with blocks := st.cfg.blocks.set bid ({ scanBasicBlock props seq item.insIndex item.label with blockId := bid } : ISeq) } : CFG).getBlock bid).getBlockLabel ≠ item.label
      · rw [if_pos hmis] at h
        exact absurd h (by simp)
      rw [if_neg hmis] at h
      cases hce : ({ st.cfg with blocks := st.cfg.blocks.set bid ({ scanBasicBlock props seq item.insIndex item.label with blockId := bid } : ISeq) } : CFG).createEdge item.pred bid item.edgeKind with
      | error e =>
        simp only [hce] at h
        exact absurd h (by simp)
      | ok g =>
        simp only [hce, Except.ok.injEq] at h
        obtain ⟨-, -, hblocks⟩ := createEdge_ok_spec _ _ _ _ _ hce
        rw [← h]
        obtain ⟨e, -, -, -, -, -, -, -, hslots, -, -⟩ :=
          block_shape_full props seq item.insIndex l0 bid (st.cfg.getBlock bid) hlt hshape
        have hl0 : (st.cfg.getBlock bid).getBlockLabel = "" :=
          getBlockLabel_empty_of_not_has _ _ _ hslots hrel.2
        exact lblInv_relabel props seq st item rest bid l0 g hinv hwork hrel.1 hlt hbm
          hbidlt hshape hl0 hblocks
    · rw [if_neg hrel] at h
      dsimp only at h
      by_cases hmis : item.edgeKind = EdgeKind.BRANCH ∧
          (st.cfg.getBlock bid).getBlockLabel ≠ item.label
      · rw [if_pos hmis] at h
        exact absurd h (by simp)
      rw [if_neg hmis] at h
      cases hce : st.cfg.createEdge item.pred bid item.edgeKind with
      | error e =>
        simp only [hce] at h
        exact absurd h (by simp)
      | ok g =>
        simp only [hce, Except.ok.injEq] at h
        obtain ⟨-, -, hblocks⟩ := createEdge_ok_spec _ _ _ _ _ hce
        rw [← h]
        refine lblInv_transfer props seq st g rest hinv hblocks ?_ ?_
        · intro it hit
          rw [hwork]
          exact List.mem_cons_of_mem _ hit
        · intro it hit hbrk hltit
          rw [hwork] at hit
          rcases List.mem_cons.mp hit with heqi | hmem
          · subst heqi
            refine Or.inr ⟨bid, hbm, ?_⟩
            rw [getBlock_congr g st.cfg hblocks bid]
            by_contra hne
            exact hmis ⟨hbrk, hne⟩
          · exact Or.inl hmem
  | none =>
    simp only [hlk] at h
    have hscanK : (scanBasicBlock props seq item.insIndex item.label).kind =
        .INTERIOR := scanBasicBlock_kind props seq item.insIndex item.label
    rw [adoptBasicBlock_interior st.cfg _ hscanK] at h
    dsimp only at h
    by_cases hmis : item.edgeKind = EdgeKind.BRANCH ∧
        (({ st.cfg with blocks := st.cfg.blocks ++
          [{ scanBasicBlock props seq item.insIndex item.label with
            blockId := st.cfg.blocks.length }] } : CFG).getBlock
          st.cfg.blocks.length).getBlockLabel ≠ item.label
    · rw [if_pos hmis] at h
      exact absurd h (by simp)
    rw [if_neg hmis] at h
    cases hce : ({ st.cfg with blocks := st.cfg.blocks ++
        [{ scanBasicBlock props seq item.insIndex item.label with
          blockId := st.cfg.blocks.length }] } : CFG).createEdge
        item.pred st.cfg.blocks.length item.edgeKind with
    | error e =>
      simp only [hce] at h
      exact absurd h (by simp)
    | ok g2 =>
      simp only [hce] at h
      obtain ⟨-, -, hblocksE⟩ := createEdge_ok_spec _ _ _ _ _ hce
      have hblocks : g2.blocks = st.cfg.blocks ++
          [{ scanBasicBlock props seq item.insIndex item.label with
            blockId := st.cfg.blocks.length }] := hblocksE
      split at h
      · exact absurd h (by simp)
      next branchItems hbw =>
        have hbw12 : (∀ it ∈ branchItems, it.edgeKind = .BRANCH ∧
            endsInBranch props
              (scanBasicBlock props seq item.insIndex item.label) = true ∧
            it.label = branchTargetLabel
              (scanBasicBlock props seq item.insIndex item.label).getLastInstruction ∧
            seq.labelIndex it.label = some it.insIndex) ∧
            (endsInBranch props
                (scanBasicBlock props seq item.insIndex item.label) = true →
              ∃ it, it ∈ branchItems) := by
          split at hbw
          next hEB =>
            split at hbw
            · exact absurd hbw (by simp)
            · split at hbw
              · exact absurd hbw (by simp)
              · split at hbw
                · exact absurd hbw (by simp)
                next targetIndex hidx =>
                  simp only [Except.ok.injEq] at hbw
                  rw [← hbw]
                  constructor
                  · intro it hit
                    simp only [List.mem_singleton] at hit
                    rw [hit]
                    exact ⟨rfl, hEB, rfl, hidx⟩
                  · intro hc
                    exact ⟨_, List.mem_singleton.mpr rfl⟩
          next hEB =>
            simp only [Except.ok.injEq] at hbw
            rw [← hbw]
            constructor
            · intro it hit
              exact absurd hit (by simp)
            · intro hc
              exact absurd hc hEB
        obtain ⟨hbw1, hbw2⟩ := hbw12
        by_cases hftb : props.fallsThrough
            (scanBasicBlock props seq item.insIndex item.label).getLastInstruction = true
        · rw [if_pos hftb] at h
          by_cases htg : item.insIndex +
              (scanBasicBlock props seq item.insIndex item.label).length > seq.length
          · rw [if_pos htg] at h
            exact absurd h (by simp)
          rw [if_neg htg] at h
          by_cases hte : item.insIndex +
              (scanBasicBlock props seq item.insIndex item.label).length = seq.length
          · rw [if_pos hte] at h
            simp only [Except.ok.injEq] at h
            rw [← h]
            refine lblInv_scanStep props seq st item rest branchItems _ _ g2 hinv
              hrecon hwork hlt hblocks hbw1 hbw2 ?_ ?_ ?_
            · intro it hit
              rcases List.mem_append.mp hit with hr | hb
              · exact Or.inl hr
              · exact Or.inr (Or.inl hb)
            · intro it hit
              exact List.mem_append_left _ hit
            · intro it hit
              exact List.mem_append_right _ hit
          · rw [if_neg hte] at h
            simp only [Except.ok.injEq] at h
            rw [← h]
            refine lblInv_scanStep props seq st item rest branchItems _ _ g2 hinv
              hrecon hwork hlt hblocks hbw1 hbw2 ?_ ?_ ?_
            · intro it hit
              rcases List.mem_append.mp hit with hrb | hft
              · rcases List.mem_append.mp hrb with hr | hb
                · exact Or.inl hr
                · exact Or.inr (Or.inl hb)
              · simp only [List.mem_singleton] at hft
                rw [hft]
                exact Or.inr (Or.inr ⟨rfl, rfl⟩)
            · intro it hit
              exact List.mem_append_left _ (List.mem_append_left _ hit)
            · intro it hit
              exact List.mem_append_left _ (List.mem_append_right _ hit)
        · rw [if_neg hftb] at h
          simp only [Except.ok.injEq] at h
          rw [← h]
          refine lblInv_scanStep props seq st item rest branchItems _ _ g2 hinv
            hrecon hwork hlt hblocks hbw1 hbw2 ?_ ?_ ?_
          · intro it hit
            rcases List.mem_append.mp hit with hr | hb
            · exact Or.inl hr
            · exact Or.inr (Or.inl hb)
          · intro it hit
            exact List.mem_append_left _ hit
          · intro it hit
            exact List.mem_append_right _ hit

/-- The worklist loop transfers the label-provenance invariant to the final
CFG: every labeled interior block is the (unique) target of some real branch
and is indexed by the label map at its code order, and every interior block
ending in a branch has a target block labeled with the branch's label at the
label map's index. -/
theorem buildLoop_lbl (props : InsProps) (seq : ISeq) :
    ∀ (fuel : Nat) (st : BuilderSt) (g : CFG),
      reconInv props seq st → lblInv props seq st →
      buildLoop props seq fuel st = .ok g →
      (∀ i, 2 ≤ i → i < g.blocks.length → (g.getBlock i).getBlockLabel ≠ "" →
        seq.labelIndex ((g.getBlock i).getBlockLabel) =
          some ((g.getBlock i).codeOrder.toNat) ∧
        ∃ j, j < seq.length ∧ isRealBranchAt props seq j ∧
          branchTargetLabel (seq.getInstruction j) = (g.getBlock i).getBlockLabel) ∧
      (∀ i, 2 ≤ i → i < g.blocks.length → endsInBranch props (g.getBlock i) = true →
        ∃ t id, seq.labelIndex
            (branchTargetLabel (g.getBlock i).getLastInstruction) = some t ∧
          2 ≤ id ∧ id < g.blocks.length ∧
          (g.getBlock id).getBlockLabel =
            branchTargetLabel (g.getBlock i).getLastInstruction ∧
          (g.getBlock id).codeOrder = Int.ofNat t)
  | 0, st, g, _, _, h =>
    absurd h (by simp [buildLoop, throw, throwThe, MonadExceptOf.throw])
  | fuel + 1, st, g, hrecon, hinv, h => by
    unfold buildLoop at h
    cases hw : st.work with
    | nil =>
      simp only [hw] at h
      cases hl : st.lastB with
      | none =>
        simp only [hl] at h
        exact absurd h (by simp [throw, throwThe, MonadExceptOf.throw])
      | some p =>
        simp only [hl] at h
        obtain ⟨w1, w2, w3⟩ := hinv
        obtain ⟨-, -, hblocks⟩ := createEdge_ok_spec _ _ _ _ _ h
        constructor
        · intro i h2 hi
          rw [getBlock_congr g st.cfg hblocks i]
          exact w2 i h2 (by rw [← hblocks]; exact hi)
        · intro i h2 hi hbr
          rw [getBlock_congr g st.cfg hblocks i] at hbr ⊢
          obtain ⟨t, hti, hd⟩ := w3 i h2 (by rw [← hblocks]; exact hi) hbr
          rcases hd with ⟨it, hit, -, -, -⟩ | ⟨id, hbm, hlbl⟩
          · rw [hw] at hit
            exact absurd hit (by simp)
          · have htlt : t < seq.length := (labelIndex_hasLabel seq _ t hti).1
            obtain ⟨r1, r2, r3, r4, r5, r6, r7, r8⟩ := hrecon
            rcases r8 (t, id) hbm with ⟨hteq, -⟩ | ⟨-, hid2, hidlt, l, hshape⟩
            · omega
            obtain ⟨e, -, -, -, -, hco, -, -⟩ :=
              block_shape_spec props seq t l id (st.cfg.getBlock id) htlt hshape
            refine ⟨t, id, hti, hid2, by rw [hblocks]; exact hidlt, ?_, ?_⟩
            · rw [getBlock_congr g st.cfg hblocks id]
              exact hlbl
            · rw [getBlock_congr g st.cfg hblocks id]
              exact hco
    | cons item rest =>
      simp only [hw] at h
      cases hbs : builderStep props seq st item rest with
      | error e =>
        simp only [hbs] at h
        exact absurd h (by simp)
      | ok st2 =>
        simp only [hbs] at h
        exact buildLoop_lbl props seq fuel st2 g
          (builderStep_recon props seq st item rest st2 hrecon hw hbs)
          (builderStep_lbl props seq st item rest st2 hrecon hinv hw hbs) h

theorem endsInBranch_intro (props : InsProps) (bb : ISeq)
    (h1 : props.isFunctionCall bb.getLastInstruction = false)
    (h2 : isBranchIns bb.getLastInstruction = true) :
    endsInBranch props bb = true := by
  unfold endsInBranch
  simp [h1, h2]

theorem foldl_append_slots :
    ∀ (l : List Instr) (acc : ISeq), acc.nextLabel = "" →
      (l.foldl ISeq.append acc).slots =
        acc.slots ++ l.map (fun i => (⟨"", i⟩ : Slot)) ∧
      (l.foldl ISeq.append acc).nextLabel = ""
  | [], acc, h => ⟨by simp, h⟩
  | i :: l, acc, h => by
    rw [List.foldl_cons]
    obtain ⟨h1, h2⟩ := foldl_append_slots l (acc.append i) rfl
    refine ⟨?_, h2⟩
    rw [h1]
    show (acc.append i).slots ++ _ = _
    unfold ISeq.append
    dsimp only
    rw [h]
    simp

theorem foldl_append_slots_head (ins : Instr) (l : List Instr) (acc : ISeq) :
    ((ins :: l).foldl ISeq.append acc).slots =
      acc.slots ++ (⟨acc.nextLabel, ins⟩ : Slot) ::
        l.map (fun i => (⟨"", i⟩ : Slot)) ∧
    ((ins :: l).foldl ISeq.append acc).nextLabel = "" := by
  rw [List.foldl_cons]
  obtain ⟨h1, h2⟩ := foldl_append_slots l (acc.append ins) rfl
  refine ⟨?_, h2⟩
  rw [h1]
  show (acc.append ins).slots ++ _ = _
  unfold ISeq.append
  simp

theorem map_blank_slots (tl : List Slot) (htl : ∀ s ∈ tl, s.label = "") :
    (tl.map Slot.ins).map (fun i => (⟨"", i⟩ : Slot)) = tl := by
  rw [List.map_map]
  have : ∀ s ∈ tl, ((fun i => (⟨"", i⟩ : Slot)) ∘ Slot.ins) s = s := by
    intro s hs
    show (⟨"", s.ins⟩ : Slot) = s
    rw [← htl s hs]
  rw [List.map_congr_left this]
  exact List.map_id' tl

/-- `append_basic_block` at the slot level: with no pending label on the
accumulator, it appends exactly the block's labeled slots. -/
theorem appendBasicBlock_slots (acc bb out : ISeq)
    (hacc : acc.nextLabel = "")
    (hbb : (bb.slots = [] ∧ bb.hasBlockLabel = false) ∨
      ∃ sl tl, bb.slots = sl :: tl ∧ sl.label = bb.getBlockLabel ∧
        ∀ s ∈ tl, s.label = "")
    (h : CFG.appendBasicBlock acc bb = some out) :
    out.slots = acc.slots ++ bb.slots ∧ out.nextLabel = "" := by
  unfold CFG.appendBasicBlock at h
  by_cases hbl : bb.hasBlockLabel = true
  · rw [if_pos hbl] at h
    rcases hbb with ⟨-, hno⟩ | ⟨sl, tl, hcons, hlbl, htl⟩
    · rw [hno] at hbl
      exact absurd hbl (by simp)
    cases hd : acc.defineLabel bb.getBlockLabel with
    | none =>
      rw [hd] at h
      exact absurd h (by simp)
    | some acc1 =>
      rw [hd] at h
      simp only [Option.bind_eq_bind, Option.some_bind, pure, Option.some.injEq] at h
      have hacc1 : acc1.slots = acc.slots ∧ acc1.nextLabel = bb.getBlockLabel := by
        unfold ISeq.defineLabel at hd
        rw [if_pos hacc] at hd
        simp only [Option.some.injEq] at hd
        rw [← hd]
        exact ⟨rfl, rfl⟩
      have hinstr : bb.instrs = sl.ins :: tl.map Slot.ins := by
        unfold ISeq.instrs
        rw [hcons]
        rfl
      rw [hinstr] at h
      obtain ⟨h1, h2⟩ := foldl_append_slots_head sl.ins (tl.map Slot.ins) acc1
      rw [← h]
      refine ⟨?_, h2⟩
      rw [h1, hacc1.1, hacc1.2, hcons, map_blank_slots tl htl, ← hlbl]
  · rw [if_neg hbl] at h
    simp only [pure, Option.bind_eq_bind, Option.some_bind, Option.some.injEq] at h
    rcases hbb with ⟨hnil, -⟩ | ⟨sl, tl, hcons, hlbl, htl⟩
    · have hi0 : bb.instrs = [] := by
        unfold ISeq.instrs
        rw [hnil]
        rfl
      rw [hi0] at h
      simp only [List.foldl_nil] at h
      rw [← h, hnil]
      exact ⟨by simp, hacc⟩
    · have hl0 : sl.label = "" := by
        unfold ISeq.hasBlockLabel at hbl
        rw [hcons] at hbl
        simpa using hbl
      have hinstr : bb.instrs = sl.ins :: tl.map Slot.ins := by
        unfold ISeq.instrs
        rw [hcons]
        rfl
      rw [hinstr] at h
      obtain ⟨h1, h2⟩ := foldl_append_slots_head sl.ins (tl.map Slot.ins) acc
      rw [← h]
      refine ⟨?_, h2⟩
      rw [h1, hacc, hcons, map_blank_slots tl htl, ← hl0]

/-- `rebuild_instruction_sequence` at the slot level. -/
theorem rebuild_slots (g : CFG) :
    ∀ (order : List Nat) (acc out : ISeq),
      (∀ id ∈ order,
        ((g.getBlock id).slots = [] ∧ (g.getBlock id).hasBlockLabel = false) ∨
        ∃ sl tl, (g.getBlock id).slots = sl :: tl ∧
          sl.label = (g.getBlock id).getBlockLabel ∧ ∀ s ∈ tl, s.label = "") →
      acc.nextLabel = "" →
      (order.foldlM (fun a id => CFG.appendBasicBlock a (g.getBlock id)) acc :
        Option ISeq) = some out →
      out.slots = acc.slots ++
        (order.map (fun id => (g.getBlock id).slots)).flatten
  | [], acc, out, _, _, h => by
    simp only [List.foldlM_nil, pure, Option.some.injEq] at h
    rw [← h]
    simp
  | id :: order, acc, out, hblk, hacc, h => by
    rw [List.foldlM_cons] at h
    cases ha : CFG.appendBasicBlock acc (g.getBlock id) with
    | none =>
      rw [ha] at h
      exact absurd h (by simp)
    | some acc1 =>
      rw [ha] at h
      simp only [Option.bind_eq_bind, Option.some_bind] at h
      obtain ⟨hs1, hn1⟩ := appendBasicBlock_slots acc (g.getBlock id) acc1 hacc
        (hblk id (List.mem_cons_self _ _)) ha
      rw [rebuild_slots g order acc1 out
        (fun i hi => hblk i (List.mem_cons_of_mem _ hi)) hn1 h, hs1]
      simp

theorem blank_slots_getD_label (il : List Instr) (k : Nat) :
    ((il.map (fun i => (⟨"", i⟩ : Slot))).getD k ⟨"", ⟨0, []⟩⟩).label = "" := by
  rcases Nat.lt_or_ge k (il.map (fun i => (⟨"", i⟩ : Slot))).length with hlt | hge
  · rw [List.getD_eq_getElem _ _ hlt, List.getElem_map]
  · rw [List.getD_eq_default _ _ hge]

/-- Positional form of the tiling argument: the slot found at position
`blockStart id + k - c` of the concatenated blocks is slot `k` of block
`id`. -/
theorem tile_getD (props : InsProps) (seq : ISeq) (g : CFG) (d : Slot) :
    ∀ (L : List Nat) (c : Nat),
      (∀ id ∈ L,
        (g.getBlock id).instrs = sliceInstrs seq (blockStart g id) (blockEnd g id) ∧
        blockStart g id < blockEnd g id ∧ blockEnd g id ≤ seq.length ∧
        (∀ m, blockStart g id < m → m < blockEnd g id → ¬ scanStop props seq m) ∧
        (blockStart g id = 0 ∨ scanStop props seq (blockStart g id))) →
      (∀ id ∈ L, c ≤ blockStart g id) →
      L.Pairwise (fun a b => blockStart g a ≤ blockStart g b) →
      L.Pairwise (fun a b => blockStart g a ≠ blockStart g b) →
      (∀ ix, c ≤ ix → ix < seq.length →
        ∃ id ∈ L, blockStart g id ≤ ix ∧ ix < blockEnd g id) →
      c ≤ seq.length →
      ∀ id ∈ L, ∀ k, k < blockEnd g id - blockStart g id →
        ((L.map (fun i => (g.getBlock i).slots)).flatten).getD
          (blockStart g id + k - c) d = (g.getBlock id).slots.getD k d
  | [], c, _, _, _, _, _, _ => by
    intro id hid
    exact absurd hid (by simp)
  | id0 :: L, c, hdata, hge, hsort, hdist, hcov, hc => by
    obtain ⟨hinstr, hlt, hle, hmin, -⟩ := hdata id0 (List.mem_cons_self _ _)
    have hsc : blockStart g id0 = c := by
      rcases Nat.lt_or_ge c (blockStart g id0) with hgt | hge'
      · exfalso
        obtain ⟨id', hid', hs', -⟩ := hcov c le_rfl (by omega)
        rcases List.mem_cons.mp hid' with rfl | hmem
        · omega
        · have h1 := (List.pairwise_cons.mp hsort).1 id' hmem
          omega
      · have h2 := hge id0 (List.mem_cons_self _ _)
        omega
    have hrestStart : ∀ id' ∈ L, blockEnd g id0 ≤ blockStart g id' := by
      intro id' hmem
      have hsort1 := (List.pairwise_cons.mp hsort).1 id' hmem
      have hdist1 := (List.pairwise_cons.mp hdist).1 id' hmem
      by_contra hcon
      push_neg at hcon
      have hlt2 : blockStart g id0 < blockStart g id' := by omega
      obtain ⟨-, -, -, -, hstop'⟩ := hdata id' (List.mem_cons_of_mem _ hmem)
      rcases hstop' with h0 | hss
      · omega
      · exact hmin (blockStart g id') hlt2 hcon hss
    have hlen0 : (g.getBlock id0).slots.length =
        blockEnd g id0 - blockStart g id0 := by
      have hsl : (g.getBlock id0).slots.length = (g.getBlock id0).length := rfl
      unfold blockEnd
      omega
    have htail := tile_getD props seq g d L (blockEnd g id0)
      (fun id' h' => hdata id' (List.mem_cons_of_mem _ h'))
      hrestStart
      (List.pairwise_cons.mp hsort).2
      (List.pairwise_cons.mp hdist).2
      (by
        intro ix hix1 hix2
        obtain ⟨id', hid', hs', he'⟩ := hcov ix (by omega) hix2
        rcases List.mem_cons.mp hid' with rfl | hmem
        · omega
        · exact ⟨id', hmem, hs', he'⟩)
      hle
    intro id hid k hk
    rcases List.mem_cons.mp hid with rfl | hmem
    · rw [List.map_cons, List.flatten_cons]
      have hidx : blockStart g id + k - c = k := by omega
      rw [hidx]
      exact List.getD_append _ _ d k (by rw [hlen0]; exact hk)
    · rw [List.map_cons, List.flatten_cons]
      have hre := hrestStart id hmem
      have h1 : (g.getBlock id0).slots.length ≤ blockStart g id + k - c := by
        omega
      rw [List.getD_append_right _ _ d _ h1]
      have hidx2 : blockStart g id + k - c - (g.getBlock id0).slots.length =
          blockStart g id + k - blockEnd g id0 := by
        omega
      rw [hidx2]
      exact htail id hmem k hk

/-- **C1 (amended).** For a sequence that builds successfully and whose
instructions are all covered by some interior block of the built CFG (no
unreachable code), converting the CFG back with
`create_instruction_sequence` (no transform in between) reproduces exactly
the original instruction list, and the reconstructed sequence carries label
`l` on the instruction at position `t` (for nonempty `l` in range) exactly
when the original's label map sends `l` to `t` and `l` is the branch-target
label of some real branch of the original — i.e. the round trip preserves
the set of labeled branch-target instructions. -/
theorem claim_C1 (props : InsProps) (seq : ISeq) (g : CFG) (out : ISeq)
    (hbuild : build props seq = .ok g)
    (hcover : ∀ ix, ix < seq.length → ∃ i, i < g.blocks.length ∧ 2 ≤ i ∧
      blockStart g i ≤ ix ∧ ix < blockEnd g i)
    (hout : CFG.createInstructionSequence g = some out) :
    out.instrs = seq.instrs ∧
    ∀ t l, l ≠ "" →
      (((out.slots.getD t ⟨"", ⟨0, []⟩⟩).label = l ∧ t < seq.length) ↔
        (seq.labelIndex l = some t ∧ ∃ j, j < seq.length ∧
          isRealBranchAt props seq j ∧
          branchTargetLabel (seq.getInstruction j) = l)) := by
  obtain ⟨h2len, hblocks, hlen0, hlen1, hhas0, hhas1⟩ :=
    buildLoop_recon props seq (2 * seq.length + 4) (builderInit seq) g
      (reconInv_init props seq) hbuild
  obtain ⟨hL1, hL2⟩ :=
    buildLoop_lbl props seq (2 * seq.length + 4) (builderInit seq) g
      (reconInv_init props seq) (lblInv_init props seq) hbuild
  unfold CFG.createInstructionSequence at hout
  cases hord : g.getBlocksInCodeOrder with
  | none =>
    rw [hord] at hout
    exact absurd hout (by simp)
  | some order =>
    rw [hord] at hout
    simp only [Option.bind_eq_bind, Option.some_bind] at hout
    by_cases hcan : CFG.canUseOriginalBlockOrder g order = true
    case neg =>
      rw [if_neg hcan] at hout
      exact absurd hout (by simp)
    case pos =>
    rw [if_pos hcan] at hout
    unfold CFG.getBlocksInCodeOrder at hord
    split at hord
    case isFalse => exact absurd hord (by simp)
    case isTrue hdistCO =>
    simp only [Option.some.injEq] at hord
    haveI : IsTotal Nat (CFG.codeOrderLE g) := ⟨fun a b => Int.le_total _ _⟩
    haveI : IsTrans Nat (CFG.codeOrderLE g) := ⟨fun a b c h1 h2 => le_trans h1 h2⟩
    have hperm : order.Perm (List.range g.blocks.length) := by
      rw [← hord]
      exact List.perm_insertionSort _ _
    have hsorted : order.Pairwise (CFG.codeOrderLE g) := by
      rw [← hord]
      exact List.sorted_insertionSort _ _
    have hdistO : order.Pairwise (fun a b =>
        (g.getBlock a).codeOrder ≠ (g.getBlock b).codeOrder) :=
      (hperm.pairwise_iff (fun h => Ne.symm h)).mpr hdistCO
    have hmemL : ∀ i, i ∈ order.filter (fun i => decide (2 ≤ i)) ↔
        (i < g.blocks.length ∧ 2 ≤ i) := by
      intro i
      rw [List.mem_filter]
      constructor
      · rintro ⟨h1, h2⟩
        exact ⟨List.mem_range.mp (hperm.mem_iff.mp h1), by simpa using h2⟩
      · rintro ⟨h1, h2⟩
        exact ⟨hperm.mem_iff.mpr (List.mem_range.mpr h1), by simpa⟩
    have hcoid : ∀ id ∈ order.filter (fun i => decide (2 ≤ i)),
        (g.getBlock id).codeOrder = Int.ofNat (blockStart g id) := by
      intro id hid
      obtain ⟨hlt, h2i⟩ := (hmemL id).mp hid
      obtain ⟨s, l, hs, hsh, -⟩ := hblocks id h2i hlt
      obtain ⟨e, -, -, -, -, hco, -, -⟩ :=
        block_shape_spec props seq s l id (g.getBlock id) hs hsh
      rw [hco]
      unfold blockStart
      rw [hco]
      rfl
    have hdata : ∀ id ∈ order.filter (fun i => decide (2 ≤ i)),
        (g.getBlock id).instrs = sliceInstrs seq (blockStart g id) (blockEnd g id) ∧
        blockStart g id < blockEnd g id ∧ blockEnd g id ≤ seq.length ∧
        (∀ m, blockStart g id < m → m < blockEnd g id → ¬ scanStop props seq m) ∧
        (blockStart g id = 0 ∨ scanStop props seq (blockStart g id)) := by
      intro id hid
      obtain ⟨hlt, h2i⟩ := (hmemL id).mp hid
      obtain ⟨s, l, hs, hsh, hstop⟩ := hblocks id h2i hlt
      obtain ⟨e, he1, he2, he3, he4, hco, hinstr, hblen⟩ :=
        block_shape_spec props seq s l id (g.getBlock id) hs hsh
      have hbs : blockStart g id = s := by
        unfold blockStart
        rw [hco]
        rfl
      have hbe : blockEnd g id = e := by
        unfold blockEnd
        rw [hbs, hblen]
        omega
      rw [hbs, hbe]
      exact ⟨hinstr, he1, he2, he4, hstop⟩
    have hsortL : (order.filter (fun i => decide (2 ≤ i))).Pairwise
        (fun a b => blockStart g a ≤ blockStart g b) := by
      have hsub : List.Sublist (order.filter (fun i => decide (2 ≤ i))) order :=
        List.filter_sublist order
      have h0 := List.Pairwise.sublist hsub hsorted
      exact List.Pairwise.imp (fun h => Int.toNat_le_toNat h) h0
    have hdistL : (order.filter (fun i => decide (2 ≤ i))).Pairwise
        (fun a b => blockStart g a ≠ blockStart g b) := by
      have hsub : List.Sublist (order.filter (fun i => decide (2 ≤ i))) order :=
        List.filter_sublist order
      have h0 := List.Pairwise.sublist hsub hdistO
      refine List.Pairwise.imp_of_mem ?_ h0
      intro a b ha hb hne heq
      apply hne
      rw [hcoid a ha, hcoid b hb, heq]
    have hcovL : ∀ ix, 0 ≤ ix → ix < seq.length →
        ∃ id ∈ order.filter (fun i => decide (2 ≤ i)),
          blockStart g id ≤ ix ∧ ix < blockEnd g id := by
      intro ix hix0 hix
      obtain ⟨i, hilt, h2i, hsx, hex⟩ := hcover ix hix
      exact ⟨i, (hmemL i).mpr ⟨hilt, h2i⟩, hsx, hex⟩
    have htile := tile_concat props seq g (order.filter (fun i => decide (2 ≤ i))) 0
      hdata (fun id _ => Nat.zero_le _) hsortL hdistL hcovL (Nat.zero_le _)
    rw [sliceInstrs_full] at htile
    unfold CFG.rebuildInstructionSequence at hout
    have hinil01 : ∀ x ∈ order, (fun i => decide (2 ≤ i)) x = false →
        (g.getBlock x).instrs = [] := by
      intro x hx hfalse
      have hxlt : x < g.blocks.length := List.mem_range.mp (hperm.mem_iff.mp hx)
      have hx01 : x = 0 ∨ x = 1 := by
        simp at hfalse
        omega
      rcases hx01 with rfl | rfl
      · apply List.eq_nil_of_length_eq_zero
        rw [ISeq.instrs_length]
        exact hlen0
      · apply List.eq_nil_of_length_eq_zero
        rw [ISeq.instrs_length]
        exact hlen1
    have hsnil01 : ∀ x ∈ order, (fun i => decide (2 ≤ i)) x = false →
        (g.getBlock x).slots = [] := by
      intro x hx hfalse
      have hxlt : x < g.blocks.length := List.mem_range.mp (hperm.mem_iff.mp hx)
      have hx01 : x = 0 ∨ x = 1 := by
        simp at hfalse
        omega
      rcases hx01 with rfl | rfl
      · exact List.eq_nil_of_length_eq_zero hlen0
      · exact List.eq_nil_of_length_eq_zero hlen1
    have hshapes : ∀ id ∈ order,
        ((g.getBlock id).slots = [] ∧ (g.getBlock id).hasBlockLabel = false) ∨
        ∃ sl tl, (g.getBlock id).slots = sl :: tl ∧
          sl.label = (g.getBlock id).getBlockLabel ∧ ∀ s ∈ tl, s.label = "" := by
      intro id hid
      have hidlt : id < g.blocks.length := List.mem_range.mp (hperm.mem_iff.mp hid)
      by_cases h2 : 2 ≤ id
      · obtain ⟨s, l, hs, hsh, -⟩ := hblocks id h2 hidlt
        obtain ⟨e, -, -, -, -, -, -, -, hslotsN, hlblN, -⟩ :=
          block_shape_full props seq s l id (g.getBlock id) hs hsh
        refine Or.inr ⟨⟨l, seq.getInstruction s⟩, _, hslotsN, ?_, ?_⟩
        · show l = (g.getBlock id).getBlockLabel
          exact hlblN.symm
        · intro s' hs'
          obtain ⟨i, -, hi⟩ := List.mem_map.mp hs'
          rw [← hi]
      · have h01 : id = 0 ∨ id = 1 := by omega
        rcases h01 with rfl | rfl
        · exact Or.inl ⟨List.eq_nil_of_length_eq_zero hlen0, hhas0⟩
        · exact Or.inl ⟨List.eq_nil_of_length_eq_zero hlen1, hhas1⟩
    have hreb := rebuild_instrs g order ({} : ISeq) out hout
    rw [show ({} : ISeq).instrs = [] from rfl, List.nil_append] at hreb
    have hrebS := rebuild_slots g order ({} : ISeq) out hshapes rfl hout
    rw [show ({} : ISeq).slots = [] from rfl, List.nil_append] at hrebS
    have houtslots : out.slots =
        ((order.filter (fun i => decide (2 ≤ i))).map
          (fun id => (g.getBlock id).slots)).flatten := by
      rw [hrebS, flatten_filter_of_nil (fun id => (g.getBlock id).slots)
        (fun i => decide (2 ≤ i)) order hsnil01]
    have htileD := tile_getD props seq g ⟨"", ⟨0, []⟩⟩
      (order.filter (fun i => decide (2 ≤ i))) 0
      hdata (fun id _ => Nat.zero_le _) hsortL hdistL hcovL (Nat.zero_le _)
    constructor
    · rw [hreb, flatten_filter_of_nil (fun id => (g.getBlock id).instrs)
        (fun i => decide (2 ≤ i)) order hinil01]
      exact htile
    · intro t l hl
      constructor
      · rintro ⟨hlab, htlt⟩
        obtain ⟨idc, hidcL, hs, he⟩ := hcovL t (Nat.zero_le _) htlt
        obtain ⟨hltc, h2c⟩ := (hmemL idc).mp hidcL
        obtain ⟨s, lbl, hsx, hshx, -⟩ := hblocks idc h2c hltc
        obtain ⟨e, he1, he2, he3, he4, hcoN, -, hlenN, hslotsN, hlblN, -⟩ :=
          block_shape_full props seq s lbl idc (g.getBlock idc) hsx hshx
        have hbs : blockStart g idc = s := by
          unfold blockStart
          rw [hcoN]
          rfl
        have hkc : t - blockStart g idc < blockEnd g idc - blockStart g idc := by
          omega
        have htd := htileD idc hidcL (t - blockStart g idc) hkc
        rw [show blockStart g idc + (t - blockStart g idc) - 0 = t from by omega]
          at htd
        rw [houtslots, htd, hslotsN] at hlab
        rcases Nat.eq_zero_or_pos (t - blockStart g idc) with hz | hpos
        · rw [hz, List.getD_cons_zero] at hlab
          have hlbleq : lbl = l := hlab
          obtain ⟨hidxL, j, hjlt, hjrb, hjtl⟩ := hL1 idc h2c hltc
            (by rw [hlblN, hlbleq]; exact hl)
          constructor
          · rw [hlblN, hlbleq, hcoN] at hidxL
            rw [show (Int.ofNat s).toNat = s from rfl] at hidxL
            have hts : s = t := by omega
            rw [hts] at hidxL
            exact hidxL
          · refine ⟨j, hjlt, hjrb, ?_⟩
            rw [hjtl, hlblN]
            exact hlbleq
        · obtain ⟨k', hk'⟩ := Nat.exists_eq_succ_of_ne_zero
            (by omega : t - blockStart g idc ≠ 0)
          rw [hk', List.getD_cons_succ] at hlab
          rw [blank_slots_getD_label] at hlab
          exact absurd hlab.symm hl
      · rintro ⟨hli, j, hj, hrb, htl⟩
        have htlt : t < seq.length := (labelIndex_hasLabel seq l t hli).1
        obtain ⟨idc, hidcL, hsj, hej⟩ := hcovL j (Nat.zero_le _) hj
        obtain ⟨hltc, h2c⟩ := (hmemL idc).mp hidcL
        obtain ⟨s, lbl, hsx, hshx, -⟩ := hblocks idc h2c hltc
        obtain ⟨e, he1, he2, he3, he4, hcoN, -, hlenN, hslotsN, hlblN, hlastN⟩ :=
          block_shape_full props seq s lbl idc (g.getBlock idc) hsx hshx
        have hbs : blockStart g idc = s := by
          unfold blockStart
          rw [hcoN]
          rfl
        have hbe : blockEnd g idc = e := by
          unfold blockEnd
          rw [hlenN]
          omega
        obtain ⟨-, -, -, hminc, -⟩ := hdata idc hidcL
        have hstopj : scanStop props seq (j + 1) :=
          Or.inr (Or.inr (Or.inl (by
            rw [show j + 1 - 1 = j from rfl]
            exact hrb.2)))
        have hej1 : blockEnd g idc = j + 1 := by
          by_contra hne
          exact hminc (j + 1) (by omega) (by omega) hstopj
        have hlast : (g.getBlock idc).getLastInstruction =
            seq.getInstruction j := by
          rw [hlastN, show e - 1 = j from by omega]
        have hbrc : endsInBranch props (g.getBlock idc) = true :=
          endsInBranch_intro props _ (by rw [hlast]; exact hrb.1)
            (by rw [hlast]; exact hrb.2)
        obtain ⟨t', id2, hli', h2id2, hid2lt, hlbl2, hco2⟩ := hL2 idc h2c hltc hbrc
        rw [hlast, htl] at hli' hlbl2
        have htt : t' = t := Option.some.inj (hli'.symm.trans hli)
        subst htt
        have hid2L : id2 ∈ order.filter (fun i => decide (2 ≤ i)) :=
          (hmemL id2).mpr ⟨hid2lt, h2id2⟩
        obtain ⟨s2, lbl2, hs2x, hsh2x, -⟩ := hblocks id2 h2id2 hid2lt
        obtain ⟨e2, hg1, hg2, hg3, hg4, hco2N, -, hlen2N, hslots2N, hlbl2N, -⟩ :=
          block_shape_full props seq s2 lbl2 id2 (g.getBlock id2) hs2x hsh2x
        have hs2t : s2 = t' := by
          have hint : Int.ofNat s2 = Int.ofNat t' := by
            rw [← hco2N, hco2]
          exact Int.ofNat.inj hint
        have hbs2 : blockStart g id2 = s2 := by
          unfold blockStart
          rw [hco2N]
          rfl
        obtain ⟨-, hlt2c, -, -, -⟩ := hdata id2 hid2L
        have htd2 := htileD id2 hid2L 0 (by omega)
        rw [show blockStart g id2 + 0 - 0 = t' from by omega] at htd2
        refine ⟨?_, htlt⟩
        rw [houtslots, htd2, hslots2N, List.getD_cons_zero]
        show lbl2 = l
        rw [← hlbl2N]
        exact hlbl2

/-- Witness for C1: the straight-line `witnessSeq` is fully covered by the
interior blocks of its CFG, the round trip reproduces its instruction list
exactly, and the labeled branch-target instructions agree. -/
theorem claim_C1_witness :
    ((∀ ix, ix < witnessSeq.length → ∃ i, i < witnessCfg.blocks.length ∧ 2 ≤ i ∧
      blockStart witnessCfg i ≤ ix ∧ ix < blockEnd witnessCfg i) ∧
     build highLevelProps witnessSeq = .ok witnessCfg ∧
     CFG.createInstructionSequence witnessCfg = some witnessRoundTrip) ∧
    (witnessRoundTrip.instrs = witnessSeq.instrs ∧
     ∀ t l, l ≠ "" →
       (((witnessRoundTrip.slots.getD t ⟨"", ⟨0, []⟩⟩).label = l ∧
           t < witnessSeq.length) ↔
         (witnessSeq.labelIndex l = some t ∧ ∃ j, j < witnessSeq.length ∧
           isRealBranchAt highLevelProps witnessSeq j ∧
           branchTargetLabel (witnessSeq.getInstruction j) = l))) :=
  ⟨⟨by decide, by rfl, by rfl⟩,
   claim_C1 highLevelProps witnessSeq witnessCfg witnessRoundTrip (by rfl)
     (by decide) (by rfl)⟩
